import Mathlib

/-!
# Verification of the CONGA decomposition core (`circulo/algorithms/CONGA.py`)

This file gives a shallow embedding, in Lean 4, of the CONGA algorithm of
`src/circulo/algorithms/CONGA.py` and settles the frozen claims about it.

Embedding conventions:
* An igraph `Graph` is modelled as a vertex count `n`, an edge list
  (pairs of vertex indices, in edge-id order, as igraph stores them) and the
  per-vertex `CONGA_orig` attribute vector.
* igraph's library routines (`get_all_shortest_paths`, `edge_betweenness`,
  `betweenness`, `edge_disjoint_paths`, `components`, `VertexCover`) are not
  part of the repository; they are modelled from their documented semantics,
  which the spec restates in its §4.1–§4.2 (all minimum-length paths,
  standard fractional betweenness, zero edge-disjoint paths = disconnected,
  `VertexCover(OG)` with no cluster argument = one cluster covering all
  vertices).
* Python floats are modelled as `ℚ` (the numerators/denominators arising here
  are exact in floats only incidentally; the algorithmic comparisons are what
  the claims are about), Python ints as `ℕ`, Python dicts as insertion-ordered
  association lists or as functions together with an explicit key order.
* Python crashes (`IndexError` on `clique[0,1]`, `UnboundLocalError` on
  `vNum`, `max()` on an empty sequence) are modelled by `Option`, `none`
  meaning the computation aborts.
-/

namespace Conga

/-- The igraph graph object: vertex count, edge list in edge-id order, and the
per-vertex `CONGA_orig` attribute. Undirected: an edge `(a, b)` joins `a` and
`b` regardless of orientation. -/
structure Graph where
  n : ℕ
  edges : List (ℕ × ℕ)
  orig : List ℕ
deriving Repr, DecidableEq

/-- Unordered coincidence of two edge records. -/
def sameEdge (e f : ℕ × ℕ) : Prop :=
  (e.1 = f.1 ∧ e.2 = f.2) ∨ (e.1 = f.2 ∧ e.2 = f.1)

instance : DecidablePred fun p : (ℕ × ℕ) × (ℕ × ℕ) => sameEdge p.1 p.2 := by
  intro p; unfold sameEdge; infer_instance

instance (e f : ℕ × ℕ) : Decidable (sameEdge e f) := by
  unfold sameEdge; infer_instance

/-- A simple undirected graph in the sense of the spec's input contract (§6):
edges join two distinct existing vertices and no unordered pair occurs twice;
the attribute vector covers every vertex. -/
def Graph.Simple (G : Graph) : Prop :=
  (∀ e ∈ G.edges, e.1 < G.n ∧ e.2 < G.n ∧ e.1 ≠ e.2) ∧
    G.edges.Pairwise (fun e f => ¬ sameEdge e f)

instance (G : Graph) : Decidable G.Simple := by
  unfold Graph.Simple; infer_instance

/-- `G.neighbors(v)` as igraph computes it: both endpoints of every incident
edge, in edge-id order (a self-loop contributes `v` twice). -/
def Graph.nbrs (G : Graph) (v : ℕ) : List ℕ :=
  G.edges.flatMap fun e =>
    (if e.1 = v then [e.2] else []) ++ (if e.2 = v then [e.1] else [])

/-- Adjacency: some edge joins `a` and `b` (in either orientation). -/
def Graph.adj (G : Graph) (a b : ℕ) : Bool :=
  G.edges.any fun e => (e.1 = a ∧ e.2 = b) ∨ (e.1 = b ∧ e.2 = a)

/-! ## Walks and all shortest paths

Models igraph's `get_all_shortest_paths` per spec §4.1: the set of **all**
minimum-length paths between two vertices. `wks G s k` enumerates the walks of
length `k` (edge steps) starting at `s`, stored reversed (head = current
endpoint, last = `s`). -/

/-- All walks of `k` steps starting at `s`, each stored reversed. -/
def wks (G : Graph) (s : ℕ) : ℕ → List (List ℕ)
  | 0 => [[s]]
  | k + 1 =>
    (wks G s k).flatMap fun w =>
      match w with
      | [] => []
      | c :: _ => (G.nbrs c).map fun x => x :: w

/-- Is there a walk of exactly `k` steps from `s` to `t`? -/
def hasWalk (G : Graph) (s t : ℕ) (k : ℕ) : Bool :=
  !((wks G s k).filter fun w => w.head? = some t).isEmpty

/-- First `k ≥ start` with `p k`, among `fuel` candidates. -/
def firstHit (p : ℕ → Bool) : ℕ → ℕ → Option ℕ
  | 0, _ => none
  | fuel + 1, k => if p k then some k else firstHit p fuel (k + 1)

/-- Graph distance: the least walk length from `s` to `t` (searching up to
`G.n` steps, which suffices since minimal walks repeat no vertex). -/
def gdist (G : Graph) (s t : ℕ) : Option ℕ :=
  firstHit (fun k => hasWalk G s t k) (G.n + 1) 0

/-- All shortest paths from `s` to `t`, in forward order, as igraph's
`get_all_shortest_paths` enumerates between one pair. Empty when `t` is
unreachable from `s`. -/
def shortestPaths (G : Graph) (s t : ℕ) : List (List ℕ) :=
  match gdist G s t with
  | none => []
  | some k => ((wks G s k).filter fun w => w.head? = some t).map List.reverse

/-- Connectivity test: models `edge_disjoint_paths(source, target) > 0`
(Menger: some path exists iff some edge-disjoint path exists). -/
def reachable (G : Graph) (s t : ℕ) : Bool :=
  (gdist G s t).isSome

/-! ## Betweenness (models igraph `edge_betweenness` / `betweenness`) -/

/-- The unordered vertex pairs `(s, t)`, `s < t`. -/
def pairsUpper (G : Graph) : List (ℕ × ℕ) :=
  (List.range G.n).flatMap fun s =>
    ((List.range G.n).filter fun t => s < t).map fun t => (s, t)

/-- Does the path `p` traverse edge `e` (in either direction)? -/
def usesEdge (e : ℕ × ℕ) (p : List ℕ) : Bool :=
  (p.zip p.tail).any fun c =>
    (c.1 = e.1 ∧ c.2 = e.2) ∨ (c.1 = e.2 ∧ c.2 = e.1)

/-- Interior vertices of a path (all but the endpoints). -/
def interior (p : List ℕ) : List ℕ := p.tail.dropLast

/-- Fractional edge betweenness of one edge (sum over unordered pairs of the
fraction of shortest paths traversing it). -/
def ebOf (G : Graph) (e : ℕ × ℕ) : ℚ :=
  ((pairsUpper G).map fun st =>
    (((shortestPaths G st.1 st.2).countP fun p => usesEdge e p : ℕ) : ℚ) /
      ((shortestPaths G st.1 st.2).length : ℚ)).sum

/-- `G.edge_betweenness()`: one score per edge, in edge-id order. -/
def edge_betweenness (G : Graph) : List ℚ :=
  G.edges.map (ebOf G)

/-- Fractional vertex betweenness of one vertex (paths with `v` strictly
inside; pairs involving `v` contribute nothing). -/
def vbOf (G : Graph) (v : ℕ) : ℚ :=
  ((pairsUpper G).map fun st =>
    if v = st.1 ∨ v = st.2 then 0
    else (((shortestPaths G st.1 st.2).countP fun p => v ∈ interior p : ℕ) : ℚ) /
      ((shortestPaths G st.1 st.2).length : ℚ)).sum

/-- `G.betweenness()`: one score per vertex. -/
def betweenness (G : Graph) : List ℚ :=
  (List.range G.n).map (vbOf G)

/-! ## Python dictionaries

A Python dict is insertion-ordered; comprehension over a key stream keeps each
key at its first position (later duplicates only overwrite the value). -/

/-- First-occurrence deduplication, as a dict comprehension orders its keys. -/
def pyDedup {α : Type} [DecidableEq α] : List α → List α
  | [] => []
  | k :: ks => k :: (pyDedup ks).filter fun x => x ≠ k

/-- `itertools.permutations(l, 2)`: ordered pairs of entries at distinct
positions, in lexicographic position order. -/
def perms2 (l : List ℕ) : List (ℕ × ℕ) :=
  l.enum.flatMap fun ia =>
    l.enum.filterMap fun jb => if ia.1 ≠ jb.1 then some (ia.2, jb.2) else none

/-- One candidate vertex's pair-betweenness table: an insertion-ordered dict
from ordered neighbour pairs to counts. -/
abbrev Tab := List ((ℕ × ℕ) × ℕ)

/-- Dict lookup. -/
def dget (t : Tab) (k : ℕ × ℕ) : Option ℕ :=
  (t.find? fun e => e.1 = k).map (·.2)

/-- `t[k] += 2`. A missing key would raise `KeyError` in Python; that case is
proved unreachable below (`addTriples` only bumps pre-seeded keys), so the
model leaves the table unchanged there. -/
def dbump (t : Tab) (k : ℕ × ℕ) : Tab :=
  t.map fun e => if e.1 = k then (e.1, e.2 + 2) else e

/-- The outer dict of `pair_betweenness`: candidate vertex ↦ its table. -/
abbrev Dic := List (ℕ × Tab)

/-- `path[back-2] in dic`. -/
def dicHas (d : Dic) (v : ℕ) : Bool :=
  d.any fun e => e.1 = v

/-- `dic[v][(u, w)] += 2`. -/
def dicBump (d : Dic) (v : ℕ) (k : ℕ × ℕ) : Dic :=
  d.map fun e => if e.1 = v then (e.1, dbump e.2 k) else e

/-- Table lookup in the outer dict. -/
def dlook (d : Dic) (v : ℕ) : Option Tab :=
  (d.find? fun e => e.1 = v).map (·.2)

/-- `{vertex : {uw : 0 for uw in permutations(G.neighbors(vertex), 2)} for
vertex in arr}`. -/
def dicInit (G : Graph) (arr : List ℕ) : Dic :=
  arr.map fun v => (v, (pyDedup (perms2 (G.nbrs v))).map fun k => (k, 0))

/-- The inner while loop of `pair_betweenness`: for every consecutive triple
`(u, v, w)` of the path, if `v` is a candidate, add 2 to `dic[v][(u, w)]` and
to `dic[v][(w, u)]`. -/
def addTriples (d : Dic) : List ℕ → Dic
  | u :: v :: w :: rest =>
    let d' := if dicHas d v then dicBump (dicBump d v (u, w)) v (w, u) else d
    addTriples d' (v :: w :: rest)
  | _ => d

/-- One step of the seen-set loop of `pair_betweenness`: skip a path whose
`(first, last)` endpoints were already handled, else record the reversed
endpoint pair (`seen.add`, idempotent) and count the path's triples. -/
def processPath (st : List (ℕ × ℕ) × Dic) (p : List ℕ) : List (ℕ × ℕ) × Dic :=
  if (p.head?.getD 0, p.getLast?.getD 0) ∈ st.1 then st
  else (List.insert (p.getLast?.getD 0, p.head?.getD 0) st.1, addTriples st.2 p)

/-- `allPairsShortestPaths`: for every source vertex, all shortest paths to
every vertex (igraph's enumeration order: by source, then by target). -/
def allSP (G : Graph) : List (List ℕ) :=
  (List.range G.n).flatMap fun s =>
    (List.range G.n).flatMap fun t => shortestPaths G s t

/-- `pair_betweenness(G, arr)` (CONGA.py lines 160–191). -/
def pair_betweenness (G : Graph) (arr : List ℕ) : Dic :=
  ((allSP G).foldl processPath ([], dicInit G arr)).2

/-! ## numpy matrices -/

/-- A numpy matrix as a row list. -/
abbrev Mat := List (List ℚ)

/-- `np.zeros((n, n))`. -/
def zeros (n : ℕ) : Mat :=
  List.replicate n (List.replicate n 0)

/-- Entry read with numpy-default 0 outside bounds (every in-context read is
proved in bounds). -/
def mget (M : Mat) (i j : ℕ) : ℚ :=
  (((M.get? i).getD []).get? j).getD 0

/-- Entry write `M[i, j] = x`. -/
def mset (M : Mat) (i j : ℕ) (x : ℚ) : Mat :=
  M.set i (((M.get? i).getD []).set j x)

/-- `np.fill_diagonal(M, 0)`. -/
def fillDiag (M : Mat) : Mat :=
  M.enum.map fun ir => ir.2.set ir.1 0

/-- `numpy.argmin` over a flat list: index of the first minimum (0 on an empty
list, where numpy raises instead; never reached in context). -/
def argminIdx {α : Type} [LinearOrder α] (l : List α) : ℕ :=
  ((l.enum.foldl
    (fun acc p =>
      match acc with
      | none => some p
      | some q => if p.2 < q.2 then some p else some q)
    none).map (·.1)).getD 0

/-- The matrix flattened row-major with the diagonal masked to `+∞`, as
`mat_min` prepares it (`np.fill_diagonal(M, float('inf'))`). -/
def maskedFlat (M : Mat) : List (WithTop ℚ) :=
  (M.enum.map fun ir =>
    ir.2.enum.map fun jx =>
      if ir.1 = jx.1 then (⊤ : WithTop ℚ) else (jx.2 : WithTop ℚ)).flatten

/-- `mat_min` (CONGA.py lines 279–291): `np.unravel_index(M.argmin(), M.shape)`
with the diagonal masked. (The source temporarily writes `inf` into the
diagonal and then restores 0 there; within the collapse the diagonal is
already 0, so the embedding is read-only.) -/
def mat_min (M : Mat) : ℕ × ℕ :=
  let cols := ((M.get? 0).getD []).length
  let idx := argminIdx (maskedFlat M)
  (idx / cols, idx % cols)

/-- `np.triu_indices(n, 1)` read-out: upper-triangle values in row-major
order. -/
def upperVals (M : Mat) : List ℚ :=
  (List.range M.length).flatMap fun i =>
    ((List.range M.length).filter fun j => i < j).map fun j => mget M i j

/-- The index-recovery while loop of `matrix_min`, with Python's exact integer
arithmetic; `fuel` bounds the iterations (in the valid regime the loop exits
with `triN ≥ 1`). -/
def triuLoop : ℕ → ℤ → ℤ → ℕ → ℤ × ℤ × ℕ
  | 0, minDex, triN, row => (minDex, triN, row)
  | fuel + 1, minDex, triN, row =>
    if triN ≤ minDex then triuLoop fuel (minDex - triN) (triN - 1) (row + 1)
    else (minDex, triN, row)

/-- `matrix_min` (CONGA.py lines 252–276): argmin over the upper triangle,
then conversion of the flat triangular index back to `(row, col)`. -/
def matrix_min (M : Mat) : ℕ × ℕ :=
  let nn := M.length
  let minDex : ℤ := argminIdx (upperVals M)
  let r := triuLoop nn minDex ((nn : ℤ) - 1) 0
  (r.2.2, ((nn : ℤ) - r.2.1 + r.1).toNat)

/-- `reduce_matrix` (CONGA.py lines 294–313): merge the row and column of the
minimum cell `j` into those of `i`, delete row and column `j`, re-zero the
diagonal. -/
def reduce_matrix (M : Mat) : ℕ × ℕ × Mat :=
  let ij := mat_min M
  let i := ij.1
  let j := ij.2
  let M1 := M.set i (((M.get? j).getD []).zipWith (· + ·) ((M.get? i).getD []))
  let M2 := M1.eraseIdx j
  let M3 := M2.map fun r => r.set i (((r.get? j).getD 0) + ((r.get? i).getD 0))
  let M4 := M3.map fun r => r.eraseIdx j
  (i, j, fillDiag M4)

/-! ## The optimal split finder -/

/-- `{neigh : i for i, neigh in enumerate(neighbors)}` as a lookup function
(a later duplicate position overwrites an earlier one, exactly as the dict
comprehension does). -/
def nbMapFun (nb : List ℕ) : ℕ → ℕ :=
  nb.enum.foldl (fun f p x => if x = p.2 then p.1 else f x) fun _ => 0

/-- `create_clique` (CONGA.py lines 194–216): scatter the pair-betweenness
scores into an `n × n` matrix over neighbour positions, then zero the
diagonal. -/
def create_clique (G : Graph) (v : ℕ) (pbv : Tab) : Mat :=
  let nb := G.nbrs v
  let mp := nbMapFun nb
  let written := pbv.foldl (fun M e => mset M (mp e.1.1) (mp e.1.2) (e.2 : ℚ)) (zeros nb.length)
  fillDiag written

/-- `M.size` for numpy. -/
def msize (M : Mat) : ℕ :=
  (M.map (·.length)).sum

/-- The `while clique.size > 4` collapse loop of `max_split_betweenness`,
including the `vMap[i] += vMap.pop(j)` bookkeeping (the pop happens before the
extension, as Python evaluates it). `none` models a run that would not reach a
2×2 matrix within `fuel` steps. -/
def collapse : ℕ → Mat × List (List ℕ) → Option (Mat × List (List ℕ))
  | fuel, (M, vm) =>
    if msize M ≤ 4 then some (M, vm)
    else
      match fuel with
      | 0 => none
      | fuel + 1 =>
        let r := reduce_matrix M
        let popped := (vm.get? r.2.1).getD []
        let vm1 := vm.eraseIdx r.2.1
        let vm' := vm1.set r.1 (((vm1.get? r.1).getD []) ++ popped)
        collapse fuel (r.2.2, vm')

/-- The per-candidate loop of `max_split_betweenness`, threading `vMax` and
the optional current best `(vNum, vSpl)` (`none` while unbound). Reaching
`return vMax,vNum,vSpl` with them still unbound is Python's
`UnboundLocalError`, modelled as `none`, as is an out-of-bounds
`clique[0, 1]` (`IndexError`). -/
def msbLoop (G : Graph) : Dic → ℚ → Option (ℕ × List (List ℕ)) →
    Option (ℚ × Option (ℕ × List (List ℕ)))
  | [], vMax, best =>
    match best with
    | none => none
    | some b => some (vMax, some b)
  | (v, pbv) :: rest, vMax, best =>
    let clique := create_clique G v pbv
    let vMap := (G.nbrs v).map fun ve => [ve]
    match collapse (G.nbrs v).length (clique, vMap) with
    | none => none
    | some (c2, vm2) =>
      match ((c2.get? 0).getD []).get? 1 with
      | none => none
      | some val =>
        if val > vMax then msbLoop G rest val (some (v, vm2))
        else msbLoop G rest vMax best

/-- `max_split_betweenness` (CONGA.py lines 219–249). -/
def max_split_betweenness (G : Graph) (dic : Dic) :
    Option (ℚ × Option (ℕ × List (List ℕ))) :=
  msbLoop G dic 0 none

/-! ## Graph mutation and the per-iteration driver -/

/-- `G.delete_edges(edge)` for an endpoint pair: removes the matching edge
(unique in a simple graph; the model removes the first match). -/
def removeFirstEdge (edges : List (ℕ × ℕ)) (e : ℕ × ℕ) : List (ℕ × ℕ) :=
  edges.eraseP fun f => decide (sameEdge f e)

/-- `check_for_split` (CONGA.py lines 118–125): `edge_disjoint_paths = 0`,
i.e. the two vertices are in different components. -/
def check_for_split (G : Graph) (e : ℕ × ℕ) : Bool :=
  !(reachable G e.1 e.2)

/-- `delete_edge` (CONGA.py lines 109–115). -/
def delete_edge (G : Graph) (e : ℕ × ℕ) : Bool × Graph :=
  let G' : Graph := { G with edges := removeFirstEdge G.edges e }
  (check_for_split G' e, G')

/-- `split_vertex` (CONGA.py lines 128–145): clone `v` (same `CONGA_orig`),
move every edge from `v` to a member of the instruction group onto the clone,
report whether `v` and the clone ended up disconnected. -/
def split_vertex (G : Graph) (v : ℕ) (grp : List ℕ) : Bool × Graph :=
  let newIdx := G.n
  let G1 : Graph :=
    { n := G.n + 1, edges := G.edges, orig := G.orig ++ [(G.orig.get? v).getD 0] }
  let G2 := grp.foldl
    (fun H p => { H with edges := removeFirstEdge (H.edges ++ [(newIdx, p)]) (v, p) }) G1
  (check_for_split G2 (v, newIdx), G2)

/-- `max(enumerate(eb), key=operator.itemgetter(1))`: the first index
attaining the maximum (`none` on an empty sequence, Python's `ValueError`). -/
def maxEnum (l : List ℚ) : Option (ℕ × ℚ) :=
  l.enum.foldl
    (fun acc p =>
      match acc with
      | none => some p
      | some q => if p.2 > q.2 then some p else some q)
    none

/-- `remove_edge_or_split_vertex` (CONGA.py lines 64–94). `none` models the
Python crashes (`ValueError` on an edgeless graph, `IndexError`/
`UnboundLocalError` inside the split finder). -/
def remove_edge_or_split_vertex (G : Graph) : Option (Bool × Graph) := do
  let (maxIndex, maxEb) ← maxEnum (edge_betweenness G)
  let vb := betweenness G
  let vi := (vb.enum.filter fun p => p.2 ≥ maxEb).map (·.1)
  let edge ← G.edges.get? maxIndex
  if vi.isEmpty then
    return delete_edge G edge
  else
    let pb := pair_betweenness G vi
    let (maxSplit, best) ← max_split_betweenness G pb
    if maxSplit > maxEb then
      match best with
      | none => none
      | some (vNum, spl) =>
        match spl.get? 0 with
        | none => none
        | some g0 => return split_vertex G vNum g0
    else
      return delete_edge G edge

/-! ## Components, covers, modularity (igraph models) and the driver loop -/

/-- The least vertex connected to `v`: the canonical representative of `v`'s
component. -/
def compRep (G : Graph) (v : ℕ) : ℕ :=
  (((List.range G.n).filter fun u => reachable G u v).head?).getD v

/-- `len(G.components())`. -/
def nComponents (G : Graph) : ℕ :=
  ((List.range G.n).filter fun v => compRep G v = v).length

/-- `G.components().membership`: per vertex, its component id (components
numbered in order of their least vertex, as igraph discovers them scanning
vertex ids). -/
def membership (G : Graph) : List ℕ :=
  (List.range G.n).map fun v =>
    ((List.range G.n).filter fun u => compRep G u = u).indexOf (compRep G v)

/-- `get_cover` (CONGA.py lines 97–106): group the `CONGA_orig` ids by
community, in order of first appearance of each community id. -/
def get_cover (G OG : Graph) (comm : List ℕ) : List (List ℕ) :=
  (pyDedup comm).map fun c =>
    comm.enum.filterMap fun ic =>
      if ic.2 = c then some ((G.orig.get? ic.1).getD 0) else none

/-- `G.modularity(membership)`: Newman modularity over `ℚ` (an edgeless graph
divides by zero, which `ℚ` sends to 0 where igraph reports NaN; no claim
inspects those values). -/
def modularity (G : Graph) (mem : List ℕ) : ℚ :=
  let m : ℚ := (G.edges.length : ℕ)
  ((pyDedup mem).map fun c =>
    let inside : ℚ :=
      ((G.edges.countP fun e =>
        (mem.get? e.1).getD 0 = c ∧ (mem.get? e.2).getD 0 = c : ℕ) : ℚ)
    let degc : ℚ :=
      (((mem.enum.filter fun vc => vc.2 = c).map
        fun vc => (G.nbrs vc.1).length).sum : ℕ)
    inside / m - (degc / (2 * m)) ^ 2).sum

/-- The mutable state of one `conga` run: the caller's graph object `og`, the
working copy `g`, and the accumulated history. -/
structure CState where
  og : Graph
  g : Graph
  calcMod : Option String
  nClusters : ℕ
  allCovers : List (ℕ × List (List ℕ))
  modDict : Option (List (ℕ × ℚ))
deriving Repr

/-- The value `conga` returns (the arguments of the final `CrispOverlap`
construction, which is an external collaborator). -/
structure CongaResult where
  og : Graph
  covers : List (ℕ × List (List ℕ))
  modularities : Option (List (ℕ × ℚ))
  modularity_measure : String
  optimal_count : Option ℕ
deriving Repr

/-- The `while G.es:` loop of `conga` (CONGA.py lines 47–56), with explicit
fuel; `none` models both fuel exhaustion and a crash inside an iteration. -/
def congaLoop : ℕ → CState → Option CState
  | 0, st => if st.g.edges.isEmpty then some st else none
  | fuel + 1, st =>
    if st.g.edges.isEmpty then some st
    else
      match remove_edge_or_split_vertex st.g with
      | none => none
      | some (split, g') =>
        if split then
          let comm := membership g'
          let cover := get_cover g' st.og comm
          let n' := st.nClusters + 1
          congaLoop fuel
            { st with
              g := g'
              nClusters := n'
              allCovers := st.allCovers ++ [(n', cover)]
              modDict :=
                match st.calcMod with
                | none => some ((st.modDict.getD []) ++ [(n', modularity g' comm)])
                | some _ => st.modDict }
        else
          congaLoop fuel { st with g := g' }

/-- `conga` (CONGA.py lines 24–61). The working graph is a copy of `OG` with
`CONGA_orig` set to the original indices; the initial history holds
`ig.VertexCover(OG)` (igraph's default: one cluster covering every vertex)
keyed by the component count, and — when `calculate_modularities` is `None` —
an eagerly computed modularity table. -/
def conga (OG : Graph) (calculate_modularities : Option String)
    (optimal_count : Option ℕ) (fuel : ℕ) : Option CongaResult :=
  let G0 : Graph := { OG with orig := List.range OG.n }
  let comm0 := membership G0
  let nC0 := nComponents G0
  let modDict0 : Option (List (ℕ × ℚ)) :=
    match calculate_modularities with
    | none => some [(nC0, modularity G0 comm0)]
    | some _ => none
  let st0 : CState :=
    { og := OG, g := G0, calcMod := calculate_modularities, nClusters := nC0,
      allCovers := [(nC0, [List.range OG.n])], modDict := modDict0 }
  match congaLoop fuel st0 with
  | none => none
  | some st =>
    some
      { og := st.og
        covers := st.allCovers
        modularities := st.modDict
        modularity_measure := calculate_modularities.getD "lazar"
        optimal_count := optimal_count }

/-! ## Specification-side predicates used by the theorems -/

/-- A square matrix: every row as long as the column of rows. -/
def IsSquare (M : Mat) : Prop :=
  ∀ r ∈ M, r.length = M.length

instance (M : Mat) : Decidable (IsSquare M) := by
  unfold IsSquare; infer_instance

/-- Symmetry of the stored entries. -/
def SymmM (M : Mat) : Prop :=
  ∀ i, i < M.length → ∀ j, j < M.length → mget M i j = mget M j i

instance (M : Mat) : Decidable (SymmM M) := by
  unfold SymmM; infer_instance

/-- A zero diagonal. -/
def ZeroDiag (M : Mat) : Prop :=
  ∀ i, i < M.length → mget M i i = 0

instance (M : Mat) : Decidable (ZeroDiag M) := by
  unfold ZeroDiag; infer_instance

/-- The strictly-upper index pairs of an `n × n` matrix in row-major order
(the order of `np.triu_indices(n, 1)`). -/
def upairs (n : ℕ) : List (ℕ × ℕ) :=
  (List.range n).flatMap fun i =>
    ((List.range n).filter fun j => i < j).map fun j => (i, j)

/-- Number of strictly-upper cells in rows `r, r+1, …` of an `n × n` matrix. -/
def uoffFrom (n r a : ℕ) : ℕ :=
  ((List.range' r (a - r)).map fun k => n - 1 - k).sum

/-- Row-major rank of the strictly-upper cell `(a, b)` in an `n × n` matrix. -/
def urank (n a b : ℕ) : ℕ :=
  uoffFrom n 0 a + (b - a - 1)

/-- A concrete symmetric 3 × 3 matrix used by witnesses. -/
def wMat3 : Mat :=
  [[0, 3, 1], [3, 0, 2], [1, 2, 0]]

/-- Graph-theoretic connectivity: some finite walk joins `s` to `t` (lists in
forward order, consecutive entries adjacent). The spec's §4.1 "lie in
different connected components" is the negation of this. -/
def Linked (G : Graph) (s t : ℕ) : Prop :=
  ∃ p : List ℕ, (p.Chain' fun a b => b ∈ G.nbrs a) ∧ p.head? = some s ∧
    p.getLast? = some t

/-- Number of occurrences of the consecutive triple `(u, v, w)` in a path. -/
def tripleCount (u v w : ℕ) : List ℕ → ℕ
  | a :: b :: c :: rest =>
    (if a = u ∧ b = v ∧ c = w then 1 else 0) + tripleCount u v w (b :: c :: rest)
  | _ => 0

/-- The number of undirected shortest paths of the graph that traverse the
consecutive triple `(u, v, w)` in either orientation — each unordered
endpoint pair contributing its paths once. -/
def tripleUsage (G : Graph) (u v w : ℕ) : ℕ :=
  ((pairsUpper G).map fun st =>
    (shortestPaths G st.1 st.2).countP fun p =>
      decide (0 < tripleCount u v w p + tripleCount w v u p)).sum

/-- Looking a pair-betweenness count up through both dictionary levels. -/
def dicEntry (d : Dic) (v : ℕ) (k : ℕ × ℕ) : Option ℕ :=
  (dlook d v).bind fun t => dget t k

/-- The original row/column index of position `x` after row/column `j` was
deleted. -/
def unshift (j x : ℕ) : ℕ :=
  if x < j then x else x + 1

/-- The spec's description of one collapse step (§4.3): merge row and column
`j` into row and column `i` by addition, delete row and column `j`, keep the
diagonal at zero. -/
def specReduce (M : Mat) (i j : ℕ) : Mat :=
  (List.range (M.length - 1)).map fun a =>
    (List.range (M.length - 1)).map fun b =>
      if a = b then 0
      else
        mget M (unshift j a) (unshift j b)
          + (if unshift j a = i then mget M j (unshift j b) else 0)
          + (if unshift j b = i then mget M (unshift j a) j else 0)

/-- The collapse result one candidate contributes inside
`max_split_betweenness`: its clique collapsed to 2 × 2 with the tracked
neighbour groups. -/
def candRes (G : Graph) (v : ℕ) (pbv : Tab) : Option (Mat × List (List ℕ)) :=
  collapse (G.nbrs v).length
    (create_clique G v pbv, (G.nbrs v).map fun ve => [ve])

/-- The candidate's split betweenness: the `clique[0, 1]` read of the
collapsed 2 × 2 matrix. -/
def candVal (G : Graph) (v : ℕ) (pbv : Tab) : Option ℚ :=
  (candRes G v pbv).bind fun r => ((r.1.get? 0).getD []).get? 1

/-- Which endpoint pairs the seen-set of `pair_betweenness` holds once the
double loop has handled every source before `s` and, for source `s`, every
target before `t`: the reversed endpoint pairs of the nonempty blocks whose
source did not exceed their target. -/
def seenProp (G : Graph) (s t : ℕ) (ab : ℕ × ℕ) : Prop :=
  ab.2 ≤ ab.1 ∧ ab.1 < G.n ∧ shortestPaths G ab.2 ab.1 ≠ [] ∧
    (ab.2 < s ∨ (ab.2 = s ∧ ab.1 < t))

/-- The triple occurrences the source-`x` target-`y` block of shortest paths
contributes to entry `(u, w)` (and `(w, u)`) of candidate `v`: lower blocks
are skipped by the seen-set and the diagonal block has no triples. -/
def blockInc (G : Graph) (u v w x y : ℕ) : ℕ :=
  if x < y then ((shortestPaths G x y).map fun p =>
    tripleCount u v w p + tripleCount w v u p).sum else 0

/-- Accumulated triple occurrences over all blocks before source `s`,
target `t`. -/
def incSum (G : Graph) (u v w s t : ℕ) : ℕ :=
  ((List.range s).map fun x => ((List.range G.n).map (blockInc G u v w x)).sum).sum
    + ((List.range t).map (blockInc G u v w s)).sum

end Conga

/-! ## Theorems -/

namespace Conga

/-! ### First-minimum extraction (`numpy.argmin` semantics) -/

theorem mem_of_get? {α : Type} {l : List α} {k : ℕ} {y : α}
    (h : l.get? k = some y) : y ∈ l := by
  have hk : k < l.length := by
    by_contra hge
    rw [List.get?_eq_getElem?, List.getElem?_eq_none (by omega)] at h
    exact Option.noConfusion h
  rw [List.get?_eq_getElem?, List.getElem?_eq_getElem hk] at h
  have := List.getElem_mem hk
  rwa [Option.some_inj.mp h] at this

theorem mem_enum_get? {α : Type} {l : List α} {i : ℕ} {x : α}
    (h : (i, x) ∈ l.enum) : l.get? i = some x := by
  have h' := List.mem_enumFrom h
  simp only [Nat.sub_zero] at h'
  obtain ⟨-, hlt, hx⟩ := h'
  rw [List.get?_eq_getElem?, List.getElem?_eq_getElem (by simpa using hlt)]
  exact congrArg some hx.symm

theorem get?_mem_enum {α : Type} {l : List α} {k : ℕ} {y : α}
    (h : l.get? k = some y) : (k, y) ∈ l.enum := by
  have hk : k < l.length := by
    by_contra hge
    rw [List.get?_eq_getElem?, List.getElem?_eq_none (by omega)] at h
    exact Option.noConfusion h
  have he := List.getElem?_enum l k
  rw [List.get?_eq_getElem?] at h
  rw [h] at he
  have hk' : k < l.enum.length := by
    rw [List.enum_length]
    exact hk
  rw [List.getElem?_eq_getElem hk'] at he
  have := List.getElem_mem hk'
  rw [Option.some_inj.mp he] at this
  exact this

/-- The first-minimum fold underlying `argminIdx`: on a nonempty list it finds
the minimum, and every entry before the returned position is strictly
larger. -/
theorem argmin_fold_spec {α : Type} [LinearOrder α] (l : List α) :
    match l.enum.foldl
      (fun acc p =>
        match acc with
        | none => some p
        | some q => if p.2 < q.2 then some p else some q)
      none with
    | none => l = []
    | some m => l.get? m.1 = some m.2 ∧ (∀ y ∈ l, m.2 ≤ y) ∧
        ∀ k, k < m.1 → ∀ y, l.get? k = some y → m.2 < y := by
  induction l using List.reverseRecOn with
  | nil => simp
  | append_singleton l b ih =>
    rw [List.enum_append, List.foldl_append]
    cases hr : l.enum.foldl
        (fun acc p =>
          match acc with
          | none => some p
          | some q => if p.2 < q.2 then some p else some q)
        none with
    | none =>
      rw [hr] at ih
      simp only [hr] at ih ⊢
      subst ih
      simp
    | some m =>
      rw [hr] at ih
      simp only [hr] at ih ⊢
      obtain ⟨hget, hmin, hbefore⟩ := ih
      have hm1 : m.1 < l.length := by
        by_contra hge
        rw [List.get?_eq_getElem?, List.getElem?_eq_none (by omega)] at hget
        exact Option.noConfusion hget
      simp only [List.enumFrom_cons, List.foldl_cons, List.foldl_nil]
      by_cases hb : b < m.2
      · simp only [if_pos hb]
        refine ⟨?_, ?_, ?_⟩
        · rw [List.get?_eq_getElem?, List.getElem?_append_right (le_refl _)]
          simp
        · intro y hy
          rcases List.mem_append.mp hy with hy | hy
          · exact le_of_lt (lt_of_lt_of_le hb (hmin y hy))
          · rw [List.mem_singleton.mp hy]
        · intro k hk y hky
          rw [List.get?_eq_getElem?, List.getElem?_append_left hk,
            ← List.get?_eq_getElem?] at hky
          exact lt_of_lt_of_le hb (hmin y (mem_of_get? hky))
      · simp only [if_neg hb]
        refine ⟨?_, ?_, ?_⟩
        · rw [List.get?_eq_getElem?, List.getElem?_append_left hm1,
            ← List.get?_eq_getElem?]
          exact hget
        · intro y hy
          rcases List.mem_append.mp hy with hy | hy
          · exact hmin y hy
          · rw [List.mem_singleton.mp hy]
            exact le_of_not_lt hb
        · intro k hk y hky
          rw [List.get?_eq_getElem?, List.getElem?_append_left (lt_trans hk hm1),
            ← List.get?_eq_getElem?] at hky
          exact hbefore k hk y hky

/-- The specification of `argminIdx` on a nonempty list: it points at the
minimum, and every earlier entry is strictly larger. -/
theorem argminIdx_spec {α : Type} [LinearOrder α] {l : List α} (h : l ≠ []) :
    ∃ x, l.get? (argminIdx l) = some x ∧ (∀ y ∈ l, x ≤ y) ∧
      ∀ k, k < argminIdx l → ∀ y, l.get? k = some y → x < y := by
  have hs := argmin_fold_spec l
  unfold argminIdx
  cases hr : l.enum.foldl
      (fun acc p =>
        match acc with
        | none => some p
        | some q => if p.2 < q.2 then some p else some q)
      none with
  | none =>
    rw [hr] at hs
    exact absurd hs h
  | some m =>
    rw [hr] at hs
    exact ⟨m.2, hs.1, hs.2.1, hs.2.2⟩

/-! ### The masked flattened matrix read by `mat_min` -/

theorem sum_map_const {α : Type} {l : List α} {f : α → ℕ} {c : ℕ}
    (h : ∀ x ∈ l, f x = c) : (l.map f).sum = l.length * c := by
  induction l with
  | nil => simp
  | cons a l ih =>
    simp only [List.map_cons, List.sum_cons, List.length_cons]
    rw [h a (List.mem_cons_self a l), ih fun x hx => h x (List.mem_cons_of_mem a hx)]
    ring

theorem mem_of_mem_enum {α : Type} {l : List α} {i : ℕ} {x : α}
    (h : (i, x) ∈ l.enum) : x ∈ l :=
  mem_of_get? (mem_enum_get? h)

theorem maskedFlat_length {M : Mat} (hsq : IsSquare M) :
    (maskedFlat M).length = M.length * M.length := by
  unfold maskedFlat
  rw [List.length_flatten, List.map_map]
  rw [sum_map_const (c := M.length), List.enum_length]
  intro p hp
  simp only [Function.comp_apply, List.length_map, List.enum_length]
  exact hsq p.2 (mem_of_mem_enum hp)

theorem flatten_get?_uniform {β : Type} :
    ∀ {L : List (List β)} {n : ℕ}, (∀ r ∈ L, r.length = n) →
      ∀ {i j : ℕ}, i < L.length → j < n →
        L.flatten.get? (i * n + j) = ((L.get? i).getD []).get? j
  | [], _, _, i, _, hi, _ => by simp at hi
  | r :: L, n, hlen, i, j, hi, hj => by
    have hr : r.length = n := hlen r (List.mem_cons_self r L)
    match i with
    | 0 =>
      simp only [List.flatten_cons, Nat.zero_mul, Nat.zero_add]
      rw [List.get?_eq_getElem?, List.getElem?_append_left (by omega)]
      simp [List.get?_eq_getElem?]
    | i + 1 =>
      simp only [List.flatten_cons]
      rw [List.get?_eq_getElem?, List.getElem?_append_right (by
        have : n ≤ (i + 1) * n + j := by
          calc n ≤ (i + 1) * n := Nat.le_mul_of_pos_left n (by omega)
          _ ≤ (i + 1) * n + j := Nat.le_add_right _ _
        omega)]
      have harith : (i + 1) * n + j - r.length = i * n + j := by
        rw [hr]; ring_nf; omega
      rw [harith, ← List.get?_eq_getElem?]
      rw [flatten_get?_uniform (fun s hs => hlen s (List.mem_cons_of_mem r hs))
        (by simpa using hi) hj]
      simp

theorem mget_eq_of {M : Mat} {i j : ℕ} {r : List ℚ} {x : ℚ}
    (h1 : M.get? i = some r) (h2 : r.get? j = some x) : mget M i j = x := by
  unfold mget
  rw [h1]
  simp only [Option.getD_some]
  rw [h2]
  rfl

theorem maskedFlat_get? {M : Mat} (hsq : IsSquare M) (i j : ℕ)
    (hi : i < M.length) (hj : j < M.length) :
    (maskedFlat M).get? (i * M.length + j) =
      some (if i = j then (⊤ : WithTop ℚ) else (mget M i j : WithTop ℚ)) := by
  unfold maskedFlat
  have hlens : ∀ r ∈ M.enum.map (fun ir =>
      ir.2.enum.map fun jx => if ir.1 = jx.1 then (⊤ : WithTop ℚ) else (jx.2 : WithTop ℚ)),
      r.length = M.length := by
    intro r hr
    obtain ⟨p, hp, hpr⟩ := List.mem_map.mp hr
    rw [← hpr]
    simp only [List.length_map, List.enum_length]
    exact hsq p.2 (mem_of_mem_enum hp)
  rw [flatten_get?_uniform hlens (by simpa using hi) hj]
  have hrow : M.get? i = some (M.get ⟨i, hi⟩) := by
    rw [List.get?_eq_getElem?, List.getElem?_eq_getElem hi]
    rfl
  have hMi : (M.enum.map fun ir =>
      ir.2.enum.map fun jx => if ir.1 = jx.1 then (⊤ : WithTop ℚ) else (jx.2 : WithTop ℚ)).get? i
      = some ((M.get ⟨i, hi⟩).enum.map fun jx =>
          if i = jx.1 then (⊤ : WithTop ℚ) else (jx.2 : WithTop ℚ)) := by
    rw [List.get?_eq_getElem?, List.getElem?_map, List.getElem?_enum, ← List.get?_eq_getElem?, hrow]
    rfl
  rw [hMi]
  have hjrow : j < (M.get ⟨i, hi⟩).length := by
    rw [hsq _ (List.get_mem M i hi)]
    exact hj
  simp only [Option.getD_some]
  rw [List.get?_eq_getElem?, List.getElem?_map, List.getElem?_enum]
  rw [List.getElem?_eq_getElem hjrow]
  have hmget : mget M i j = (M.get ⟨i, hi⟩).get ⟨j, hjrow⟩ :=
    mget_eq_of hrow (by rw [List.get?_eq_getElem?, List.getElem?_eq_getElem hjrow]; rfl)
  rw [hmget]
  rfl

/-- Full characterisation of `mat_min` on a symmetric square matrix of
dimension at least 2: it returns a strictly-upper in-bounds cell whose value
is minimal among all off-diagonal cells, and every strictly-upper cell at an
earlier row-major position is strictly larger. -/
theorem mat_min_char {M : Mat} (hsq : IsSquare M) (hsym : SymmM M)
    (h2 : 2 ≤ M.length) :
    (mat_min M).1 < (mat_min M).2 ∧ (mat_min M).2 < M.length ∧
      (∀ a b, a < M.length → b < M.length → a ≠ b →
        mget M (mat_min M).1 (mat_min M).2 ≤ mget M a b) ∧
      (∀ a b, a < b → b < M.length →
        a * M.length + b < (mat_min M).1 * M.length + (mat_min M).2 →
        mget M (mat_min M).1 (mat_min M).2 < mget M a b) := by
  have hn : 0 < M.length := by omega
  have row0len : ((M.get? 0).getD []).length = M.length := by
    have h0 : M.get? 0 = some (M.get ⟨0, hn⟩) := by
      rw [List.get?_eq_getElem?, List.getElem?_eq_getElem hn]
      rfl
    rw [h0, Option.getD_some]
    exact hsq _ (List.get_mem M 0 hn)
  have hflatlen : (maskedFlat M).length = M.length * M.length :=
    maskedFlat_length hsq
  have hflatne : maskedFlat M ≠ [] := by
    intro hh
    have h0 : (maskedFlat M).length = 0 := by rw [hh]; rfl
    rw [hflatlen] at h0
    have := Nat.mul_pos hn hn
    omega
  obtain ⟨x, hx, hmin, hbefore⟩ := argminIdx_spec hflatne
  set idx := argminIdx (maskedFlat M) with hidxdef
  have hidxlt : idx < M.length * M.length := by
    by_contra hge
    rw [List.get?_eq_getElem?, List.getElem?_eq_none (by omega)] at hx
    exact Option.noConfusion hx
  have hmm : mat_min M = (idx / M.length, idx % M.length) := by
    unfold mat_min
    rw [row0len]
  set i := idx / M.length
  set j := idx % M.length
  have hi : i < M.length := by
    have := (Nat.div_lt_iff_lt_mul hn).mpr hidxlt
    exact this
  have hj : j < M.length := Nat.mod_lt idx hn
  have hdecomp : i * M.length + j = idx := by
    rw [Nat.mul_comm]
    exact Nat.div_add_mod idx M.length
  have hxval : x = if i = j then (⊤ : WithTop ℚ) else (mget M i j : WithTop ℚ) := by
    have := maskedFlat_get? hsq i j hi hj
    rw [hdecomp, hx] at this
    exact Option.some_inj.mp this
  have hx01 : (maskedFlat M).get? (0 * M.length + 1) =
      some ((mget M 0 1 : WithTop ℚ)) := by
    rw [maskedFlat_get? hsq 0 1 hn (by omega)]
    simp
  have hle01 : x ≤ (mget M 0 1 : WithTop ℚ) :=
    hmin _ (mem_of_get? hx01)
  have hxne : x ≠ ⊤ := by
    intro hh
    rw [hh] at hle01
    exact absurd hle01 (not_le_of_lt (WithTop.coe_lt_top _))
  have hij : i ≠ j := by
    intro hh
    rw [hxval, if_pos hh] at hxne
    exact hxne rfl
  have hxcoe : x = (mget M i j : WithTop ℚ) := by
    rw [hxval, if_neg hij]
  have hnotji : ¬ j < i := by
    intro hji
    have hlt : j * M.length + i < idx := by
      rw [← hdecomp]
      have h1 : (j + 1) * M.length ≤ i * M.length :=
        Nat.mul_le_mul_right _ (by omega)
      have h2 : (j + 1) * M.length = j * M.length + M.length := by ring
      omega
    have hget' : (maskedFlat M).get? (j * M.length + i) =
        some ((mget M i j : WithTop ℚ)) := by
      rw [maskedFlat_get? hsq j i hj hi, if_neg (Ne.symm hij), hsym j hj i hi]
    have := hbefore _ hlt _ hget'
    rw [hxcoe] at this
    exact lt_irrefl _ this
  have hijlt : i < j := by omega
  refine ⟨by rw [hmm]; exact hijlt, by rw [hmm]; exact hj, ?_, ?_⟩
  · intro a b ha hb hab
    have hgab : (maskedFlat M).get? (a * M.length + b) =
        some ((mget M a b : WithTop ℚ)) := by
      rw [maskedFlat_get? hsq a b ha hb, if_neg hab]
    have := hmin _ (mem_of_get? hgab)
    rw [hxcoe] at this
    rw [hmm]
    exact_mod_cast this
  · intro a b hab hb hpos
    have hgab : (maskedFlat M).get? (a * M.length + b) =
        some ((mget M a b : WithTop ℚ)) := by
      rw [maskedFlat_get? hsq a b (by omega) hb, if_neg (by omega)]
    rw [hmm] at hpos
    dsimp only at hpos
    have hpos' : a * M.length + b < idx := by omega
    have := hbefore _ hpos' _ hgab
    rw [hxcoe] at this
    rw [hmm]
    exact_mod_cast this

/-- **C9** — for every symmetric square matrix of dimension ≥ 2 (as produced
by `create_clique` and preserved by `reduce_matrix`), `mat_min` returns an
index pair `(i, j)` with `i < j`; consequently, in `max_split_betweenness`
the statement `vMap[i] += vMap.pop(j)` updates the intended group (indices
below `j` are unshifted by the pop) and `reduce_matrix`'s row/column
deletions are in bounds. -/
theorem mat_min_returns_upper_pair {M : Mat} (hsq : IsSquare M)
    (hsym : SymmM M) (h2 : 2 ≤ M.length) :
    (mat_min M).1 < (mat_min M).2 ∧ (mat_min M).2 < M.length ∧
      (∀ vm : List (List ℕ),
        (vm.eraseIdx (mat_min M).2).get? (mat_min M).1 = vm.get? (mat_min M).1) ∧
      (M.eraseIdx (mat_min M).2).length = M.length - 1 ∧
      ∀ r ∈ M, (r.eraseIdx (mat_min M).2).length = r.length - 1 := by
  obtain ⟨hij, hjlt, -, -⟩ := mat_min_char hsq hsym h2
  refine ⟨hij, hjlt, ?_, ?_, ?_⟩
  · intro vm
    rw [List.get?_eq_getElem?, List.get?_eq_getElem?, List.getElem?_eraseIdx,
      if_pos hij]
  · rw [List.length_eraseIdx, if_pos hjlt]
  · intro r hr
    rw [List.length_eraseIdx, if_pos (by rw [hsq r hr]; exact hjlt)]

/-- Witness for `mat_min_returns_upper_pair` at a concrete 3 × 3 symmetric
matrix. -/
theorem mat_min_returns_upper_pair_witness :
    IsSquare wMat3 ∧ SymmM wMat3 ∧ 2 ≤ wMat3.length ∧
      ((mat_min wMat3).1 < (mat_min wMat3).2 ∧
        (mat_min wMat3).2 < wMat3.length ∧
        (∀ vm : List (List ℕ),
          (vm.eraseIdx (mat_min wMat3).2).get? (mat_min wMat3).1 =
            vm.get? (mat_min wMat3).1) ∧
        (wMat3.eraseIdx (mat_min wMat3).2).length = wMat3.length - 1 ∧
        ∀ r ∈ wMat3,
          (r.eraseIdx (mat_min wMat3).2).length = r.length - 1) :=
  ⟨by decide, by decide, by decide,
    mat_min_returns_upper_pair (by decide) (by decide) (by decide)⟩

/-! ### `matrix_min` agrees with `mat_min` (claim C10) -/

theorem filter_range_lt (r : ℕ) :
    ∀ n : ℕ, ((List.range n).filter fun j => r < j) = List.range' (r + 1) (n - (r + 1))
  | 0 => by simp
  | n + 1 => by
    rw [List.range_succ, List.filter_append, filter_range_lt r n]
    by_cases hrn : r < n
    · rw [show List.filter (fun j => decide (r < j)) [n] = [n] by simp [hrn]]
      rw [show n + 1 - (r + 1) = (n - (r + 1)) + 1 by omega, List.range'_concat]
      congr 2
      omega
    · rw [show List.filter (fun j => decide (r < j)) [n] = [] by simp; omega]
      rw [show n + 1 - (r + 1) = n - (r + 1) by omega, List.append_nil]

theorem upair_row_length (n r : ℕ) :
    (((List.range n).filter fun j => r < j).map fun j => ((r, j) : ℕ × ℕ)).length
      = n - (r + 1) := by
  rw [List.length_map, filter_range_lt, List.length_range']

/-- Reading `upairs` at the row-major rank of a strictly-upper cell, starting
from row `r`. -/
theorem upairs_from_get (n : ℕ) :
    ∀ (k a r b : ℕ), a - r = k → r ≤ a → a < b → b < n →
      ((List.range' r (n - r)).flatMap fun i =>
        ((List.range n).filter fun j => i < j).map fun j => (i, j)).get?
          (uoffFrom n r a + (b - a - 1)) = some (a, b)
  | 0, a, r, b, hk, hra, hab, hbn => by
    have har : a = r := by omega
    subst har
    have han : a < n := by omega
    rw [show n - a = (n - a - 1) + 1 by omega, List.range'_succ, List.flatMap_cons]
    have hoff : uoffFrom n a a = 0 := by
      unfold uoffFrom
      rw [Nat.sub_self]
      rfl
    rw [hoff, Nat.zero_add, List.get?_eq_getElem?, List.getElem?_append_left
      (by rw [upair_row_length]; omega)]
    rw [List.getElem?_map, filter_range_lt, List.getElem?_range' _ _ (by omega)]
    have : a + 1 + 1 * (b - a - 1) = b := by omega
    rw [this]
    rfl
  | k + 1, a, r, b, hk, hra, hab, hbn => by
    have hran : r < n := by omega
    have hraa : r < a := by omega
    rw [show n - r = (n - r - 1) + 1 by omega, List.range'_succ, List.flatMap_cons]
    have hoff : uoffFrom n r a = (n - 1 - r) + uoffFrom n (r + 1) a := by
      unfold uoffFrom
      rw [show a - r = (a - (r + 1)) + 1 by omega, List.range'_succ, List.map_cons,
        List.sum_cons]
    rw [hoff, List.get?_eq_getElem?, List.getElem?_append_right
      (by rw [upair_row_length]; omega)]
    rw [upair_row_length]
    have harith : n - 1 - r + uoffFrom n (r + 1) a + (b - a - 1) - (n - (r + 1))
        = uoffFrom n (r + 1) a + (b - a - 1) := by omega
    rw [harith, show n - r - 1 = n - (r + 1) by omega, ← List.get?_eq_getElem?]
    exact upairs_from_get n k a (r + 1) b (by omega) (by omega) hab hbn

theorem upairs_get (n a b : ℕ) (hab : a < b) (hbn : b < n) :
    (upairs n).get? (urank n a b) = some (a, b) := by
  have h := upairs_from_get n a a 0 b rfl (Nat.zero_le a) hab hbn
  rw [Nat.sub_zero, ← List.range_eq_range'] at h
  unfold upairs urank
  exact h

theorem upperVals_eq (M : Mat) :
    upperVals M = (upairs M.length).map fun p => mget M p.1 p.2 := by
  unfold upperVals upairs
  rw [List.map_flatMap]
  congr 1
  funext i
  rw [List.map_map]
  rfl

theorem upperVals_get (M : Mat) (a b : ℕ) (hab : a < b) (hbn : b < M.length) :
    (upperVals M).get? (urank M.length a b) = some (mget M a b) := by
  rw [upperVals_eq, List.get?_eq_getElem?, List.getElem?_map,
    ← List.get?_eq_getElem?, upairs_get M.length a b hab hbn]
  rfl

theorem uoffFrom_mono (n : ℕ) : ∀ (a i : ℕ), a ≤ i → uoffFrom n 0 a ≤ uoffFrom n 0 i := by
  intro a i hai
  unfold uoffFrom
  rw [Nat.sub_zero, Nat.sub_zero, show i = (i - a) + a by omega, ← List.range'_append]
  rw [List.map_append, List.sum_append]
  exact Nat.le_add_right _ _

theorem uoffFrom_succ (n a : ℕ) :
    uoffFrom n 0 (a + 1) = uoffFrom n 0 a + (n - 1 - a) := by
  unfold uoffFrom
  rw [Nat.sub_zero, Nat.sub_zero, List.range'_concat, List.map_append, List.sum_append]
  simp

theorem urank_lt_urank {n a b i j : ℕ} (hab : a < b) (hbn : b < n)
    (hij : i < j) (hlex : a < i ∨ (a = i ∧ b < j)) :
    urank n a b < urank n i j := by
  rcases hlex with hai | ⟨rfl, hbj⟩
  · have h1 : urank n a b < uoffFrom n 0 (a + 1) := by
      rw [uoffFrom_succ]
      unfold urank
      omega
    have h2 : uoffFrom n 0 (a + 1) ≤ uoffFrom n 0 i := uoffFrom_mono n _ _ (by omega)
    have h3 : uoffFrom n 0 i ≤ urank n i j := by
      unfold urank
      omega
    omega
  · unfold urank
    omega

/-- The index-recovery loop of `matrix_min` converts the flat rank of a
strictly-upper cell back into its `(row, col)` coordinates. -/
theorem triuLoop_spec (n : ℕ) :
    ∀ (fuel r d : ℕ), r < n → n - r ≤ fuel →
      d < ((List.range' r (n - r)).map fun k => n - 1 - k).sum →
      ∃ a b : ℕ, r ≤ a ∧ a < b ∧ b < n ∧
        ((List.range' r (a - r)).map fun k => n - 1 - k).sum + (b - a - 1) = d ∧
        triuLoop fuel (d : ℤ) ((n : ℤ) - 1 - r) r =
          (((b - a - 1 : ℕ) : ℤ), ((n - 1 - a : ℕ) : ℤ), a)
  | 0, r, d, hr, hfuel, hd => by omega
  | fuel + 1, r, d, hr, hfuel, hd => by
    have hsplit : ((List.range' r (n - r)).map fun k => n - 1 - k).sum
        = (n - 1 - r) + ((List.range' (r + 1) (n - (r + 1))).map fun k => n - 1 - k).sum := by
      rw [show n - r = (n - (r + 1)) + 1 by omega, List.range'_succ, List.map_cons,
        List.sum_cons]
    by_cases hcase : d < n - 1 - r
    · refine ⟨r, r + 1 + d, le_refl r, by omega, by omega, ?_, ?_⟩
      · rw [Nat.sub_self]
        simp only [List.range'_zero, List.map_nil, List.sum_nil]
        omega
      · rw [triuLoop]
        rw [if_neg (by omega)]
        have e1 : (d : ℤ) = ((r + 1 + d - r - 1 : ℕ) : ℤ) := by
          push_cast
          omega
        have e2 : (n : ℤ) - 1 - r = ((n - 1 - r : ℕ) : ℤ) := by
          push_cast
          omega
        rw [e1, e2]
    · rw [hsplit] at hd
      have hrn1 : r + 1 < n := by
        by_contra hge
        have : n - (r + 1) = 0 := by omega
        rw [this] at hd
        simp only [List.range'_zero, List.map_nil, List.sum_nil] at hd
        omega
      obtain ⟨a, b, hra, hab, hbn, hoff, hloop⟩ :=
        triuLoop_spec n fuel (r + 1) (d - (n - 1 - r)) hrn1 (by omega) (by omega)
      refine ⟨a, b, by omega, hab, hbn, ?_, ?_⟩
      · rw [show a - r = (a - (r + 1)) + 1 by omega, List.range'_succ, List.map_cons,
          List.sum_cons]
        omega
      · rw [triuLoop]
        rw [if_pos (by push_cast; omega)]
        have e1 : (d : ℤ) - ((n : ℤ) - 1 - r) = ((d - (n - 1 - r) : ℕ) : ℤ) := by
          push_cast
          omega
        have e2 : (n : ℤ) - 1 - r - 1 = (n : ℤ) - 1 - (r + 1 : ℕ) := by
          push_cast
          ring
        rw [e1, e2]
        exact hloop

theorem rowmajor_step {n u v e : ℕ} (he : e < n) (huv : u < v) :
    ∀ f : ℕ, u * n + e < v * n + f := by
  intro f
  have h1 : (u + 1) * n ≤ v * n := Nat.mul_le_mul_right _ (by omega)
  have h2 : (u + 1) * n = u * n + n := by ring
  omega

theorem rowmajor_lt_iff {n a b c d : ℕ} (hb : b < n) (hd : d < n) :
    a * n + b < c * n + d ↔ (a < c ∨ (a = c ∧ b < d)) := by
  constructor
  · intro h
    rcases lt_trichotomy a c with hac | hac | hac
    · exact Or.inl hac
    · exact Or.inr ⟨hac, by subst hac; omega⟩
    · exact absurd (rowmajor_step hd hac b) (by omega)
  · rintro (hac | ⟨rfl, hbd⟩)
    · exact rowmajor_step hb hac d
    · omega

theorem rowmajor_inj {n a b c d : ℕ} (hb : b < n) (hd : d < n)
    (h : a * n + b = c * n + d) : a = c ∧ b = d := by
  have h1 : ¬ (a < c ∨ (a = c ∧ b < d)) := by
    rw [← rowmajor_lt_iff hb hd]
    omega
  have h2 : ¬ (c < a ∨ (c = a ∧ d < b)) := by
    rw [← rowmajor_lt_iff hd hb]
    omega
  have hac : a = c := by omega
  exact ⟨hac, by subst hac; omega⟩

/-- `matrix_min` computes the same cell as `mat_min` on a symmetric square
matrix of dimension at least 2. -/
theorem matrix_min_eq_mat_min {M : Mat} (hsq : IsSquare M) (hsym : SymmM M)
    (h2 : 2 ≤ M.length) : matrix_min M = mat_min M := by
  have hn : 0 < M.length := by omega
  have h01get : (upperVals M).get? (urank M.length 0 1) = some (mget M 0 1) :=
    upperVals_get M 0 1 (by omega) (by omega)
  have hne : upperVals M ≠ [] := by
    intro hh
    rw [hh] at h01get
    exact Option.noConfusion h01get
  obtain ⟨x, hx, hmin, hbefore⟩ := argminIdx_spec hne
  set d := argminIdx (upperVals M) with hd
  have hdlt : d < (upperVals M).length := by
    by_contra hge
    rw [List.get?_eq_getElem?, List.getElem?_eq_none (by omega)] at hx
    exact Option.noConfusion hx
  have hlen : (upperVals M).length
      = ((List.range' 0 (M.length - 0)).map fun k => M.length - 1 - k).sum := by
    rw [upperVals_eq, List.length_map]
    unfold upairs
    rw [List.length_flatMap, Nat.sub_zero, ← List.range_eq_range']
    apply congrArg
    apply List.map_congr_left
    intro i hi
    simp only [Function.comp_apply]
    rw [upair_row_length]
    omega
  obtain ⟨a, b, -, hab, hbn, hoff, hloop⟩ :=
    triuLoop_spec M.length M.length 0 d hn (by omega) (by rw [← hlen]; exact hdlt)
  have hrank : urank M.length a b = d := by
    unfold urank uoffFrom
    exact hoff
  have hmmx : matrix_min M = (a, b) := by
    simp only [matrix_min]
    rw [← hd]
    have hloop' : triuLoop M.length (d : ℤ) ((M.length : ℤ) - 1) 0 =
        (((b - a - 1 : ℕ) : ℤ), ((M.length - 1 - a : ℕ) : ℤ), a) := by
      rw [show ((M.length : ℤ) - 1) = ((M.length : ℤ) - 1 - ((0 : ℕ) : ℤ)) by simp]
      exact hloop
    rw [hloop']
    have hcol : ((M.length : ℤ) - ((M.length - 1 - a : ℕ) : ℤ) +
        ((b - a - 1 : ℕ) : ℤ)).toNat = b := by omega
    rw [hcol]
  obtain ⟨hij, hjn, hminM, hfirstM⟩ := mat_min_char hsq hsym h2
  have hvx : x = mget M a b := by
    have h1 := upperVals_get M a b hab hbn
    rw [hrank, hx] at h1
    exact Option.some_inj.mp h1
  have hle1 : mget M a b ≤ mget M (mat_min M).1 (mat_min M).2 := by
    have hp := upperVals_get M (mat_min M).1 (mat_min M).2 hij hjn
    have := hmin _ (mem_of_get? hp)
    rw [hvx] at this
    exact this
  have hle2 : mget M (mat_min M).1 (mat_min M).2 ≤ mget M a b :=
    hminM a b (by omega) hbn (by omega)
  have heq : mget M a b = mget M (mat_min M).1 (mat_min M).2 :=
    le_antisymm hle1 hle2
  rcases lt_trichotomy (a * M.length + b)
      ((mat_min M).1 * M.length + (mat_min M).2) with hlt | heqi | hgt
  · have := hfirstM a b hab hbn hlt
    rw [heq] at this
    exact absurd this (lt_irrefl _)
  · obtain ⟨ha, hb⟩ := rowmajor_inj hbn hjn heqi
    rw [hmmx, ha, hb]
  · have hlex : (mat_min M).1 < a ∨ ((mat_min M).1 = a ∧ (mat_min M).2 < b) :=
      (rowmajor_lt_iff hjn hbn).mp hgt
    have hurank : urank M.length (mat_min M).1 (mat_min M).2 < urank M.length a b :=
      urank_lt_urank hij hjn hab hlex
    rw [hrank] at hurank
    have hp := upperVals_get M (mat_min M).1 (mat_min M).2 hij hjn
    have := hbefore _ hurank _ hp
    rw [hvx, heq] at this
    exact absurd this (lt_irrefl _)

/-- **C10** — for every symmetric square matrix of dimension ≥ 2 with zero
diagonal, `matrix_min` (upper-triangle argmin) and `mat_min` (full argmin
with the diagonal masked) return the same index pair, so either
implementation may be used interchangeably in `reduce_matrix`. -/
theorem matrix_min_mat_min_agree {M : Mat} (hsq : IsSquare M) (hsym : SymmM M)
    (hdiag : ZeroDiag M) (h2 : 2 ≤ M.length) :
    matrix_min M = mat_min M :=
  matrix_min_eq_mat_min hsq hsym h2

/-- Witness for `matrix_min_mat_min_agree` at a concrete 3 × 3 symmetric
matrix with zero diagonal. -/
theorem matrix_min_mat_min_agree_witness :
    IsSquare wMat3 ∧ SymmM wMat3 ∧ ZeroDiag wMat3 ∧ 2 ≤ wMat3.length ∧
      matrix_min wMat3 = mat_min wMat3 :=
  ⟨by decide, by decide, by decide, by decide,
    matrix_min_mat_min_agree (by decide) (by decide) (by decide) (by decide)⟩

/-! ### Walks, distances and shortest paths -/

theorem mem_nbrs_iff {G : Graph} {v a : ℕ} :
    a ∈ G.nbrs v ↔ ∃ e ∈ G.edges, (e.1 = v ∧ e.2 = a) ∨ (e.2 = v ∧ e.1 = a) := by
  unfold Graph.nbrs
  rw [List.mem_flatMap]
  constructor
  · rintro ⟨e, he, hmem⟩
    rcases List.mem_append.mp hmem with h | h
    · refine ⟨e, he, Or.inl ?_⟩
      by_cases h1 : e.1 = v
      · rw [if_pos h1] at h
        exact ⟨h1, (List.mem_singleton.mp h).symm⟩
      · rw [if_neg h1] at h
        exact absurd h (List.not_mem_nil a)
    · refine ⟨e, he, Or.inr ?_⟩
      by_cases h2 : e.2 = v
      · rw [if_pos h2] at h
        exact ⟨h2, (List.mem_singleton.mp h).symm⟩
      · rw [if_neg h2] at h
        exact absurd h (List.not_mem_nil a)
  · rintro ⟨e, he, ⟨h1, h2⟩ | ⟨h1, h2⟩⟩
    · exact ⟨e, he, List.mem_append.mpr (Or.inl (by rw [if_pos h1, h2]; exact List.mem_singleton_self a))⟩
    · exact ⟨e, he, List.mem_append.mpr (Or.inr (by rw [if_pos h1, h2]; exact List.mem_singleton_self a))⟩

theorem nbrs_comm {G : Graph} {v a : ℕ} : a ∈ G.nbrs v ↔ v ∈ G.nbrs a := by
  rw [mem_nbrs_iff, mem_nbrs_iff]
  constructor
  · rintro ⟨e, he, ⟨h1, h2⟩ | ⟨h1, h2⟩⟩
    · exact ⟨e, he, Or.inr ⟨h2, h1⟩⟩
    · exact ⟨e, he, Or.inl ⟨h2, h1⟩⟩
  · rintro ⟨e, he, ⟨h1, h2⟩ | ⟨h1, h2⟩⟩
    · exact ⟨e, he, Or.inr ⟨h2, h1⟩⟩
    · exact ⟨e, he, Or.inl ⟨h2, h1⟩⟩

theorem nbrs_lt {G : Graph} (hv : ∀ e ∈ G.edges, e.1 < G.n ∧ e.2 < G.n ∧ e.1 ≠ e.2)
    {v a : ℕ} (h : a ∈ G.nbrs v) : a < G.n := by
  rcases mem_nbrs_iff.mp h with ⟨e, he, ⟨-, h2⟩ | ⟨-, h2⟩⟩
  · rw [← h2]
    exact (hv e he).2.1
  · rw [← h2]
    exact (hv e he).1

/-- Membership in the walk enumeration: a stored (reversed) walk is any
nonempty list of the right length, ending (in storage order) at `s`, whose
consecutive entries are neighbours. -/
theorem mem_wks_iff {G : Graph} {s : ℕ} :
    ∀ {k : ℕ} {w : List ℕ}, w ∈ wks G s k ↔
      (w.length = k + 1 ∧ w.getLast? = some s ∧ w.Chain' fun a b => a ∈ G.nbrs b)
  | 0, w => by
    simp only [wks, List.mem_singleton]
    constructor
    · rintro rfl
      exact ⟨rfl, rfl, List.chain'_singleton s⟩
    · rintro ⟨hlen, hlast, -⟩
      match w, hlen with
      | [x], _ =>
        simp only [List.getLast?_singleton, Option.some_inj] at hlast
        rw [hlast]
  | k + 1, w => by
    rw [wks, List.mem_flatMap]
    constructor
    · rintro ⟨w', hw', hmem⟩
      obtain ⟨hlen, hlast, hchain⟩ := mem_wks_iff.mp hw'
      match w', hlen, hlast, hchain, hmem with
      | c :: rest, hlen, hlast, hchain, hmem =>
        simp only at hmem
        obtain ⟨x, hx, rfl⟩ := List.mem_map.mp hmem
        refine ⟨by simpa using hlen, ?_, ?_⟩
        · rw [List.getLast?_cons_cons]
          exact hlast
        · rw [List.chain'_cons]
          exact ⟨hx, hchain⟩
    · rintro ⟨hlen, hlast, hchain⟩
      match w, hlen, hlast, hchain with
      | x :: c :: rest, hlen, hlast, hchain =>
        rw [List.chain'_cons] at hchain
        refine ⟨c :: rest, mem_wks_iff.mpr ⟨by simpa using hlen, ?_, hchain.2⟩, ?_⟩
        · rw [List.getLast?_cons_cons] at hlast
          exact hlast
        · simp only []
          exact List.mem_map.mpr ⟨x, hchain.1, rfl⟩

theorem hasWalk_iff {G : Graph} {s t k : ℕ} :
    hasWalk G s t k = true ↔ ∃ w ∈ wks G s k, w.head? = some t := by
  unfold hasWalk
  rw [Bool.not_eq_true']
  constructor
  · intro h
    have hne : (wks G s k).filter (fun w => w.head? = some t) ≠ [] := by
      intro hh
      rw [hh] at h
      simp at h
    obtain ⟨w, hw⟩ := List.exists_mem_of_ne_nil _ hne
    rw [List.mem_filter] at hw
    exact ⟨w, hw.1, by simpa using hw.2⟩
  · rintro ⟨w, hw, hhead⟩
    have : w ∈ (wks G s k).filter (fun w => w.head? = some t) :=
      List.mem_filter.mpr ⟨hw, by simpa using hhead⟩
    rw [Bool.eq_false_iff]
    intro hh
    rw [List.isEmpty_iff] at hh
    rw [hh] at this
    exact absurd this (List.not_mem_nil w)

theorem hasWalk_symm {G : Graph} {s t : ℕ} (k : ℕ) :
    hasWalk G s t k = hasWalk G t s k := by
  have key : ∀ a b : ℕ, hasWalk G a b k = true → hasWalk G b a k = true := by
    intro a b h
    obtain ⟨w, hw, hhead⟩ := hasWalk_iff.mp h
    obtain ⟨hlen, hlast, hchain⟩ := mem_wks_iff.mp hw
    apply hasWalk_iff.mpr
    refine ⟨w.reverse, mem_wks_iff.mpr ⟨by simpa using hlen, ?_, ?_⟩, ?_⟩
    · rw [List.getLast?_reverse]
      exact hhead
    · rw [List.chain'_reverse]
      exact (hchain.imp fun x y hxy => nbrs_comm.mp hxy)
    · rw [List.head?_reverse]
      exact hlast
  cases hst : hasWalk G s t k with
  | true => exact (key s t hst).symm
  | false =>
    cases hts : hasWalk G t s k with
    | true =>
      rw [key t s hts] at hst
      exact absurd hst (by simp)
    | false => rfl

theorem firstHit_spec {p : ℕ → Bool} :
    ∀ {fuel k0 d : ℕ}, firstHit p fuel k0 = some d →
      k0 ≤ d ∧ d < k0 + fuel ∧ p d = true ∧ ∀ j, k0 ≤ j → j < d → p j = false
  | 0, k0, d, h => by simp [firstHit] at h
  | fuel + 1, k0, d, h => by
    rw [firstHit] at h
    by_cases hp : p k0
    · rw [if_pos hp] at h
      obtain rfl := Option.some_inj.mp h
      exact ⟨le_refl _, by omega, hp, fun j h1 h2 => absurd (by omega : k0 ≤ j ∧ j < k0) (by omega)⟩
    · rw [if_neg hp] at h
      obtain ⟨h1, h2, h3, h4⟩ := firstHit_spec h
      refine ⟨by omega, by omega, h3, fun j hj1 hj2 => ?_⟩
      by_cases hjk : j = k0
      · rw [hjk]
        exact Bool.eq_false_iff.mpr hp
      · exact h4 j (by omega) hj2

theorem firstHit_isSome {p : ℕ → Bool} :
    ∀ {fuel k0 j : ℕ}, k0 ≤ j → j < k0 + fuel → p j = true →
      ∃ d, firstHit p fuel k0 = some d ∧ d ≤ j
  | 0, k0, j, h1, h2, h3 => by omega
  | fuel + 1, k0, j, h1, h2, h3 => by
    rw [firstHit]
    by_cases hp : p k0
    · exact ⟨k0, by rw [if_pos hp], h1⟩
    · rw [if_neg hp]
      have hjk : k0 ≠ j := by
        intro hh
        rw [hh] at hp
        exact hp h3
      obtain ⟨d, hd, hdj⟩ := @firstHit_isSome p fuel (k0 + 1) j
        (by omega) (by omega) h3
      exact ⟨d, hd, hdj⟩

theorem gdist_spec {G : Graph} {s t k : ℕ} (h : gdist G s t = some k) :
    hasWalk G s t k = true ∧ ∀ j, j < k → hasWalk G s t j = false := by
  obtain ⟨-, -, h3, h4⟩ := firstHit_spec h
  exact ⟨h3, fun j hj => h4 j (Nat.zero_le j) hj⟩

theorem gdist_symm (G : Graph) (s t : ℕ) : gdist G s t = gdist G t s := by
  unfold gdist
  have : (fun k => hasWalk G s t k) = fun k => hasWalk G t s k := by
    funext k
    exact hasWalk_symm k
  rw [this]

/-- Unpacking a shortest path: minimal-length, endpoints, adjacency chain. -/
theorem SP_mem {G : Graph} {s t : ℕ} {p : List ℕ}
    (hp : p ∈ shortestPaths G s t) :
    ∃ k, gdist G s t = some k ∧ p.length = k + 1 ∧ p.head? = some s ∧
      p.getLast? = some t ∧ p.Chain' fun a b => b ∈ G.nbrs a := by
  unfold shortestPaths at hp
  cases hg : gdist G s t with
  | none =>
    rw [hg] at hp
    exact absurd hp (List.not_mem_nil p)
  | some k =>
    rw [hg] at hp
    obtain ⟨w, hw, rfl⟩ := List.mem_map.mp hp
    rw [List.mem_filter] at hw
    obtain ⟨hwk, hwh⟩ := hw
    obtain ⟨hlen, hlast, hchain⟩ := mem_wks_iff.mp hwk
    refine ⟨k, rfl, by simpa using hlen, ?_, ?_, ?_⟩
    · rw [List.head?_reverse]
      exact hlast
    · rw [List.getLast?_reverse]
      simpa using hwh
    · rw [List.chain'_reverse]
      exact hchain.imp fun a b hab => hab

theorem SP_ne_nil {G : Graph} {s t k : ℕ} (h : gdist G s t = some k) :
    shortestPaths G s t ≠ [] := by
  have h1 := (gdist_spec h).1
  obtain ⟨w, hw, hwh⟩ := hasWalk_iff.mp h1
  unfold shortestPaths
  rw [h]
  intro hh
  have : w.reverse ∈ ([] : List (List ℕ)) := by
    rw [← hh]
    exact List.mem_map.mpr ⟨w, List.mem_filter.mpr ⟨hw, by simpa using hwh⟩, rfl⟩
  exact absurd this (List.not_mem_nil _)

theorem SP_eq_nil_iff {G : Graph} {s t : ℕ} :
    shortestPaths G s t = [] ↔ gdist G s t = none := by
  constructor
  · intro h
    cases hg : gdist G s t with
    | none => rfl
    | some k => exact absurd h (SP_ne_nil hg)
  · intro h
    unfold shortestPaths
    rw [h]

theorem SP_nil_symm {G : Graph} {s t : ℕ} :
    (shortestPaths G s t = []) ↔ (shortestPaths G t s = []) := by
  rw [SP_eq_nil_iff, SP_eq_nil_iff, gdist_symm]

theorem SP_self (G : Graph) (s : ℕ) : shortestPaths G s s = [[s]] := by
  have h0 : hasWalk G s s 0 = true := by
    simp [hasWalk, wks]
  have hg : gdist G s s = some 0 := by
    unfold gdist firstHit
    rw [if_pos h0]
  unfold shortestPaths
  rw [hg]
  simp [wks]

/-! ### Shortcutting walks: minimal walks repeat no vertex -/

theorem chain'_shortcut {α : Type} {R : α → α → Prop} :
    ∀ {l : List α}, ¬ l.Nodup → l.Chain' R →
      ∃ l', l'.Chain' R ∧ l'.head? = l.head? ∧ l'.getLast? = l.getLast? ∧
        l'.length < l.length ∧ l' ⊆ l
  | [], hnd, _ => absurd List.nodup_nil hnd
  | a :: t, hnd, hchain => by
    by_cases hat : a ∈ t
    · obtain ⟨u, v, huv⟩ := List.append_of_mem hat
      have hsplit : a :: t = (a :: u) ++ (a :: v) := by
        rw [huv]
        simp
      refine ⟨a :: v, ?_, rfl, ?_, ?_, ?_⟩
      · rw [hsplit, List.chain'_append] at hchain
        exact hchain.2.1
      · rw [hsplit, List.getLast?_append]
        cases hlz : (a :: v).getLast? with
        | none => exact absurd (List.getLast?_eq_none_iff.mp hlz) (List.cons_ne_nil a v)
        | some z => rfl
      · rw [huv]
        simp only [List.length_cons, List.length_append]
        omega
      · intro y hy
        rcases List.mem_cons.mp hy with rfl | hyv
        · exact List.mem_cons_self _ _
        · rw [huv]
          exact List.mem_cons_of_mem _ (List.mem_append.mpr (Or.inr (List.mem_cons_of_mem _ hyv)))
    · have hnt : ¬ t.Nodup := fun hh => hnd (List.nodup_cons.mpr ⟨hat, hh⟩)
      have hchain' := List.chain'_cons'.mp hchain
      obtain ⟨t', hc, hh, hl, hlen, hsub⟩ := chain'_shortcut hnt hchain'.2
      have htne : t ≠ [] := by
        intro hh'
        rw [hh'] at hnt
        exact hnt List.nodup_nil
      have htne' : t' ≠ [] := by
        intro hh'
        rw [hh'] at hh
        rw [List.head?_eq_none_iff.mp hh.symm] at htne
        exact htne rfl
      refine ⟨a :: t', ?_, rfl, ?_, by simp only [List.length_cons]; omega, ?_⟩
      · rw [List.chain'_cons']
        refine ⟨fun y hy => ?_, hc⟩
        apply hchain'.1
        rw [← hh]
        exact hy
      · have e1 : (a :: t').getLast? = t'.getLast? := by
          rw [show a :: t' = [a] ++ t' by rfl, List.getLast?_append]
          cases hlz : t'.getLast? with
          | none => exact absurd (List.getLast?_eq_none_iff.mp hlz) htne'
          | some z => rfl
        have e2 : (a :: t).getLast? = t.getLast? := by
          rw [show a :: t = [a] ++ t by rfl, List.getLast?_append]
          cases hlz : t.getLast? with
          | none => exact absurd (List.getLast?_eq_none_iff.mp hlz) htne
          | some z => rfl
        rw [e1, e2]
        exact hl
      · intro y hy
        rcases List.mem_cons.mp hy with rfl | hyt
        · exact List.mem_cons_self _ _
        · exact List.mem_cons_of_mem _ (hsub hyt)

theorem exists_nodup_chain' {α : Type} {R : α → α → Prop} :
    ∀ (N : ℕ) (l : List α), l.length ≤ N → l.Chain' R →
      ∃ l', l'.Chain' R ∧ l'.head? = l.head? ∧ l'.getLast? = l.getLast? ∧
        l'.length ≤ l.length ∧ l' ⊆ l ∧ l'.Nodup
  | 0, l, hlen, hchain => by
    have : l = [] := List.length_eq_zero.mp (by omega)
    subst this
    exact ⟨[], List.chain'_nil, rfl, rfl, le_refl _, fun y hy => hy, List.nodup_nil⟩
  | N + 1, l, hlen, hchain => by
    by_cases hnd : l.Nodup
    · exact ⟨l, hchain, rfl, rfl, le_refl _, fun y hy => hy, hnd⟩
    · obtain ⟨l₁, hc₁, hh₁, hl₁, hlen₁, hsub₁⟩ := chain'_shortcut hnd hchain
      obtain ⟨l', hc, hh, hl, hlen', hsub, hnodup⟩ :=
        exists_nodup_chain' N l₁ (by omega) hc₁
      exact ⟨l', hc, hh.trans hh₁, hl.trans hl₁, by omega,
        fun y hy => hsub₁ (hsub hy), hnodup⟩

/-- All shortest paths are vertex-repetition-free. -/
theorem SP_nodup {G : Graph} {s t : ℕ} {p : List ℕ}
    (hp : p ∈ shortestPaths G s t) : p.Nodup := by
  obtain ⟨k, hg, hlen, hh, hl, hchain⟩ := SP_mem hp
  by_contra hnd
  obtain ⟨p', hc, hh', hl', hlen', hsub⟩ := chain'_shortcut hnd hchain
  have hpne : p' ≠ [] := by
    intro hz
    rw [hz] at hh'
    rw [hh] at hh'
    exact Option.noConfusion hh'
  have hwmem : p'.reverse ∈ wks G s (p'.length - 1) := by
    apply mem_wks_iff.mpr
    refine ⟨?_, ?_, ?_⟩
    · rw [List.length_reverse]
      have := List.length_pos_of_ne_nil hpne
      omega
    · rw [List.getLast?_reverse, hh', hh]
    · rw [List.chain'_reverse]
      exact hc.imp fun a b hab => hab
  have hwalk : hasWalk G s t (p'.length - 1) = true := by
    apply hasWalk_iff.mpr
    refine ⟨p'.reverse, hwmem, ?_⟩
    rw [List.head?_reverse, hl', hl]
  have hlt : p'.length - 1 < k := by
    have := List.length_pos_of_ne_nil hpne
    omega
  have := (gdist_spec hg).2 _ hlt
  rw [hwalk] at this
  exact Bool.noConfusion this

theorem chain_mem_lt {G : Graph}
    (hval : ∀ e ∈ G.edges, e.1 < G.n ∧ e.2 < G.n ∧ e.1 ≠ e.2) :
    ∀ {l : List ℕ}, (l.Chain' fun a b => b ∈ G.nbrs a) → ∀ {s : ℕ},
      l.head? = some s → s < G.n → ∀ y ∈ l, y < G.n
  | [], _, s, hh, _, y, hy => absurd hy (List.not_mem_nil y)
  | [a], _, s, hh, hs, y, hy => by
    obtain rfl := Option.some_inj.mp hh
    rw [List.mem_singleton.mp hy]
    exact hs
  | a :: b :: t, hchain, s, hh, hs, y, hy => by
    obtain rfl : a = s := Option.some_inj.mp hh
    rw [List.chain'_cons] at hchain
    have hb : b < G.n := nbrs_lt hval hchain.1
    rcases List.mem_cons.mp hy with rfl | hyt
    · exact hs
    · exact chain_mem_lt hval hchain.2 rfl hb y hyt

/-- `reachable` (the model of `edge_disjoint_paths ≠ 0`) decides graph
connectivity exactly. -/
theorem reachable_iff_linked {G : Graph}
    (hval : ∀ e ∈ G.edges, e.1 < G.n ∧ e.2 < G.n ∧ e.1 ≠ e.2)
    {s t : ℕ} (hs : s < G.n) :
    reachable G s t = true ↔ Linked G s t := by
  constructor
  · intro h
    unfold reachable at h
    obtain ⟨k, hk⟩ := Option.isSome_iff_exists.mp h
    have h1 := (gdist_spec hk).1
    obtain ⟨w, hw, hwh⟩ := hasWalk_iff.mp h1
    obtain ⟨hlen, hlast, hchain⟩ := mem_wks_iff.mp hw
    refine ⟨w.reverse, ?_, ?_, ?_⟩
    · rw [List.chain'_reverse]
      exact hchain.imp fun a b hab => hab
    · rw [List.head?_reverse]
      exact hlast
    · rw [List.getLast?_reverse]
      exact hwh
  · rintro ⟨p, hchain, hh, hl⟩
    obtain ⟨p', hc, hh', hl', hlen', hsub, hnodup⟩ :=
      exists_nodup_chain' p.length p (le_refl _) hchain
    have hpne : p' ≠ [] := by
      intro hz
      rw [hz] at hh'
      rw [hh] at hh'
      exact Option.noConfusion hh'
    have hplt : ∀ y ∈ p', y < G.n := by
      intro y hy
      exact chain_mem_lt hval hc (by rw [hh', hh]) hs y hy
    have hbound : p'.length ≤ G.n := by
      have hsubr : p' ⊆ List.range G.n := fun y hy => List.mem_range.mpr (hplt y hy)
      have := (List.subperm_of_subset hnodup hsubr).length_le
      simpa using this
    have hwmem : p'.reverse ∈ wks G s (p'.length - 1) := by
      apply mem_wks_iff.mpr
      refine ⟨?_, ?_, ?_⟩
      · rw [List.length_reverse]
        have := List.length_pos_of_ne_nil hpne
        omega
      · rw [List.getLast?_reverse, hh', hh]
      · rw [List.chain'_reverse]
        exact hc.imp fun a b hab => hab
    have hwalk : hasWalk G s t (p'.length - 1) = true := by
      apply hasWalk_iff.mpr
      refine ⟨p'.reverse, hwmem, ?_⟩
      rw [List.head?_reverse, hl', hl]
    have hlp := List.length_pos_of_ne_nil hpne
    obtain ⟨d, hd, -⟩ := firstHit_isSome (Nat.zero_le (p'.length - 1))
      (show p'.length - 1 < 0 + (G.n + 1) by omega) hwalk
    unfold reachable gdist
    rw [hd]
    rfl

/-! ### The first-maximum fold of `max(enumerate(eb), key=itemgetter(1))` -/

theorem maxEnum_fold_spec (l : List ℚ) :
    match l.enum.foldl
      (fun acc p =>
        match acc with
        | none => some p
        | some q => if p.2 > q.2 then some p else some q)
      none with
    | none => l = []
    | some m => l.get? m.1 = some m.2 ∧ (∀ y ∈ l, y ≤ m.2) ∧
        ∀ k, k < m.1 → ∀ y, l.get? k = some y → y < m.2 := by
  induction l using List.reverseRecOn with
  | nil => simp
  | append_singleton l b ih =>
    rw [List.enum_append, List.foldl_append]
    cases hr : l.enum.foldl
        (fun acc p =>
          match acc with
          | none => some p
          | some q => if p.2 > q.2 then some p else some q)
        none with
    | none =>
      rw [hr] at ih
      simp only [hr] at ih ⊢
      subst ih
      simp
    | some m =>
      rw [hr] at ih
      simp only [hr] at ih ⊢
      obtain ⟨hget, hmax, hbefore⟩ := ih
      have hm1 : m.1 < l.length := by
        by_contra hge
        rw [List.get?_eq_getElem?, List.getElem?_eq_none (by omega)] at hget
        exact Option.noConfusion hget
      simp only [List.enumFrom_cons, List.foldl_cons, List.foldl_nil]
      by_cases hb : b > m.2
      · simp only [if_pos hb]
        refine ⟨?_, ?_, ?_⟩
        · rw [List.get?_eq_getElem?, List.getElem?_append_right (le_refl _)]
          simp
        · intro y hy
          rcases List.mem_append.mp hy with hy | hy
          · exact le_of_lt (lt_of_le_of_lt (hmax y hy) hb)
          · rw [List.mem_singleton.mp hy]
        · intro k hk y hky
          rw [List.get?_eq_getElem?, List.getElem?_append_left hk,
            ← List.get?_eq_getElem?] at hky
          exact lt_of_le_of_lt (hmax y (mem_of_get? hky)) hb
      · simp only [if_neg hb]
        refine ⟨?_, ?_, ?_⟩
        · rw [List.get?_eq_getElem?, List.getElem?_append_left hm1,
            ← List.get?_eq_getElem?]
          exact hget
        · intro y hy
          rcases List.mem_append.mp hy with hy | hy
          · exact hmax y hy
          · rw [List.mem_singleton.mp hy]
            exact le_of_not_lt hb
        · intro k hk y hky
          rw [List.get?_eq_getElem?, List.getElem?_append_left (lt_trans hk hm1),
            ← List.get?_eq_getElem?] at hky
          exact hbefore k hk y hky

/-- The specification of `maxEnum` (Python's `max(enumerate(l),
key=itemgetter(1))`): on a nonempty list it returns the first position
attaining the maximum value. -/
theorem maxEnum_spec {l : List ℚ} {i : ℕ} {m : ℚ}
    (h : maxEnum l = some (i, m)) :
    l.get? i = some m ∧ (∀ y ∈ l, y ≤ m) ∧
      ∀ k, k < i → ∀ y, l.get? k = some y → y < m := by
  have hs := maxEnum_fold_spec l
  unfold maxEnum at h
  rw [h] at hs
  exact hs

theorem maxEnum_ne_none {l : List ℚ} (h : l ≠ []) : maxEnum l ≠ none := by
  have hs := maxEnum_fold_spec l
  unfold maxEnum
  intro hh
  rw [hh] at hs
  exact h hs

/-! ### Simple graphs: the unique edge between adjacent vertices -/

theorem sameEdge_symm {e f : ℕ × ℕ} (h : sameEdge e f) : sameEdge f e := by
  rcases h with ⟨h1, h2⟩ | ⟨h1, h2⟩
  · exact Or.inl ⟨h1.symm, h2.symm⟩
  · exact Or.inr ⟨h2.symm, h1.symm⟩

theorem sameEdge_trans {e f g : ℕ × ℕ} (h1 : sameEdge e f) (h2 : sameEdge f g) :
    sameEdge e g := by
  rcases h1 with ⟨ha, hb⟩ | ⟨ha, hb⟩ <;> rcases h2 with ⟨hc, hd⟩ | ⟨hc, hd⟩
  · exact Or.inl ⟨ha.trans hc, hb.trans hd⟩
  · exact Or.inr ⟨ha.trans hc, hb.trans hd⟩
  · exact Or.inr ⟨ha.trans hd, hb.trans hc⟩
  · exact Or.inl ⟨ha.trans hd, hb.trans hc⟩

theorem sum_indicator_unique {P : ℕ × ℕ → Prop} [DecidablePred P] :
    ∀ {L : List (ℕ × ℕ)}, (∃ e ∈ L, P e) →
      (L.Pairwise fun e f => ¬ (P e ∧ P f)) →
      (L.map fun e => if P e then 1 else 0).sum = 1
  | [], hex, _ => by simp at hex
  | a :: L, hex, hpair => by
    rw [List.pairwise_cons] at hpair
    by_cases hpa : P a
    · rw [List.map_cons, List.sum_cons, if_pos hpa]
      have hz : (L.map fun e => if P e then 1 else 0).sum = 0 := by
        apply List.sum_eq_zero
        intro x hx
        obtain ⟨e, he, hxe⟩ := List.mem_map.mp hx
        rw [← hxe, if_neg fun hpe => hpair.1 e he ⟨hpa, hpe⟩]
      omega
    · rw [List.map_cons, List.sum_cons, if_neg hpa]
      obtain ⟨e, he, hpe⟩ := hex
      rcases List.mem_cons.mp he with rfl | heL
      · exact absurd hpe hpa
      · rw [sum_indicator_unique ⟨e, heL, hpe⟩ hpair.2]

theorem count_nbrs_one {G : Graph} (hs : G.Simple) {u v : ℕ} (hne : u ≠ v)
    (hmem : v ∈ G.nbrs u) : (G.nbrs u).count v = 1 := by
  unfold Graph.nbrs
  rw [List.count_flatMap]
  have hcnt : ∀ e ∈ G.edges,
      (List.count v ∘ fun e : ℕ × ℕ =>
        (if e.1 = u then [e.2] else []) ++ (if e.2 = u then [e.1] else [])) e
      = if sameEdge e (u, v) then 1 else 0 := by
    intro e he
    simp only [Function.comp_apply, List.count_append]
    by_cases h1 : e.1 = u <;> by_cases h2 : e.2 = u <;>
      simp only [if_pos, if_neg, h1, h2, if_true, if_false, List.count_nil,
        List.count_singleton', sameEdge] <;>
      · by_cases h3 : e.1 = v <;> by_cases h4 : e.2 = v <;>
          simp [h1, h2, h3, h4] <;> omega
  rw [List.map_congr_left hcnt]
  apply sum_indicator_unique
  · obtain ⟨e, he, hor⟩ := mem_nbrs_iff.mp hmem
    refine ⟨e, he, ?_⟩
    rcases hor with ⟨h1, h2⟩ | ⟨h1, h2⟩
    · exact Or.inl ⟨h1, h2⟩
    · exact Or.inr ⟨h2, h1⟩
  · apply hs.2.imp
    intro e f hnot ⟨he, hf⟩
    exact hnot (sameEdge_trans he (sameEdge_symm hf))

/-- In a simple graph the shortest paths between adjacent vertices are exactly
the single-edge path. -/
theorem SP_of_edge {G : Graph} (hs : G.Simple) {u v : ℕ} (hne : u ≠ v)
    (hmem : v ∈ G.nbrs u) : shortestPaths G u v = [[u, v]] := by
  have hun : u < G.n := nbrs_lt hs.1 (nbrs_comm.mp hmem)
  have hW0 : hasWalk G u v 0 = false := by
    rw [Bool.eq_false_iff]
    intro hh
    obtain ⟨w, hw, hwh⟩ := hasWalk_iff.mp hh
    rw [show wks G u 0 = [[u]] from rfl, List.mem_singleton] at hw
    rw [hw] at hwh
    exact hne (Option.some_inj.mp hwh)
  have hW1 : hasWalk G u v 1 = true := by
    apply hasWalk_iff.mpr
    refine ⟨[v, u], mem_wks_iff.mpr ⟨rfl, rfl, ?_⟩, rfl⟩
    rw [List.chain'_cons]
    exact ⟨hmem, List.chain'_singleton u⟩
  obtain ⟨d, hd, hdle⟩ := firstHit_isSome (Nat.zero_le 1)
    (show 1 < 0 + (G.n + 1) by omega) hW1
  have hg : gdist G u v = some d := hd
  obtain ⟨-, -, hpd, hbefore⟩ := firstHit_spec hd
  have hd1 : d = 1 := by
    match d, hdle with
    | 0, _ =>
      rw [hW0] at hpd
      exact Bool.noConfusion hpd
    | 1, _ => rfl
  subst hd1
  unfold shortestPaths
  rw [hg]
  show (((wks G u 1).filter fun w => w.head? = some v).map List.reverse) = [[u, v]]
  have hwks1 : wks G u 1 = (G.nbrs u).map fun x => [x, u] := by
    show (wks G u 0).flatMap _ = _
    rw [show wks G u 0 = [[u]] from rfl]
    simp
  rw [hwks1, List.filter_map]
  have hpred : (((fun w : List ℕ => decide (w.head? = some v)) ∘ fun x => [x, u]))
      = fun x : ℕ => decide (x = v) := by
    funext x
    rw [Function.comp_apply]
    rw [decide_eq_decide]
    show some x = some v ↔ x = v
    exact Option.some_inj
  rw [hpred, List.filter_eq, count_nbrs_one hs hne hmem]
  rfl

/-- Every edge of a simple graph has edge betweenness at least 1 (its own
endpoint pair contributes a full unit). -/
theorem ebOf_ge_one {G : Graph} (hs : G.Simple) {e : ℕ × ℕ}
    (he : e ∈ G.edges) : 1 ≤ ebOf G e := by
  obtain ⟨h1n, h2n, hne⟩ := hs.1 e he
  set s0 := min e.1 e.2 with hs0
  set t0 := max e.1 e.2 with ht0
  have hst : s0 < t0 := by
    rw [hs0, ht0]
    rcases Nat.lt_or_ge e.1 e.2 with h | h
    · rw [min_eq_left (le_of_lt h), max_eq_right (le_of_lt h)]
      exact h
    · have h' : e.2 < e.1 := by omega
      rw [min_eq_right (le_of_lt h'), max_eq_left (le_of_lt h')]
      exact h'
  have htn : t0 < G.n := by
    rw [ht0]
    rcases Nat.lt_or_ge e.1 e.2 with h | h
    · rw [max_eq_right (le_of_lt h)]
      exact h2n
    · rw [max_eq_left h]
      exact h1n
  have hadj : t0 ∈ G.nbrs s0 := by
    apply mem_nbrs_iff.mpr
    refine ⟨e, he, ?_⟩
    rcases Nat.lt_or_ge e.1 e.2 with h | h
    · exact Or.inl ⟨by rw [hs0, min_eq_left (le_of_lt h)],
        by rw [ht0, max_eq_right (le_of_lt h)]⟩
    · have h' : e.2 ≤ e.1 := h
      exact Or.inr ⟨by rw [hs0, min_eq_right h'], by rw [ht0, max_eq_left h']⟩
  have hSP : shortestPaths G s0 t0 = [[s0, t0]] :=
    SP_of_edge hs (by omega) hadj
  have hpmem : (s0, t0) ∈ pairsUpper G := by
    unfold pairsUpper
    apply List.mem_flatMap.mpr
    refine ⟨s0, List.mem_range.mpr (by omega), ?_⟩
    apply List.mem_map.mpr
    refine ⟨t0, List.mem_filter.mpr ⟨List.mem_range.mpr htn, by simpa using hst⟩, rfl⟩
  have huse : usesEdge e [s0, t0] = true := by
    unfold usesEdge
    apply List.any_eq_true.mpr
    refine ⟨(s0, t0), by simp, ?_⟩
    apply decide_eq_true
    rcases Nat.lt_or_ge e.1 e.2 with h | h
    · exact Or.inl ⟨by rw [hs0, min_eq_left (le_of_lt h)],
        by rw [ht0, max_eq_right (le_of_lt h)]⟩
    · have h' : e.2 ≤ e.1 := h
      exact Or.inr ⟨by rw [hs0, min_eq_right h'], by rw [ht0, max_eq_left h']⟩
  have hterm : (fun st : ℕ × ℕ =>
      (((shortestPaths G st.1 st.2).countP fun p => usesEdge e p : ℕ) : ℚ) /
        ((shortestPaths G st.1 st.2).length : ℚ)) (s0, t0) = 1 := by
    simp only [hSP]
    rw [show ([[s0, t0]].countP fun p => usesEdge e p) = 1 by
      rw [List.countP_cons, List.countP_nil]
      simp [huse]]
    norm_num
  unfold ebOf
  have hmemval : (1 : ℚ) ∈ (pairsUpper G).map fun st =>
      (((shortestPaths G st.1 st.2).countP fun p => usesEdge e p : ℕ) : ℚ) /
        ((shortestPaths G st.1 st.2).length : ℚ) := by
    apply List.mem_map.mpr
    exact ⟨(s0, t0), hpmem, hterm⟩
  apply List.single_le_sum _ _ hmemval
  intro x hx
  obtain ⟨st, hst', hxval⟩ := List.mem_map.mp hx
  rw [← hxval]
  apply div_nonneg
  · exact Nat.cast_nonneg _
  · exact Nat.cast_nonneg _

theorem sum_pos_exists {l : List ℚ} (h : 0 < l.sum) : ∃ x ∈ l, 0 < x := by
  induction l with
  | nil => simp at h
  | cons a t ih =>
    rw [List.sum_cons] at h
    by_cases ha : 0 < a
    · exact ⟨a, List.mem_cons_self a t, ha⟩
    · have : 0 < t.sum := by
        have : a ≤ 0 := le_of_not_lt ha
        linarith
      obtain ⟨x, hx, hxp⟩ := ih this
      exact ⟨x, List.mem_cons_of_mem a hx, hxp⟩

theorem two_mem_length {l : List ℕ} {a b : ℕ} (ha : a ∈ l) (hb : b ∈ l)
    (hab : a ≠ b) : 2 ≤ l.length := by
  match l with
  | [] => exact absurd ha (List.not_mem_nil a)
  | [x] =>
    rw [List.mem_singleton.mp ha, List.mem_singleton.mp hb] at hab
    exact absurd rfl hab
  | x :: y :: t => simp

/-- A vertex with positive vertex betweenness has at least two neighbours
(two distinct ones appear on either side of it along a shortest path). -/
theorem nbrs_two_of_vb_pos {G : Graph} (hs : G.Simple) {v : ℕ}
    (hpos : 0 < vbOf G v) : 2 ≤ (G.nbrs v).length := by
  unfold vbOf at hpos
  obtain ⟨x, hx, hxpos⟩ := sum_pos_exists hpos
  obtain ⟨st, hstm, hxval⟩ := List.mem_map.mp hx
  by_cases hvst : v = st.1 ∨ v = st.2
  · rw [if_pos hvst] at hxval
    rw [← hxval] at hxpos
    exact absurd hxpos (lt_irrefl 0)
  · rw [if_neg hvst] at hxval
    have hcount : 0 < (shortestPaths G st.1 st.2).countP fun p => v ∈ interior p := by
      by_contra hc
      have hc0 : ((shortestPaths G st.1 st.2).countP fun p => v ∈ interior p) = 0 := by omega
      rw [hc0] at hxval
      rw [← hxval] at hxpos
      simp at hxpos
    obtain ⟨p, hpm, hpv⟩ := List.countP_pos.mp hcount
    have hvint : v ∈ interior p := of_decide_eq_true hpv
    obtain ⟨k, hk, hkv⟩ := List.mem_iff_getElem.mp hvint
    have hlen2 : k + 2 < p.length := by
      unfold interior at hk
      rw [List.length_dropLast, List.length_tail] at hk
      omega
    have hkv' : p.get ⟨k + 1, by omega⟩ = v := by
      unfold interior at hkv
      rw [List.getElem_dropLast, List.getElem_tail] at hkv
      exact hkv
    obtain ⟨d, hg, hplen, hph, hpl, hchain⟩ := SP_mem hpm
    rw [List.chain'_iff_get] at hchain
    have h1 := hchain k (by omega)
    have h2 := hchain (k + 1) (by omega)
    have h1v : v ∈ G.nbrs (p.get ⟨k, by omega⟩) := by
      rw [← hkv']
      exact h1
    have h2' : p.get ⟨k + 2, by omega⟩ ∈ G.nbrs v := by
      rw [← hkv']
      exact h2
    have hnodup := SP_nodup hpm
    have hne : p.get ⟨k, by omega⟩ ≠ p.get ⟨k + 2, by omega⟩ := by
      intro hh
      have hfin := (List.Nodup.get_inj_iff hnodup).mp hh
      have hkk : k = k + 2 := congrArg Fin.val hfin
      omega
    exact two_mem_length (nbrs_comm.mp h1v) h2' hne

/-! ### Dictionary mechanics for `pair_betweenness` (claim C3) -/

theorem pyDedup_mem {α : Type} [DecidableEq α] {x : α} :
    ∀ {l : List α}, x ∈ pyDedup l ↔ x ∈ l
  | [] => Iff.rfl
  | k :: ks => by
    unfold pyDedup
    rw [List.mem_cons, List.mem_cons]
    constructor
    · rintro (rfl | hx)
      · exact Or.inl rfl
      · exact Or.inr (pyDedup_mem.mp (List.mem_filter.mp hx).1)
    · rintro (rfl | hx)
      · exact Or.inl rfl
      · by_cases hxk : x = k
        · exact Or.inl hxk
        · exact Or.inr (List.mem_filter.mpr ⟨pyDedup_mem.mpr hx, by simpa using hxk⟩)

theorem perms2_mem {l : List ℕ} {x y : ℕ} :
    (x, y) ∈ perms2 l ↔
      ∃ i j : ℕ, i ≠ j ∧ l.get? i = some x ∧ l.get? j = some y := by
  unfold perms2
  rw [List.mem_flatMap]
  constructor
  · rintro ⟨ia, hia, hmem⟩
    obtain ⟨jb, hjb, hval⟩ := List.mem_filterMap.mp hmem
    by_cases hij : ia.1 ≠ jb.1
    · rw [if_pos hij] at hval
      obtain ⟨h1, h2⟩ := Prod.mk.injEq _ _ _ _ ▸ Option.some_inj.mp hval
      exact ⟨ia.1, jb.1, hij,
        by rw [← h1]; exact mem_enum_get? (by rw [← Prod.mk.eta (p := ia)] at hia; exact hia),
        by rw [← h2]; exact mem_enum_get? (by rw [← Prod.mk.eta (p := jb)] at hjb; exact hjb)⟩
    · rw [if_neg hij] at hval
      exact Option.noConfusion hval
  · rintro ⟨i, j, hij, hix, hjy⟩
    refine ⟨(i, x), get?_mem_enum hix, ?_⟩
    apply List.mem_filterMap.mpr
    refine ⟨(j, y), get?_mem_enum hjy, ?_⟩
    rw [if_pos (by simpa using hij)]

theorem mem_perms2_of_mem {l : List ℕ} {x y : ℕ} (hx : x ∈ l) (hy : y ∈ l)
    (hxy : x ≠ y) : (x, y) ∈ perms2 l := by
  obtain ⟨i, hi, hix⟩ := List.mem_iff_getElem.mp hx
  obtain ⟨j, hj, hjy⟩ := List.mem_iff_getElem.mp hy
  apply perms2_mem.mpr
  refine ⟨i, j, ?_, ?_, ?_⟩
  · intro hh
    subst hh
    exact hxy (hix.symm.trans hjy)
  · rw [List.get?_eq_getElem?, List.getElem?_eq_getElem hi, hix]
  · rw [List.get?_eq_getElem?, List.getElem?_eq_getElem hj, hjy]

theorem dlook_dicInit {G : Graph} {v : ℕ} :
    ∀ {arr : List ℕ}, dlook (dicInit G arr) v =
      if v ∈ arr then some ((pyDedup (perms2 (G.nbrs v))).map fun k => (k, 0))
      else none
  | [] => by simp [dlook, dicInit]
  | a :: arr => by
    unfold dicInit dlook
    rw [List.map_cons, List.find?_cons]
    by_cases hva : a = v
    · subst hva
      rw [show (decide ((a, (pyDedup (perms2 (G.nbrs a))).map fun k => (k, 0)).1 = a)) = true
        by simp]
      rw [if_pos (List.mem_cons_self a arr)]
      rfl
    · rw [show (decide ((a, (pyDedup (perms2 (G.nbrs a))).map fun k => (k, 0)).1 = v)) = false
        by simpa using hva]
      have := @dlook_dicInit G v arr
      unfold dicInit dlook at this
      rw [this]
      by_cases hv : v ∈ arr
      · rw [if_pos hv, if_pos (List.mem_cons_of_mem a hv)]
      · rw [if_neg hv, if_neg (by
          intro hh
          rcases List.mem_cons.mp hh with rfl | hh'
          · exact hva rfl
          · exact hv hh')]

theorem dget_init_tab {ks : List (ℕ × ℕ)} {k : ℕ × ℕ} :
    dget (ks.map fun k' => (k', 0)) k = if k ∈ ks then some 0 else none := by
  induction ks with
  | nil => simp [dget]
  | cons a ks ih =>
    unfold dget
    rw [List.map_cons, List.find?_cons]
    by_cases hak : a = k
    · subst hak
      rw [show (decide ((a, 0).1 = a)) = true by simp, if_pos (List.mem_cons_self a ks)]
      rfl
    · rw [show (decide ((a, 0).1 = k)) = false by simpa using hak]
      unfold dget at ih
      rw [ih]
      by_cases hk : k ∈ ks
      · rw [if_pos hk, if_pos (List.mem_cons_of_mem a hk)]
      · rw [if_neg hk, if_neg (by
          intro hh
          rcases List.mem_cons.mp hh with hh' | hh'
          · exact hak hh'.symm
          · exact hk hh')]

theorem dget_dbump {t : Tab} {k k' : ℕ × ℕ} :
    dget (dbump t k) k' = if k' = k then (dget t k').map (· + 2) else dget t k' := by
  induction t with
  | nil => by_cases h : k' = k <;> simp [dget, dbump, h]
  | cons e t ih =>
    by_cases hek : e.1 = k <;> by_cases hek' : e.1 = k'
    · have hkk : k' = k := by rw [← hek', hek]
      subst hkk
      simp [dget, dbump, List.find?_cons, hek, hek']
    · have hkk : ¬ k' = k := fun hh => hek' (by rw [hh]; exact hek)
      unfold dget dbump
      rw [List.map_cons, List.find?_cons, List.find?_cons, if_neg hkk]
      rw [show (decide ((if e.1 = k then (e.1, e.2 + 2) else e).1 = k')) = false by
        rw [if_pos hek]; simpa using hek']
      rw [show (decide (e.1 = k')) = false by simpa using hek']
      unfold dget dbump at ih
      rw [ih, if_neg hkk]
    · have hkk : ¬ k' = k := fun hh => hek (by rw [← hh]; exact hek')
      unfold dget dbump
      rw [List.map_cons, List.find?_cons, List.find?_cons, if_neg hkk]
      rw [show (decide ((if e.1 = k then (e.1, e.2 + 2) else e).1 = k')) = true by
        rw [if_neg hek]; simpa using hek']
      rw [show (decide (e.1 = k')) = true by simpa using hek']
      rw [if_neg hek]
    · unfold dget dbump
      rw [List.map_cons, List.find?_cons, List.find?_cons]
      rw [show (decide ((if e.1 = k then (e.1, e.2 + 2) else e).1 = k')) = false by
        rw [if_neg hek]; simpa using hek']
      rw [show (decide (e.1 = k')) = false by simpa using hek']
      unfold dget dbump at ih
      rw [ih]

theorem dlook_dicBump {d : Dic} {v v' : ℕ} {k : ℕ × ℕ} :
    dlook (dicBump d v k) v' =
      if v' = v then (dlook d v').map (fun t => dbump t k) else dlook d v' := by
  induction d with
  | nil => by_cases h : v' = v <;> simp [dlook, dicBump, h]
  | cons e d ih =>
    by_cases hev : e.1 = v <;> by_cases hev' : e.1 = v'
    · have hvv : v' = v := by rw [← hev', hev]
      subst hvv
      simp [dlook, dicBump, List.find?_cons, hev, hev']
    · have hvv : ¬ v' = v := fun hh => hev' (by rw [hh]; exact hev)
      unfold dlook dicBump
      rw [List.map_cons, List.find?_cons, List.find?_cons, if_neg hvv]
      rw [show (decide ((if e.1 = v then (e.1, dbump e.2 k) else e).1 = v')) = false by
        rw [if_pos hev]; simpa using hev']
      rw [show (decide (e.1 = v')) = false by simpa using hev']
      unfold dlook dicBump at ih
      rw [ih, if_neg hvv]
    · have hvv : ¬ v' = v := fun hh => hev (by rw [← hh]; exact hev')
      unfold dlook dicBump
      rw [List.map_cons, List.find?_cons, List.find?_cons, if_neg hvv]
      rw [show (decide ((if e.1 = v then (e.1, dbump e.2 k) else e).1 = v')) = true by
        rw [if_neg hev]; simpa using hev']
      rw [show (decide (e.1 = v')) = true by simpa using hev']
      rw [if_neg hev]
    · unfold dlook dicBump
      rw [List.map_cons, List.find?_cons, List.find?_cons]
      rw [show (decide ((if e.1 = v then (e.1, dbump e.2 k) else e).1 = v')) = false by
        rw [if_neg hev]; simpa using hev']
      rw [show (decide (e.1 = v')) = false by simpa using hev']
      unfold dlook dicBump at ih
      rw [ih]

theorem dicHas_iff {d : Dic} {v : ℕ} : dicHas d v = true ↔ (dlook d v).isSome := by
  induction d with
  | nil => simp [dicHas, dlook]
  | cons e d ih =>
    unfold dicHas dlook
    rw [List.any_cons, List.find?_cons]
    by_cases hev : e.1 = v
    · rw [show (decide (e.1 = v)) = true by simpa using hev]
      simp
    · rw [show (decide (e.1 = v)) = false by simpa using hev]
      simp only [Bool.false_or]
      unfold dicHas dlook at ih
      exact ih

theorem dicEntry_dicBump {d : Dic} {v v' : ℕ} {k k' : ℕ × ℕ} :
    dicEntry (dicBump d v k) v' k' =
      if v' = v ∧ k' = k then (dicEntry d v' k').map (· + 2)
      else dicEntry d v' k' := by
  unfold dicEntry
  rw [dlook_dicBump]
  by_cases hv : v' = v
  · rw [if_pos hv]
    cases hdl : dlook d v' with
    | none =>
      by_cases hk : k' = k
      · rw [if_pos ⟨hv, hk⟩]
        rfl
      · rw [if_neg fun hh => hk hh.2]
        rfl
    | some t =>
      show dget (dbump t k) k' =
        if v' = v ∧ k' = k then (dget t k').map (· + 2) else dget t k'
      rw [dget_dbump]
      by_cases hk : k' = k
      · rw [if_pos hk, if_pos ⟨hv, hk⟩]
      · rw [if_neg hk, if_neg fun hh => hk hh.2]
  · rw [if_neg hv, if_neg fun hh => hv hh.1]

theorem dicEntry_addTriples {v u w : ℕ} (huw : u ≠ w) :
    ∀ (p : List ℕ) (d : Dic) (c : ℕ), dicEntry d v (u, w) = some c →
      dicEntry (addTriples d p) v (u, w)
        = some (c + 2 * (tripleCount u v w p + tripleCount w v u p))
  | [], d, c, hc => by
    unfold addTriples tripleCount
    rw [hc]
    simp
  | [a], d, c, hc => by
    unfold addTriples tripleCount
    rw [hc]
    simp
  | [a, b], d, c, hc => by
    unfold addTriples tripleCount
    rw [hc]
    simp
  | a :: v' :: b :: rest, d, c, hc => by
    show dicEntry (addTriples
      (if dicHas d v' then dicBump (dicBump d v' (a, b)) v' (b, a) else d)
      (v' :: b :: rest)) v (u, w) = _
    have hstep : dicEntry
        (if dicHas d v' then dicBump (dicBump d v' (a, b)) v' (b, a) else d) v (u, w)
        = some (c + 2 * ((if a = u ∧ v' = v ∧ b = w then 1 else 0) +
            (if a = w ∧ v' = v ∧ b = u then 1 else 0))) := by
      by_cases hv' : v' = v
      · subst hv'
        have hhas : dicHas d v' = true := by
          rw [dicHas_iff]
          unfold dicEntry at hc
          cases hdl : dlook d v' with
          | none => rw [hdl] at hc; exact Option.noConfusion hc
          | some t => rfl
        rw [if_pos hhas, dicEntry_dicBump, dicEntry_dicBump]
        by_cases h1 : u = a ∧ w = b
        · have h2 : ¬ (u = b ∧ w = a) := by
            rintro ⟨hub, hwa⟩
            exact huw (h1.1.trans hwa.symm)
          rw [if_neg (by
            rintro ⟨-, hk⟩
            obtain ⟨h1', h2'⟩ := Prod.mk.injEq _ _ _ _ ▸ hk
            exact h2 ⟨h1', h2'⟩)]
          rw [if_pos ⟨rfl, by rw [h1.1, h1.2]⟩, hc]
          rw [if_pos ⟨h1.1.symm, rfl, h1.2.symm⟩]
          rw [if_neg (by
            rintro ⟨haw, -, hbu⟩
            exact huw (h1.1.trans haw))]
          rfl
        · by_cases h2 : u = b ∧ w = a
          · rw [if_pos ⟨rfl, by rw [h2.1, h2.2]⟩]
            rw [if_neg (by
              rintro ⟨-, hk⟩
              obtain ⟨h1', h2'⟩ := Prod.mk.injEq _ _ _ _ ▸ hk
              exact h1 ⟨h1', h2'⟩), hc]
            rw [if_neg (by
              rintro ⟨hau, -, hbw⟩
              exact h1 ⟨hau.symm, hbw.symm⟩)]
            rw [if_pos ⟨h2.2.symm, rfl, h2.1.symm⟩]
            rfl
          · rw [if_neg (by
              rintro ⟨-, hk⟩
              obtain ⟨h1', h2'⟩ := Prod.mk.injEq _ _ _ _ ▸ hk
              exact h2 ⟨h1', h2'⟩)]
            rw [if_neg (by
              rintro ⟨-, hk⟩
              obtain ⟨h1', h2'⟩ := Prod.mk.injEq _ _ _ _ ▸ hk
              exact h1 ⟨h1', h2'⟩), hc]
            rw [if_neg (by
              rintro ⟨hau, -, hbw⟩
              exact h1 ⟨hau.symm, hbw.symm⟩)]
            rw [if_neg (by
              rintro ⟨haw, -, hbu⟩
              exact h2 ⟨hbu.symm, haw.symm⟩)]
            rfl
      · have hind : ((if a = u ∧ v' = v ∧ b = w then 1 else 0) +
            (if a = w ∧ v' = v ∧ b = u then 1 else 0)) = 0 := by
          rw [if_neg fun hh => hv' hh.2.1, if_neg fun hh => hv' hh.2.1]
        rw [hind]
        by_cases hhas : dicHas d v'
        · rw [if_pos hhas, dicEntry_dicBump, dicEntry_dicBump]
          rw [if_neg fun hh => hv' hh.1.symm, if_neg fun hh => hv' hh.1.symm, hc]
          simp
        · rw [if_neg hhas, hc]
          simp
    obtain ⟨c', hc'⟩ : ∃ c', dicEntry
        (if dicHas d v' then dicBump (dicBump d v' (a, b)) v' (b, a) else d) v (u, w)
        = some c' := ⟨_, hstep⟩
    rw [dicEntry_addTriples huw (v' :: b :: rest) _ c' hc']
    rw [hstep] at hc'
    obtain rfl := Option.some_inj.mp hc'.symm
    show _ = some (c + 2 * (tripleCount u v w (a :: v' :: b :: rest) +
      tripleCount w v u (a :: v' :: b :: rest)))
    rw [show tripleCount u v w (a :: v' :: b :: rest)
        = (if a = u ∧ v' = v ∧ b = w then 1 else 0) + tripleCount u v w (v' :: b :: rest)
      from rfl]
    rw [show tripleCount w v u (a :: v' :: b :: rest)
        = (if a = w ∧ v' = v ∧ b = u then 1 else 0) + tripleCount w v u (v' :: b :: rest)
      from rfl]
    congr 1
    ring

theorem dicEntry_foldl_addTriples {v u w : ℕ} (huw : u ≠ w) :
    ∀ (L : List (List ℕ)) (d : Dic) (c : ℕ), dicEntry d v (u, w) = some c →
      dicEntry (L.foldl addTriples d) v (u, w)
        = some (c + 2 * (L.map fun p =>
            tripleCount u v w p + tripleCount w v u p).sum)
  | [], d, c, hc => by
    rw [List.foldl_nil, hc, List.map_nil, List.sum_nil]
    simp
  | p :: L, d, c, hc => by
    rw [List.foldl_cons,
      dicEntry_foldl_addTriples huw L (addTriples d p) _
        (dicEntry_addTriples huw p d c hc),
      List.map_cons, List.sum_cons]
    congr 1
    ring

theorem SP_endpoints {G : Graph} {s t : ℕ} {p : List ℕ}
    (hp : p ∈ shortestPaths G s t) :
    p.head?.getD 0 = s ∧ p.getLast?.getD 0 = t := by
  obtain ⟨k, -, -, hh, hl, -⟩ := SP_mem hp
  rw [hh, hl]
  exact ⟨rfl, rfl⟩

theorem foldl_processPath_skip :
    ∀ (L : List (List ℕ)) (seen : List (ℕ × ℕ)) (d : Dic),
      (∀ p ∈ L, (p.head?.getD 0, p.getLast?.getD 0) ∈ seen) →
      L.foldl processPath (seen, d) = (seen, d)
  | [], _, _, _ => rfl
  | p :: L, seen, d, h => by
    rw [List.foldl_cons,
      show processPath (seen, d) p = (seen, d) by
        unfold processPath
        rw [if_pos (h p (List.mem_cons_self p L))]]
    exact foldl_processPath_skip L seen d fun q hq => h q (List.mem_cons_of_mem p hq)

theorem foldl_processPath_go {s t : ℕ} (hst : s ≠ t) :
    ∀ (L : List (List ℕ)) (seen : List (ℕ × ℕ)) (d : Dic),
      (∀ p ∈ L, p.head?.getD 0 = s ∧ p.getLast?.getD 0 = t) →
      (s, t) ∉ seen →
      ∃ seen', L.foldl processPath (seen, d) = (seen', L.foldl addTriples d) ∧
        ∀ ab, ab ∈ seen' ↔ (ab ∈ seen ∨ (L ≠ [] ∧ ab = (t, s)))
  | [], seen, d, _, _ => ⟨seen, rfl, fun ab => by simp⟩
  | p :: L, seen, d, hend, hnot => by
    rw [List.foldl_cons, List.foldl_cons]
    have hp := hend p (List.mem_cons_self p L)
    have hstep : processPath (seen, d) p
        = (List.insert (t, s) seen, addTriples d p) := by
      unfold processPath
      rw [hp.1, hp.2, if_neg hnot]
    rw [hstep]
    have hnot' : (s, t) ∉ List.insert (t, s) seen := by
      rw [List.mem_insert_iff]
      rintro (heq | hmem)
      · exact hst (congrArg Prod.fst heq)
      · exact hnot hmem
    obtain ⟨seen', hfold, hmem⟩ := foldl_processPath_go hst L (List.insert (t, s) seen)
      (addTriples d p) (fun q hq => hend q (List.mem_cons_of_mem p hq)) hnot'
    refine ⟨seen', hfold, fun ab => ?_⟩
    rw [hmem ab, List.mem_insert_iff]
    constructor
    · rintro ((rfl | h) | ⟨-, rfl⟩)
      · exact Or.inr ⟨List.cons_ne_nil p L, rfl⟩
      · exact Or.inl h
      · exact Or.inr ⟨List.cons_ne_nil p L, rfl⟩
    · rintro (h | ⟨-, rfl⟩)
      · exact Or.inl (Or.inr h)
      · exact Or.inl (Or.inl rfl)

theorem foldl_processPath_diag (G : Graph) (s : ℕ) (seen : List (ℕ × ℕ)) (d : Dic) :
    ∃ seen', (shortestPaths G s s).foldl processPath (seen, d) = (seen', d) ∧
      ∀ ab, ab ∈ seen' ↔ (ab ∈ seen ∨ ab = (s, s)) := by
  rw [SP_self]
  have hpp : processPath (seen, d) [s]
      = if (s, s) ∈ seen then (seen, d) else (List.insert (s, s) seen, d) := by
    unfold processPath
    rw [show ([s].head?.getD 0) = s from rfl, show ([s].getLast?.getD 0) = s from rfl]
    by_cases h : (s, s) ∈ seen
    · rw [if_pos h, if_pos h]
    · rw [if_neg h, if_neg h]
      rfl
  rw [List.foldl_cons, List.foldl_nil, hpp]
  by_cases h : (s, s) ∈ seen
  · refine ⟨seen, by rw [if_pos h], fun ab => ?_⟩
    constructor
    · exact Or.inl
    · rintro (hh | rfl)
      · exact hh
      · exact h
  · refine ⟨List.insert (s, s) seen, by rw [if_neg h], fun ab => ?_⟩
    rw [List.mem_insert_iff]
    constructor
    · rintro (rfl | hh)
      · exact Or.inr rfl
      · exact Or.inl hh
    · rintro (hh | rfl)
      · exact Or.inr hh
      · exact Or.inl rfl

theorem tripleCount_eq_zero (u v w : ℕ) :
    ∀ (l : List ℕ), v ∉ l.tail → tripleCount u v w l = 0
  | [], _ => rfl
  | [_], _ => rfl
  | [_, _], _ => rfl
  | a :: b :: c :: rest, hv => by
    show (if a = u ∧ b = v ∧ c = w then 1 else 0)
      + tripleCount u v w (b :: c :: rest) = 0
    rw [if_neg (fun hh => hv (List.mem_cons.mpr (Or.inl hh.2.1.symm))),
      tripleCount_eq_zero u v w (b :: c :: rest)
        (fun hm => hv (List.mem_cons_of_mem b hm))]

theorem tripleCount_add_le_one {u v w : ℕ} (huw : u ≠ w) :
    ∀ (l : List ℕ), l.Nodup →
      tripleCount u v w l + tripleCount w v u l ≤ 1
  | [], _ => Nat.zero_le 1
  | [_], _ => Nat.zero_le 1
  | [_, _], _ => Nat.zero_le 1
  | a :: b :: c :: rest, hnd => by
    show ((if a = u ∧ b = v ∧ c = w then 1 else 0)
        + tripleCount u v w (b :: c :: rest))
      + ((if a = w ∧ b = v ∧ c = u then 1 else 0)
        + tripleCount w v u (b :: c :: rest)) ≤ 1
    have hbt : b ∉ c :: rest := (List.nodup_cons.mp (List.nodup_cons.mp hnd).2).1
    by_cases h1 : a = u ∧ b = v ∧ c = w
    · have h2 : ¬ (a = w ∧ b = v ∧ c = u) := fun hh => huw (h1.1.symm.trans hh.1)
      have hvt : v ∉ c :: rest := by rwa [h1.2.1] at hbt
      rw [if_pos h1, if_neg h2,
        tripleCount_eq_zero u v w (b :: c :: rest) hvt,
        tripleCount_eq_zero w v u (b :: c :: rest) hvt]
    · by_cases h2 : a = w ∧ b = v ∧ c = u
      · have hvt : v ∉ c :: rest := by rwa [h2.2.1] at hbt
        rw [if_neg h1, if_pos h2,
          tripleCount_eq_zero u v w (b :: c :: rest) hvt,
          tripleCount_eq_zero w v u (b :: c :: rest) hvt]
      · rw [if_neg h1, if_neg h2, Nat.zero_add, Nat.zero_add]
        exact tripleCount_add_le_one huw (b :: c :: rest) (List.nodup_cons.mp hnd).2

theorem sum_tc_eq_countP {u v w : ℕ} (huw : u ≠ w) :
    ∀ (L : List (List ℕ)), (∀ p ∈ L, p.Nodup) →
      (L.map fun p => tripleCount u v w p + tripleCount w v u p).sum
        = L.countP fun p => decide (0 < tripleCount u v w p + tripleCount w v u p)
  | [], _ => rfl
  | p :: L, h => by
    rw [List.map_cons, List.sum_cons,
      sum_tc_eq_countP huw L (fun q hq => h q (List.mem_cons_of_mem p hq)),
      List.countP_cons]
    have hle := @tripleCount_add_le_one u v w huw p (h p (List.mem_cons_self p L))
    by_cases hpos : 0 < tripleCount u v w p + tripleCount w v u p
    · rw [if_pos (by simpa using hpos)]
      omega
    · rw [if_neg (by simpa using hpos)]
      omega

theorem blockInc_eq_countP (G : Graph) {u v w : ℕ} (huw : u ≠ w) (x y : ℕ) :
    blockInc G u v w x y
      = if x < y then (shortestPaths G x y).countP
          (fun p => decide (0 < tripleCount u v w p + tripleCount w v u p))
        else 0 := by
  unfold blockInc
  by_cases hxy : x < y
  · rw [if_pos hxy, if_pos hxy, sum_tc_eq_countP huw _ fun p hp => SP_nodup hp]
  · rw [if_neg hxy, if_neg hxy]

theorem row_sum_eq (G : Graph) {u v w : ℕ} (huw : u ≠ w) (x : ℕ) :
    ∀ (l : List ℕ),
      (l.map (blockInc G u v w x)).sum
        = (((l.filter fun t => x < t).map fun t => (x, t)).map fun st =>
            (shortestPaths G st.1 st.2).countP fun p =>
              decide (0 < tripleCount u v w p + tripleCount w v u p)).sum
  | [] => rfl
  | t :: l => by
    rw [List.map_cons, List.sum_cons, List.filter_cons,
      blockInc_eq_countP G huw x t]
    by_cases hxt : x < t
    · rw [if_pos hxt, if_pos (by simpa using hxt), List.map_cons, List.map_cons,
        List.sum_cons, row_sum_eq G huw x l]
    · rw [if_neg hxt, if_neg (by simpa using hxt), row_sum_eq G huw x l,
        Nat.zero_add]

theorem sum_map_flatMap {α β : Type} (g : β → ℕ) (f : α → List β) :
    ∀ (l : List α),
      ((l.flatMap f).map g).sum = (l.map fun a => ((f a).map g).sum).sum
  | [] => rfl
  | a :: l => by
    rw [List.flatMap_cons, List.map_append, List.sum_append, List.map_cons,
      List.sum_cons, sum_map_flatMap g f l]

theorem incSum_eq_tripleUsage (G : Graph) {u v w : ℕ} (huw : u ≠ w) :
    incSum G u v w G.n 0 = tripleUsage G u v w := by
  unfold incSum tripleUsage pairsUpper
  rw [List.range_zero, List.map_nil, List.sum_nil, Nat.add_zero, sum_map_flatMap]
  exact congrArg List.sum
    (List.map_congr_left fun x _ => row_sum_eq G huw x (List.range G.n))

theorem tripleUsage_comm (G : Graph) (u v w : ℕ) :
    tripleUsage G w v u = tripleUsage G u v w := by
  unfold tripleUsage
  refine congrArg List.sum (List.map_congr_left fun st _ => ?_)
  refine List.countP_congr fun p _ => ?_
  rw [Nat.add_comm]

theorem seenProp_succ_lower (G : Graph) {s t : ℕ} (hts : t < s) (ab : ℕ × ℕ) :
    seenProp G s (t + 1) ab ↔ seenProp G s t ab := by
  unfold seenProp
  constructor <;> rintro ⟨h1, h2, h3, h4⟩ <;> exact ⟨h1, h2, h3, by omega⟩

theorem seenProp_succ_diag (G : Graph) {s : ℕ} (hs : s < G.n) (ab : ℕ × ℕ) :
    seenProp G s (s + 1) ab ↔ (seenProp G s s ab ∨ ab = (s, s)) := by
  unfold seenProp
  constructor
  · rintro ⟨h1, h2, h3, h4⟩
    by_cases hd : ab.2 = s ∧ ab.1 = s
    · exact Or.inr (Prod.ext_iff.mpr ⟨hd.2, hd.1⟩)
    · exact Or.inl ⟨h1, h2, h3, by omega⟩
  · rintro (⟨h1, h2, h3, h4⟩ | rfl)
    · exact ⟨h1, h2, h3, by omega⟩
    · exact ⟨Nat.le_refl s, hs, by rw [SP_self]; exact List.cons_ne_nil _ _,
        Or.inr ⟨rfl, Nat.lt_succ_self s⟩⟩

theorem seenProp_succ_upper (G : Graph) {s t : ℕ} (hst : s < t) (htn : t < G.n)
    (ab : ℕ × ℕ) :
    seenProp G s (t + 1) ab
      ↔ (seenProp G s t ab ∨ (shortestPaths G s t ≠ [] ∧ ab = (t, s))) := by
  unfold seenProp
  constructor
  · rintro ⟨h1, h2, h3, h4⟩
    by_cases hd : ab.2 = s ∧ ab.1 = t
    · refine Or.inr ⟨?_, Prod.ext_iff.mpr ⟨hd.2, hd.1⟩⟩
      rw [← hd.1, ← hd.2]
      exact h3
    · exact Or.inl ⟨h1, h2, h3, by omega⟩
  · rintro (⟨h1, h2, h3, h4⟩ | ⟨hsp, rfl⟩)
    · exact ⟨h1, h2, h3, by omega⟩
    · exact ⟨Nat.le_of_lt hst, htn, hsp, Or.inr ⟨rfl, Nat.lt_succ_self t⟩⟩

theorem seenProp_shift (G : Graph) (s : ℕ) (ab : ℕ × ℕ) :
    seenProp G s G.n ab ↔ seenProp G (s + 1) 0 ab := by
  unfold seenProp
  constructor <;> rintro ⟨h1, h2, h3, h4⟩ <;> exact ⟨h1, h2, h3, by omega⟩

theorem pb_inner (G : Graph) {v u w : ℕ} (huw : u ≠ w) {s : ℕ} (hs : s < G.n)
    (seen : List (ℕ × ℕ)) (d : Dic) (c : ℕ)
    (hseen : ∀ ab, ab ∈ seen ↔ seenProp G s 0 ab)
    (hd : dicEntry d v (u, w) = some c) :
    ∀ (t : ℕ), t ≤ G.n →
      ∃ seen' d',
        ((List.range t).flatMap fun y => shortestPaths G s y).foldl
            processPath (seen, d) = (seen', d') ∧
        (∀ ab, ab ∈ seen' ↔ seenProp G s t ab) ∧
        dicEntry d' v (u, w)
          = some (c + 2 * ((List.range t).map (blockInc G u v w s)).sum) := by
  intro t
  induction t with
  | zero =>
    intro _
    refine ⟨seen, d, rfl, hseen, ?_⟩
    rw [hd, List.range_zero, List.map_nil, List.sum_nil]
    simp
  | succ t ih =>
    intro ht
    obtain ⟨seen', d', hfold, hmem, hent⟩ := ih (by omega)
    rw [List.range_succ, List.flatMap_append, List.foldl_append, hfold,
      show ([t].flatMap fun y => shortestPaths G s y) = shortestPaths G s t by
        rw [List.flatMap_cons, List.flatMap_nil, List.append_nil]]
    rcases Nat.lt_trichotomy t s with hts | heq | hst
    · have hfold2 : (shortestPaths G s t).foldl processPath (seen', d')
          = (seen', d') := by
        by_cases hsp : shortestPaths G s t = []
        · rw [hsp]
          rfl
        · apply foldl_processPath_skip
          intro p hp
          obtain ⟨hph, hpl⟩ := SP_endpoints hp
          rw [hph, hpl]
          exact (hmem (s, t)).mpr
            ⟨Nat.le_of_lt hts, hs, fun hh => hsp (SP_nil_symm.mpr hh), Or.inl hts⟩
      refine ⟨seen', d', hfold2, fun ab => (hmem ab).trans
        (seenProp_succ_lower G hts ab).symm, ?_⟩
      have hbz : blockInc G u v w s t = 0 := by
        unfold blockInc
        rw [if_neg (by omega)]
      rw [hent, List.map_append, List.map_cons, List.map_nil,
        List.sum_append, List.sum_cons, List.sum_nil, hbz]
      simp
    · subst heq
      obtain ⟨seen'', hfold2, hmem2⟩ := foldl_processPath_diag G t seen' d'
      refine ⟨seen'', d', hfold2, fun ab => ?_, ?_⟩
      · rw [hmem2 ab, hmem ab]
        exact (seenProp_succ_diag G hs ab).symm
      · have hbz : blockInc G u v w t t = 0 := by
          unfold blockInc
          rw [if_neg (by omega)]
        rw [hent, List.map_append, List.map_cons, List.map_nil,
          List.sum_append, List.sum_cons, List.sum_nil, hbz]
        simp
    · have hnotin : (s, t) ∉ seen' := fun hin => by
        have hsp := (hmem (s, t)).mp hin
        exact absurd hsp.1 (by omega)
      obtain ⟨seen'', hfold2, hmem2⟩ := foldl_processPath_go
        (show s ≠ t by omega) (shortestPaths G s t) seen' d'
        (fun p hp => SP_endpoints hp) hnotin
      refine ⟨seen'', (shortestPaths G s t).foldl addTriples d', hfold2,
        fun ab => ?_, ?_⟩
      · rw [hmem2 ab, hmem ab]
        exact (seenProp_succ_upper G hst (by omega) ab).symm
      · have hbi : blockInc G u v w s t
            = ((shortestPaths G s t).map fun p =>
                tripleCount u v w p + tripleCount w v u p).sum := by
          unfold blockInc
          rw [if_pos hst]
        rw [dicEntry_foldl_addTriples huw _ d' _ hent,
          List.map_append, List.map_cons, List.map_nil, List.sum_append,
          List.sum_cons, List.sum_nil, hbi]
        congr 1
        ring

theorem incSum_succ (G : Graph) (u v w s : ℕ) :
    incSum G u v w (s + 1) 0
      = incSum G u v w s 0 + ((List.range G.n).map (blockInc G u v w s)).sum := by
  unfold incSum
  rw [List.range_zero, List.map_nil, List.sum_nil, Nat.add_zero, Nat.add_zero]
  have hr : List.range (s + 1) = List.range s ++ [s] := List.range_succ s
  rw [hr, List.map_append, List.map_cons, List.map_nil, List.sum_append,
    List.sum_cons, List.sum_nil]
  simp

theorem pb_outer (G : Graph) {v u w : ℕ} (huw : u ≠ w)
    (seen : List (ℕ × ℕ)) (d : Dic) (c : ℕ)
    (hseen : ∀ ab, ab ∈ seen ↔ seenProp G 0 0 ab)
    (hd : dicEntry d v (u, w) = some c) :
    ∀ (s : ℕ), s ≤ G.n →
      ∃ seen' d',
        ((List.range s).flatMap fun x => (List.range G.n).flatMap fun y =>
            shortestPaths G x y).foldl processPath (seen, d) = (seen', d') ∧
        (∀ ab, ab ∈ seen' ↔ seenProp G s 0 ab) ∧
        dicEntry d' v (u, w) = some (c + 2 * incSum G u v w s 0) := by
  intro s
  induction s with
  | zero =>
    intro _
    refine ⟨seen, d, rfl, hseen, ?_⟩
    rw [hd]
    simp [incSum]
  | succ s ih =>
    intro hs1
    obtain ⟨seen', d', hfold, hmem, hent⟩ := ih (by omega)
    rw [List.range_succ, List.flatMap_append, List.foldl_append, hfold,
      show ([s].flatMap fun x => (List.range G.n).flatMap fun y =>
          shortestPaths G x y)
        = ((List.range G.n).flatMap fun y => shortestPaths G s y) by
        rw [List.flatMap_cons, List.flatMap_nil, List.append_nil]]
    obtain ⟨seen'', d'', hfold2, hmem2, hent2⟩ :=
      pb_inner G huw (show s < G.n by omega) seen' d'
        (c + 2 * incSum G u v w s 0) hmem hent G.n (Nat.le_refl G.n)
    refine ⟨seen'', d'', hfold2, fun ab => (hmem2 ab).trans
      (seenProp_shift G s ab), ?_⟩
    rw [hent2, incSum_succ]
    congr 1
    have : incSum G u v w s G.n
        = ((List.range G.n).map (blockInc G u v w s)).sum + incSum G u v w s 0 := by
      unfold incSum
      rw [List.range_zero, List.map_nil, List.sum_nil, Nat.add_zero]
      ring
    ring

theorem pair_betweenness_entry (G : Graph) (arr : List ℕ) {v u w : ℕ}
    (hv : v ∈ arr) (hu : u ∈ G.nbrs v) (hw : w ∈ G.nbrs v) (huw : u ≠ w) :
    dicEntry (pair_betweenness G arr) v (u, w)
      = some (2 * tripleUsage G u v w) := by
  have hinit : dicEntry (dicInit G arr) v (u, w) = some 0 := by
    unfold dicEntry
    rw [dlook_dicInit, if_pos hv]
    show dget ((pyDedup (perms2 (G.nbrs v))).map fun k => (k, 0)) (u, w) = some 0
    rw [dget_init_tab, if_pos (pyDedup_mem.mpr (mem_perms2_of_mem hu hw huw))]
  obtain ⟨seen', d', hfold, -, hent⟩ := pb_outer G huw [] (dicInit G arr) 0
    (fun ab => ⟨fun h => absurd h (List.not_mem_nil ab),
      fun h => absurd h.2.2.2 (by omega)⟩)
    hinit G.n (Nat.le_refl G.n)
  unfold pair_betweenness allSP
  rw [hfold]
  show dicEntry d' v (u, w) = _
  rw [hent, Nat.zero_add, incSum_eq_tripleUsage G huw]

/-- C3: for every candidate vertex `v` of the list handed to
`pair_betweenness` and every ordered pair `(u, w)` of distinct neighbours of
`v`, the returned dictionary has both entries present (they were pre-seeded
at zero), they are equal (symmetry), and their common value counts each
undirected shortest path that traverses the consecutive triple `u, v, w`
exactly once, contributing 2 to both the `(u, w)` and the `(w, u)` entry. -/
theorem pair_betweenness_spec (G : Graph) (arr : List ℕ) {v u w : ℕ}
    (hv : v ∈ arr) (hu : u ∈ G.nbrs v) (hw : w ∈ G.nbrs v) (huw : u ≠ w) :
    dicEntry (pair_betweenness G arr) v (u, w)
        = some (2 * tripleUsage G u v w) ∧
      dicEntry (pair_betweenness G arr) v (w, u)
        = some (2 * tripleUsage G u v w) := by
  refine ⟨pair_betweenness_entry G arr hv hu hw huw, ?_⟩
  rw [pair_betweenness_entry G arr hv hw hu (Ne.symm huw), tripleUsage_comm]

theorem pair_betweenness_spec_witness :
    dicEntry (pair_betweenness ⟨3, [(0, 1), (1, 2)], [0, 1, 2]⟩ [1]) 1 (0, 2)
        = some (2 * tripleUsage ⟨3, [(0, 1), (1, 2)], [0, 1, 2]⟩ 0 1 2) ∧
      dicEntry (pair_betweenness ⟨3, [(0, 1), (1, 2)], [0, 1, 2]⟩ [1]) 1 (2, 0)
        = some (2 * tripleUsage ⟨3, [(0, 1), (1, 2)], [0, 1, 2]⟩ 0 1 2) :=
  pair_betweenness_spec ⟨3, [(0, 1), (1, 2)], [0, 1, 2]⟩ [1]
    (by decide) (by decide) (by decide) (by decide)

theorem unshift_lt {j x n : ℕ} (hj : j < n) (hx : x < n - 1) : unshift j x < n := by
  unfold unshift
  split <;> omega

theorem unshift_ne {j x : ℕ} : unshift j x ≠ j := by
  unfold unshift
  split <;> omega

theorem unshift_inj {j x y : ℕ} (h : unshift j x = unshift j y) : x = y := by
  unfold unshift at h
  split at h <;> split at h <;> omega

theorem mget_eq_getElem? (M : Mat) (k b : ℕ) :
    mget M k b = ((M[k]?.getD [])[b]?).getD 0 := by
  unfold mget
  rw [List.get?_eq_getElem?, List.get?_eq_getElem?]

theorem row_facts {M : Mat} (hsq : IsSquare M) {k : ℕ} (hk : k < M.length) :
    ∃ r, M[k]? = some r ∧ r.length = M.length ∧
      ∀ b, b < M.length → r[b]? = some (mget M k b) := by
  refine ⟨M[k], List.getElem?_eq_getElem hk, hsq _ (M.getElem_mem hk), ?_⟩
  intro b hb
  have hbr : b < (M[k]).length := by
    rw [hsq _ (M.getElem_mem hk)]
    exact hb
  rw [List.getElem?_eq_getElem hbr, mget_eq_getElem? M k b,
    List.getElem?_eq_getElem hk, Option.getD_some, List.getElem?_eq_getElem hbr,
    Option.getD_some]

theorem getElem?_fillDiag (M : Mat) (a : ℕ) :
    (fillDiag M)[a]? = Option.map (fun r => r.set a 0) M[a]? := by
  unfold fillDiag
  rw [List.getElem?_map, List.getElem?_enum]
  cases M[a]? <;> rfl

theorem reduceCore_spec (M : Mat) (i j : ℕ) (hsq : IsSquare M)
    (hij : i < j) (hjn : j < M.length) :
    fillDiag ((((M.set i (((M.get? j).getD []).zipWith (· + ·)
        ((M.get? i).getD []))).eraseIdx j).map fun r =>
          r.set i (((r.get? j).getD 0) + ((r.get? i).getD 0))).map fun r =>
            r.eraseIdx j)
      = specReduce M i j := by
  have hin : i < M.length := Nat.lt_trans hij hjn
  obtain ⟨ri, hri, hrilen, hrient⟩ := row_facts hsq hin
  obtain ⟨rj, hrj, hrjlen, hrjent⟩ := row_facts hsq hjn
  have hgdj : (M.get? j).getD [] = rj := by
    rw [List.get?_eq_getElem?, hrj]
    rfl
  have hgdi : (M.get? i).getD [] = ri := by
    rw [List.get?_eq_getElem?, hri]
    rfl
  rw [hgdj, hgdi]
  have hzrlen : (rj.zipWith (· + ·) ri).length = M.length := by
    rw [List.length_zipWith, hrjlen, hrilen]
    omega
  have hzrent : ∀ k, k < M.length →
      (rj.zipWith (· + ·) ri)[k]? = some (mget M j k + mget M i k) := by
    intro k hk
    rw [List.getElem?_zipWith, hrjent k hk, hrient k hk]
  have hM1len : (M.set i (rj.zipWith (· + ·) ri)).length = M.length :=
    List.length_set M i _
  have hM2 : ∀ a, a < M.length - 1 →
      ∃ ra, ((M.set i (rj.zipWith (· + ·) ri)).eraseIdx j)[a]? = some ra ∧
        ra.length = M.length ∧
        ∀ k, k < M.length → ra[k]? =
          some (if unshift j a = i then mget M j k + mget M i k
                else mget M (unshift j a) k) := by
    intro a ha
    have hua : unshift j a < M.length := unshift_lt hjn ha
    have herase : ((M.set i (rj.zipWith (· + ·) ri)).eraseIdx j)[a]?
        = (M.set i (rj.zipWith (· + ·) ri))[unshift j a]? := by
      rw [List.getElem?_eraseIdx]
      unfold unshift
      by_cases h : a < j
      · rw [if_pos h, if_pos h]
      · rw [if_neg h, if_neg h]
    rw [herase]
    by_cases hi : unshift j a = i
    · rw [List.getElem?_set, if_pos hi.symm, if_pos hin]
      refine ⟨rj.zipWith (· + ·) ri, rfl, hzrlen, ?_⟩
      intro k hk
      rw [if_pos hi]
      exact hzrent k hk
    · rw [List.getElem?_set, if_neg (fun hh => hi hh.symm)]
      obtain ⟨ra, hra, hralen, hraent⟩ := row_facts hsq hua
      refine ⟨ra, hra, hralen, ?_⟩
      intro k hk
      rw [if_neg hi]
      exact hraent k hk
  apply List.ext_getElem?
  intro a
  rw [getElem?_fillDiag, List.getElem?_map, List.getElem?_map]
  unfold specReduce
  rw [List.getElem?_map]
  by_cases ha : a < M.length - 1
  · obtain ⟨ra, hra, hralen, hraent⟩ := hM2 a ha
    rw [hra, List.getElem?_range ha, Option.map_some', Option.map_some',
      Option.map_some']
    apply congrArg
    have hvj : ((ra.get? j).getD 0)
        = (if unshift j a = i then mget M j j + mget M i j
           else mget M (unshift j a) j) := by
      rw [List.get?_eq_getElem?, hraent j hjn, Option.getD_some]
    have hvi : ((ra.get? i).getD 0)
        = (if unshift j a = i then mget M j i + mget M i i
           else mget M (unshift j a) i) := by
      rw [List.get?_eq_getElem?, hraent i hin, Option.getD_some]
    have hf3len : (ra.set i ((ra.get? j).getD 0 + (ra.get? i).getD 0)).length
        = M.length := by
      rw [List.length_set, hralen]
    have hf3ent : ∀ k, k < M.length →
        (ra.set i ((ra.get? j).getD 0 + (ra.get? i).getD 0))[k]? =
          some (if k = i
            then ((ra.get? j).getD 0 + (ra.get? i).getD 0)
            else (if unshift j a = i then mget M j k + mget M i k
                  else mget M (unshift j a) k)) := by
      intro k hk
      rw [List.getElem?_set]
      by_cases hk2 : k = i
      · rw [if_pos hk2.symm, if_pos (by rw [hralen]; exact hin), if_pos hk2]
      · rw [if_neg (fun hh => hk2 hh.symm), if_neg hk2]
        exact hraent k hk
    have hlen4 : ((ra.set i ((ra.get? j).getD 0 + (ra.get? i).getD 0)).eraseIdx
        j).length = M.length - 1 := by
      rw [List.length_eraseIdx, if_pos (by rw [hf3len]; exact hjn), hf3len]
    apply List.ext_getElem?
    intro b
    rw [List.getElem?_set]
    rw [List.getElem?_map]
    by_cases hb : b < M.length - 1
    · rw [List.getElem?_range hb]
      by_cases hab : a = b
      · rw [if_pos hab, if_pos (by rw [hlen4]; omega), Option.map_some']
        rw [show (if a = b then (0 : ℚ) else _) = 0 from if_pos hab]
      · rw [if_neg hab, Option.map_some']
        have hub : unshift j b < M.length := unshift_lt hjn hb
        have herase2 : ((ra.set i ((ra.get? j).getD 0 + (ra.get? i).getD 0)).eraseIdx
            j)[b]? = (ra.set i ((ra.get? j).getD 0 + (ra.get? i).getD 0))[unshift j b]? := by
          rw [List.getElem?_eraseIdx]
          unfold unshift
          by_cases h : b < j
          · rw [if_pos h, if_pos h]
          · rw [if_neg h, if_neg h]
        rw [herase2, hf3ent (unshift j b) hub]
        rw [show (if a = b then (0 : ℚ)
            else mget M (unshift j a) (unshift j b)
              + (if unshift j a = i then mget M j (unshift j b) else 0)
              + (if unshift j b = i then mget M (unshift j a) j else 0))
          = mget M (unshift j a) (unshift j b)
              + (if unshift j a = i then mget M j (unshift j b) else 0)
              + (if unshift j b = i then mget M (unshift j a) j else 0)
          from if_neg hab]
        by_cases hbi : unshift j b = i
        · by_cases hai : unshift j a = i
          · exact absurd (unshift_inj (hai.trans hbi.symm)) hab
          · rw [if_pos hbi, hvj, hvi, if_neg hai, if_neg hai, if_neg hai,
              if_pos hbi, hbi]
            apply congrArg
            ring
        · rw [if_neg hbi, if_neg hbi]
          by_cases hai : unshift j a = i
          · rw [if_pos hai, if_pos hai, hai]
            apply congrArg
            ring
          · rw [if_neg hai, if_neg hai]
            apply congrArg
            ring
    · have h1 : ((ra.set i ((ra.get? j).getD 0 + (ra.get? i).getD 0)).eraseIdx
          j)[b]? = none :=
        List.getElem?_eq_none (by rw [hlen4]; omega)
      have h2 : (List.range (M.length - 1))[b]? = none :=
        List.getElem?_eq_none (by rw [List.length_range]; omega)
      rw [if_neg (fun hh => hb (by omega)), h1, h2, Option.map_none']
  · have hM2a : ((M.set i (rj.zipWith (· + ·) ri)).eraseIdx j)[a]? = none := by
      apply List.getElem?_eq_none
      rw [List.length_eraseIdx, if_pos (by rw [hM1len]; exact hjn), hM1len]
      omega
    rw [hM2a, Option.map_none', Option.map_none', Option.map_none',
      List.getElem?_eq_none (by rw [List.length_range]; omega), Option.map_none']

theorem reduce_matrix_eq_spec {M : Mat} (hsq : IsSquare M) (hsym : SymmM M)
    (h2 : 2 ≤ M.length) :
    (reduce_matrix M).1 = (mat_min M).1 ∧ (reduce_matrix M).2.1 = (mat_min M).2 ∧
      (reduce_matrix M).2.2 = specReduce M (mat_min M).1 (mat_min M).2 := by
  obtain ⟨hij, hjn, -, -⟩ := mat_min_char hsq hsym h2
  refine ⟨rfl, rfl, ?_⟩
  have hrm : (reduce_matrix M).2.2
      = fillDiag ((((M.set (mat_min M).1 (((M.get? (mat_min M).2).getD []).zipWith
          (· + ·) ((M.get? (mat_min M).1).getD []))).eraseIdx (mat_min M).2).map
            fun r => r.set (mat_min M).1 (((r.get? (mat_min M).2).getD 0)
              + ((r.get? (mat_min M).1).getD 0))).map fun r =>
                r.eraseIdx (mat_min M).2) := rfl
  rw [hrm]
  exact reduceCore_spec M (mat_min M).1 (mat_min M).2 hsq hij hjn

theorem specReduce_length (M : Mat) (i j : ℕ) :
    (specReduce M i j).length = M.length - 1 := by
  unfold specReduce
  rw [List.length_map, List.length_range]

theorem specReduce_square (M : Mat) (i j : ℕ) : IsSquare (specReduce M i j) := by
  intro r hr
  rw [specReduce_length]
  unfold specReduce at hr
  obtain ⟨a, -, rfl⟩ := List.mem_map.mp hr
  rw [List.length_map, List.length_range]

theorem specReduce_mget {M : Mat} {i j a b : ℕ} (ha : a < M.length - 1)
    (hb : b < M.length - 1) :
    mget (specReduce M i j) a b
      = if a = b then 0
        else mget M (unshift j a) (unshift j b)
          + (if unshift j a = i then mget M j (unshift j b) else 0)
          + (if unshift j b = i then mget M (unshift j a) j else 0) := by
  rw [mget_eq_getElem?]
  unfold specReduce
  rw [List.getElem?_map, List.getElem?_range ha, Option.map_some', Option.getD_some,
    List.getElem?_map, List.getElem?_range hb, Option.map_some', Option.getD_some]

theorem specReduce_symm {M : Mat} (hsym : SymmM M) {i j : ℕ}
    (hjn : j < M.length) : SymmM (specReduce M i j) := by
  intro a ha b hb
  rw [specReduce_length] at ha hb
  rw [specReduce_mget ha hb, specReduce_mget hb ha]
  by_cases hab : a = b
  · rw [if_pos hab, if_pos (show b = a from hab.symm)]
  · rw [if_neg hab, if_neg (show ¬ b = a from fun hh => hab hh.symm)]
    have h1 : mget M (unshift j a) (unshift j b)
        = mget M (unshift j b) (unshift j a) :=
      hsym _ (unshift_lt hjn ha) _ (unshift_lt hjn hb)
    have h2 : mget M j (unshift j b) = mget M (unshift j b) j :=
      hsym _ hjn _ (unshift_lt hjn hb)
    have h3 : mget M (unshift j a) j = mget M j (unshift j a) :=
      hsym _ (unshift_lt hjn ha) _ hjn
    split_ifs <;> linarith [h1, h2, h3]

theorem msize_square {M : Mat} (hsq : IsSquare M) :
    msize M = M.length * M.length := by
  unfold msize
  have hmap : M.map (·.length) = M.map fun _ => M.length :=
    List.map_congr_left fun r hr => hsq r hr
  rw [hmap, sum_map_const fun x _ => rfl]

theorem flatten_set_append : ∀ (l : List (List ℕ)) (i : ℕ) (p : List ℕ),
    i < l.length →
    ((l.set i (((l.get? i).getD []) ++ p)).flatten).Perm (l.flatten ++ p)
  | [], i, p, h => absurd h (by simp)
  | a :: t, 0, p, _ => by
    show ((a ++ p) ++ t.flatten).Perm ((a ++ t.flatten) ++ p)
    rw [List.append_assoc, List.append_assoc]
    exact List.Perm.append_left a List.perm_append_comm
  | a :: t, i + 1, p, h => by
    show (a ++ (t.set i (((t.get? i).getD []) ++ p)).flatten).Perm
      ((a ++ t.flatten) ++ p)
    rw [List.append_assoc]
    exact List.Perm.append_left a (flatten_set_append t i p (by simpa using h))

theorem flatten_eraseIdx_perm : ∀ (l : List (List ℕ)) (j : ℕ), j < l.length →
    ((l.eraseIdx j).flatten ++ ((l.get? j).getD [])).Perm l.flatten
  | [], j, h => absurd h (by simp)
  | a :: t, 0, _ => by
    show (t.flatten ++ a).Perm (a ++ t.flatten)
    exact List.perm_append_comm
  | a :: t, j + 1, h => by
    show ((a ++ (t.eraseIdx j).flatten) ++ ((t.get? j).getD [])).Perm
      (a ++ t.flatten)
    rw [List.append_assoc]
    exact List.Perm.append_left a (flatten_eraseIdx_perm t j (by simpa using h))

/-- One `vMap[i] += vMap.pop(j)` step permutes the tracked neighbours: no
group member is lost or duplicated. -/
theorem flatten_step_perm {vm : List (List ℕ)} {i j : ℕ} (hij : i < j)
    (hj : j < vm.length) :
    (((vm.eraseIdx j).set i
      ((((vm.eraseIdx j).get? i).getD []) ++ ((vm.get? j).getD []))).flatten).Perm
      vm.flatten := by
  have hi : i < (vm.eraseIdx j).length := by
    rw [List.length_eraseIdx, if_pos hj]
    omega
  exact (flatten_set_append (vm.eraseIdx j) i _ hi).trans
    (flatten_eraseIdx_perm vm j hj)

theorem collapse_spec : ∀ (fuel : ℕ) (M : Mat) (vm : List (List ℕ)),
    IsSquare M → SymmM M → 2 ≤ M.length → vm.length = M.length →
    M.length ≤ fuel + 2 →
    ∃ C vm2, collapse fuel (M, vm) = some (C, vm2) ∧ C.length = 2 ∧
      IsSquare C ∧ SymmM C ∧ vm2.length = 2 ∧ vm2.flatten.Perm vm.flatten := by
  intro fuel
  induction fuel with
  | zero =>
    intro M vm hsq hsym h2 hlen hfuel
    have hlen2 : M.length = 2 := by omega
    have hms : msize M ≤ 4 := by
      rw [msize_square hsq, hlen2]
    refine ⟨M, vm, ?_, hlen2, hsq, hsym, by omega, List.Perm.refl _⟩
    show collapse 0 (M, vm) = some (M, vm)
    unfold collapse
    rw [if_pos hms]
  | succ fuel ih =>
    intro M vm hsq hsym h2 hlen hfuel
    by_cases hms : msize M ≤ 4
    · have hlen2 : M.length = 2 := by
        rw [msize_square hsq] at hms
        nlinarith
      refine ⟨M, vm, ?_, hlen2, hsq, hsym, by omega, List.Perm.refl _⟩
      show collapse (fuel + 1) (M, vm) = some (M, vm)
      unfold collapse
      rw [if_pos hms]
    · have h3 : 2 < M.length := by
        by_contra hh
        have h2' : M.length = 2 := by omega
        rw [msize_square hsq, h2'] at hms
        exact hms (by norm_num)
      obtain ⟨h1eq, h2eq, h3eq⟩ := reduce_matrix_eq_spec hsq hsym (by omega)
      obtain ⟨hij, hjn, -, -⟩ := mat_min_char hsq hsym (by omega)
      have hsq' : IsSquare (reduce_matrix M).2.2 := by
        rw [h3eq]
        exact specReduce_square M _ _
      have hsym' : SymmM (reduce_matrix M).2.2 := by
        rw [h3eq]
        exact specReduce_symm hsym hjn
      have hlen' : (reduce_matrix M).2.2.length = M.length - 1 := by
        rw [h3eq]
        exact specReduce_length M _ _
      have hvm1len : (vm.eraseIdx (reduce_matrix M).2.1).length = M.length - 1 := by
        rw [List.length_eraseIdx, h2eq, if_pos (by omega), hlen]
      obtain ⟨C, vm2, hcol, hC2, hCsq, hCsym, hvm2, hperm⟩ :=
        ih (reduce_matrix M).2.2
          ((vm.eraseIdx (reduce_matrix M).2.1).set (reduce_matrix M).1
            ((((vm.eraseIdx (reduce_matrix M).2.1).get? (reduce_matrix M).1).getD [])
              ++ ((vm.get? (reduce_matrix M).2.1).getD [])))
          hsq' hsym' (by omega) (by rw [List.length_set, hvm1len, hlen']) (by omega)
      have hstep : (((vm.eraseIdx (reduce_matrix M).2.1).set (reduce_matrix M).1
          ((((vm.eraseIdx (reduce_matrix M).2.1).get? (reduce_matrix M).1).getD [])
            ++ ((vm.get? (reduce_matrix M).2.1).getD []))).flatten).Perm
          vm.flatten := by
        apply flatten_step_perm
        · rw [h1eq, h2eq]
          exact hij
        · rw [h2eq, hlen]
          exact hjn
      refine ⟨C, vm2, ?_, hC2, hCsq, hCsym, hvm2, hperm.trans hstep⟩
      show collapse (fuel + 1) (M, vm) = some (C, vm2)
      unfold collapse
      rw [if_neg hms]
      exact hcol

/-- One iteration of the collapse loop, spelled out: on a symmetric square
matrix larger than 2 × 2, the step merges row and column `j` into `i` by
addition and deletes them (`specReduce` at the minimum cell `(i, j)` reported
by `mat_min`), and appends neighbour-group `j` onto neighbour-group `i`
while deleting group `j`. -/
theorem collapse_step (fuel : ℕ) {M : Mat} (vm : List (List ℕ))
    (hsq : IsSquare M) (hsym : SymmM M) (h3 : 2 < M.length)
    (hlen : vm.length = M.length) :
    collapse (fuel + 1) (M, vm)
      = collapse fuel (specReduce M (mat_min M).1 (mat_min M).2,
          (vm.eraseIdx (mat_min M).2).set (mat_min M).1
            (((vm.get? (mat_min M).1).getD [])
              ++ ((vm.get? (mat_min M).2).getD []))) := by
  obtain ⟨h1eq, h2eq, h3eq⟩ := reduce_matrix_eq_spec hsq hsym (by omega)
  obtain ⟨hij, hjn, -, -⟩ := mat_min_char hsq hsym (by omega)
  have hms : ¬ msize M ≤ 4 := by
    rw [msize_square hsq]
    nlinarith
  have hgeti : (vm.eraseIdx (mat_min M).2).get? (mat_min M).1
      = vm.get? (mat_min M).1 := by
    rw [List.get?_eq_getElem?, List.get?_eq_getElem?, List.getElem?_eraseIdx,
      if_pos hij]
  have hstep : collapse (fuel + 1) (M, vm)
      = collapse fuel ((reduce_matrix M).2.2,
          (vm.eraseIdx (reduce_matrix M).2.1).set (reduce_matrix M).1
            ((((vm.eraseIdx (reduce_matrix M).2.1).get? (reduce_matrix M).1).getD [])
              ++ ((vm.get? (reduce_matrix M).2.1).getD []))) := by
    conv_lhs => unfold collapse
    rw [if_neg hms]
  rw [hstep, h1eq, h2eq, h3eq, hgeti]

theorem mset_length (M : Mat) (i j : ℕ) (x : ℚ) :
    (mset M i j x).length = M.length :=
  List.length_set M i _

theorem mset_square {M : Mat} (hsq : IsSquare M) (i j : ℕ) (x : ℚ) :
    IsSquare (mset M i j x) := by
  intro r hr
  rw [mset_length]
  by_cases hi : i < M.length
  · rcases List.mem_or_eq_of_mem_set hr with hm | he
    · exact hsq r hm
    · rw [he, List.length_set]
      have : M[i]? = some M[i] := List.getElem?_eq_getElem hi
      rw [List.get?_eq_getElem?, this, Option.getD_some]
      exact hsq _ (M.getElem_mem hi)
  · unfold mset at hr
    rw [List.set_eq_of_length_le (by omega)] at hr
    exact hsq r hr

theorem mget_zeros (n a b : ℕ) : mget (zeros n) a b = 0 := by
  rw [mget_eq_getElem?]
  unfold zeros
  rw [List.getElem?_replicate]
  by_cases ha : a < n
  · rw [if_pos ha, Option.getD_some, List.getElem?_replicate]
    by_cases hb : b < n
    · rw [if_pos hb]
      rfl
    · rw [if_neg hb]
      rfl
  · rw [if_neg ha]
    rfl

theorem mget_mset (M : Mat) (hsq : IsSquare M) (i j a b : ℕ)
    (ha : a < M.length) (hb : b < M.length) (x : ℚ) :
    mget (mset M i j x) a b
      = if i = a ∧ j = b then x else mget M a b := by
  have hrowa : M[a]? = some M[a] := List.getElem?_eq_getElem ha
  have hrowalen : (M[a]).length = M.length := hsq _ (M.getElem_mem ha)
  unfold mset
  rw [mget_eq_getElem?, List.getElem?_set]
  by_cases hia : i = a
  · rw [if_pos hia, if_pos (by omega), Option.getD_some]
    have hrowi : (M.get? i).getD [] = M[a] := by
      rw [List.get?_eq_getElem?, hia, hrowa, Option.getD_some]
    rw [hrowi, List.getElem?_set]
    by_cases hjb : j = b
    · rw [if_pos hjb, if_pos (by omega), if_pos ⟨hia, hjb⟩, Option.getD_some]
    · rw [if_neg hjb, if_neg (by exact fun hh => hjb hh.2)]
      rw [mget_eq_getElem?, hrowa, Option.getD_some]
  · rw [if_neg hia, if_neg (by exact fun hh => hia hh.1), mget_eq_getElem?]

theorem scatter_length (mp : ℕ → ℕ) :
    ∀ (l : Tab) (M : Mat),
      (l.foldl (fun M e => mset M (mp e.1.1) (mp e.1.2) (e.2 : ℚ)) M).length
        = M.length
  | [], _ => rfl
  | e :: l, M => by
    rw [List.foldl_cons, scatter_length mp l _, mset_length]

theorem scatter_square (mp : ℕ → ℕ) :
    ∀ (l : Tab) (M : Mat), IsSquare M →
      IsSquare (l.foldl (fun M e => mset M (mp e.1.1) (mp e.1.2) (e.2 : ℚ)) M)
  | [], _, hsq => hsq
  | e :: l, M, hsq => by
    rw [List.foldl_cons]
    exact scatter_square mp l _ (mset_square hsq _ _ _)

theorem scatter_miss (mp : ℕ → ℕ) :
    ∀ (l : Tab) (M : Mat), IsSquare M → ∀ (a b : ℕ), a < M.length → b < M.length →
      (∀ e ∈ l, ¬(mp e.1.1 = a ∧ mp e.1.2 = b)) →
      mget (l.foldl (fun M e => mset M (mp e.1.1) (mp e.1.2) (e.2 : ℚ)) M) a b
        = mget M a b
  | [], _, _, _, _, _, _, _ => rfl
  | e :: l, M, hsq, a, b, ha, hb, hmiss => by
    rw [List.foldl_cons,
      scatter_miss mp l _ (mset_square hsq _ _ _) a b
        (by rw [mset_length]; exact ha) (by rw [mset_length]; exact hb)
        (fun e' he' => hmiss e' (List.mem_cons_of_mem e he')),
      mget_mset M hsq _ _ a b ha hb,
      if_neg (hmiss e (List.mem_cons_self e l))]

theorem scatter_hit (mp : ℕ → ℕ) :
    ∀ (l : Tab) (M : Mat), IsSquare M → l.Nodup →
      ∀ (a b : ℕ), a < M.length → b < M.length →
      ∀ e, e ∈ l → mp e.1.1 = a → mp e.1.2 = b →
      (∀ e', e' ∈ l → mp e'.1.1 = a → mp e'.1.2 = b → e' = e) →
      mget (l.foldl (fun M e => mset M (mp e.1.1) (mp e.1.2) (e.2 : ℚ)) M) a b
        = (e.2 : ℚ)
  | [], _, _, _, _, _, _, _, e, he, _, _, _ => absurd he (List.not_mem_nil e)
  | e0 :: l, M, hsq, hnd, a, b, ha, hb, e, he, hea, heb, huniq => by
    rw [List.foldl_cons]
    by_cases he0 : e0 = e
    · subst he0
      have hnotin : e0 ∉ l := (List.nodup_cons.mp hnd).1
      rw [scatter_miss mp l _ (mset_square hsq _ _ _) a b
          (by rw [mset_length]; exact ha) (by rw [mset_length]; exact hb)
          (fun e' he' hh =>
            hnotin ((huniq e' (List.mem_cons_of_mem e0 he') hh.1 hh.2) ▸ he')),
        mget_mset M hsq _ _ a b ha hb, if_pos ⟨hea, heb⟩]
    · have hein : e ∈ l := by
        rcases List.mem_cons.mp he with hh | hh
        · exact absurd hh.symm he0
        · exact hh
      exact scatter_hit mp l _ (mset_square hsq _ _ _) (List.nodup_cons.mp hnd).2
        a b (by rw [mset_length]; exact ha) (by rw [mset_length]; exact hb)
        e hein hea heb
        (fun e' he' h1 h2 => huniq e' (List.mem_cons_of_mem e0 he') h1 h2)

theorem fillDiag_length (M : Mat) : (fillDiag M).length = M.length := by
  unfold fillDiag
  rw [List.length_map, List.enum_length]

theorem fillDiag_square {M : Mat} (hsq : IsSquare M) : IsSquare (fillDiag M) := by
  intro r hr
  rw [fillDiag_length]
  unfold fillDiag at hr
  obtain ⟨ir, hirm, rfl⟩ := List.mem_map.mp hr
  rw [List.length_set]
  exact hsq _ (mem_of_mem_enum hirm)

theorem fillDiag_zdiag (M : Mat) : ZeroDiag (fillDiag M) := by
  intro a ha
  rw [fillDiag_length] at ha
  rw [mget_eq_getElem?, getElem?_fillDiag, List.getElem?_eq_getElem ha,
    Option.map_some', Option.getD_some, List.getElem?_set]
  rw [if_pos rfl]
  by_cases hlen : a < (M[a]).length
  · rw [if_pos hlen]
    rfl
  · rw [if_neg hlen]
    rfl

theorem mget_fillDiag_off (M : Mat) {a b : ℕ} (hab : a ≠ b) :
    mget (fillDiag M) a b = mget M a b := by
  rw [mget_eq_getElem?, getElem?_fillDiag, mget_eq_getElem?]
  cases hma : M[a]? with
  | none => rfl
  | some r =>
    rw [Option.map_some', Option.getD_some, Option.getD_some, List.getElem?_set,
      if_neg hab]

theorem mapfun_miss :
    ∀ (l : List (ℕ × ℕ)) (f0 : ℕ → ℕ) (x : ℕ),
      (∀ p ∈ l, p.2 ≠ x) →
      (l.foldl (fun f p y => if y = p.2 then p.1 else f y) f0) x = f0 x
  | [], _, _, _ => rfl
  | p :: l, f0, x, h => by
    rw [List.foldl_cons,
      mapfun_miss l _ x (fun q hq => h q (List.mem_cons_of_mem p hq))]
    show (if x = p.2 then p.1 else f0 x) = f0 x
    rw [if_neg (fun hh => h p (List.mem_cons_self p l) hh.symm)]

theorem mapfun_hit :
    ∀ (l : List (ℕ × ℕ)) (f0 : ℕ → ℕ) (x : ℕ) (p : ℕ × ℕ),
      p ∈ l → p.2 = x → (∀ q ∈ l, q.2 = x → q = p) →
      (l.foldl (fun f p y => if y = p.2 then p.1 else f y) f0) x = p.1
  | [], _, _, p, hp, _, _ => absurd hp (List.not_mem_nil p)
  | p0 :: l, f0, x, p, hp, hpx, huniq => by
    rw [List.foldl_cons]
    by_cases hin : p ∈ l
    · exact mapfun_hit l _ x p hin hpx
        (fun q hq hqx => huniq q (List.mem_cons_of_mem p0 hq) hqx)
    · have hp0 : p0 = p := by
        rcases List.mem_cons.mp hp with hh | hh
        · exact hh.symm
        · exact absurd hh hin
      subst hp0
      rw [mapfun_miss l _ x (fun q hq hqx =>
        hin ((huniq q (List.mem_cons_of_mem p0 hq) hqx) ▸ hq))]
      show (if x = p0.2 then p0.1 else f0 x) = p0.1
      rw [if_pos hpx.symm]

theorem mapfun_lt :
    ∀ (l : List (ℕ × ℕ)) (f0 : ℕ → ℕ) (n : ℕ),
      (∀ p ∈ l, p.1 < n) → (∀ y, f0 y < n) → ∀ x,
      (l.foldl (fun f p y => if y = p.2 then p.1 else f y) f0) x < n
  | [], _, _, _, hf0, x => hf0 x
  | p :: l, f0, n, hl, hf0, x => by
    rw [List.foldl_cons]
    exact mapfun_lt l _ n (fun q hq => hl q (List.mem_cons_of_mem p hq))
      (fun y => by
        show (if y = p.2 then p.1 else f0 y) < n
        by_cases h : y = p.2
        · rw [if_pos h]
          exact hl p (List.mem_cons_self p l)
        · rw [if_neg h]
          exact hf0 y) x

theorem enum_fst_lt {α : Type} {l : List α} {p : ℕ × α} (hp : p ∈ l.enum) :
    p.1 < l.length := by
  obtain ⟨i, y⟩ := p
  have hget := mem_enum_get? hp
  by_contra hge
  rw [List.get?_eq_getElem?, List.getElem?_eq_none (by omega)] at hget
  exact Option.noConfusion hget

theorem nbMapFun_lt {nb : List ℕ} (hn : 0 < nb.length) (x : ℕ) :
    nbMapFun nb x < nb.length := by
  unfold nbMapFun
  exact mapfun_lt nb.enum _ nb.length (fun p hp => enum_fst_lt hp) (fun _ => hn) x

theorem nbMapFun_getElem {nb : List ℕ} (hnd : nb.Nodup) {k : ℕ}
    (hk : k < nb.length) : nbMapFun nb nb[k] = k := by
  unfold nbMapFun
  apply mapfun_hit nb.enum _ _ (k, nb[k])
  · exact get?_mem_enum (by rw [List.get?_eq_getElem?, List.getElem?_eq_getElem hk])
  · rfl
  · rintro ⟨i, y⟩ hq hqy
    have hget := mem_enum_get? hq
    have hi : i < nb.length := enum_fst_lt hq
    rw [List.get?_eq_getElem?, List.getElem?_eq_getElem hi] at hget
    have hy : nb[i] = y := Option.some_inj.mp hget
    have hik : i = k := by
      apply (List.Nodup.getElem_inj_iff hnd).mp
      rw [hy]
      show y = nb[k]
      exact hqy
    rw [hik]
    apply Prod.ext_iff.mpr
    refine ⟨rfl, ?_⟩
    show y = nb[k]
    exact hqy

theorem nbMapFun_roundtrip {nb : List ℕ} (hnd : nb.Nodup) {u : ℕ}
    (hu : u ∈ nb) (h : nbMapFun nb u < nb.length) : nb[nbMapFun nb u] = u := by
  obtain ⟨k, hk, hku⟩ := List.mem_iff_getElem.mp hu
  subst hku
  have he : nbMapFun nb nb[k] = k := nbMapFun_getElem hnd hk
  have h1 : nb[nbMapFun nb nb[k]]? = nb[k]? := by rw [he]
  rw [List.getElem?_eq_getElem h, List.getElem?_eq_getElem hk] at h1
  exact Option.some_inj.mp h1

theorem nbrs_nodup {G : Graph} (hs : G.Simple) (u : ℕ) : (G.nbrs u).Nodup := by
  rw [List.nodup_iff_count_le_one]
  intro v
  by_cases hv : v ∈ G.nbrs u
  · have hne : u ≠ v := by
      rcases mem_nbrs_iff.mp hv with ⟨e, he, ⟨h1, h2⟩ | ⟨h1, h2⟩⟩
      · obtain ⟨-, -, hnee⟩ := hs.1 e he
        rw [← h1, ← h2]
        exact hnee
      · obtain ⟨-, -, hnee⟩ := hs.1 e he
        rw [← h1, ← h2]
        exact fun hh => hnee hh.symm
    rw [count_nbrs_one hs hne hv]
  · rw [List.count_eq_zero_of_not_mem hv]
    omega

theorem pyDedup_nodup {α : Type} [DecidableEq α] :
    ∀ (l : List α), (pyDedup l).Nodup
  | [] => List.nodup_nil
  | k :: ks => by
    unfold pyDedup
    rw [List.nodup_cons]
    refine ⟨fun hmem => ?_, List.Nodup.filter _ (pyDedup_nodup ks)⟩
    have := List.of_mem_filter hmem
    simp at this

theorem dget_of_mem_nodup :
    ∀ (l : Tab), (l.map (·.1)).Nodup → ∀ e ∈ l, dget l e.1 = some e.2
  | [], _, e, he => absurd he (List.not_mem_nil e)
  | e0 :: l, hnd, e, he => by
    unfold dget
    rw [List.find?_cons]
    by_cases h0 : e0.1 = e.1
    · rw [show (decide (e0.1 = e.1)) = true by simpa using h0]
      rcases List.mem_cons.mp he with rfl | hin
      · rfl
      · exfalso
        rw [List.map_cons, List.nodup_cons] at hnd
        exact hnd.1 (by
          rw [h0]
          exact List.mem_map.mpr ⟨e, hin, rfl⟩)
    · rw [show (decide (e0.1 = e.1)) = false by simpa using h0]
      have hin : e ∈ l := by
        rcases List.mem_cons.mp he with rfl | hh
        · exact absurd rfl h0
        · exact hh
      exact dget_of_mem_nodup l
        (by rw [List.map_cons, List.nodup_cons] at hnd; exact hnd.2) e hin

theorem zeros_length (n : ℕ) : (zeros n).length = n :=
  List.length_replicate n _

theorem zeros_square (n : ℕ) : IsSquare (zeros n) := by
  intro r hr
  rw [zeros_length]
  unfold zeros at hr
  rw [List.eq_of_mem_replicate hr, List.length_replicate]

theorem create_clique_length (G : Graph) (v : ℕ) (pbv : Tab) :
    (create_clique G v pbv).length = (G.nbrs v).length := by
  show (fillDiag _).length = _
  rw [fillDiag_length, scatter_length, zeros_length]

theorem create_clique_square (G : Graph) (v : ℕ) (pbv : Tab) :
    IsSquare (create_clique G v pbv) :=
  fillDiag_square (scatter_square _ _ _ (zeros_square _))

theorem create_clique_zdiag (G : Graph) (v : ℕ) (pbv : Tab) :
    ZeroDiag (create_clique G v pbv) :=
  fillDiag_zdiag _

theorem nbMapFun_eq_pos {nb : List ℕ} (hnd : nb.Nodup) {u a : ℕ} (hu : u ∈ nb)
    (ha : a < nb.length) (h : nbMapFun nb u = a) : u = nb[a] := by
  have hlt : nbMapFun nb u < nb.length := by
    rw [h]
    exact ha
  have h1 : nb[nbMapFun nb u]? = nb[a]? := by rw [h]
  rw [List.getElem?_eq_getElem hlt, List.getElem?_eq_getElem ha] at h1
  exact (nbMapFun_roundtrip hnd hu hlt).symm.trans (Option.some_inj.mp h1)

theorem create_clique_mget (G : Graph) (v : ℕ) (pbv : Tab)
    (hnd : (G.nbrs v).Nodup)
    (hkeys : (pbv.map (·.1)).Nodup)
    (hkmem : ∀ e ∈ pbv, e.1.1 ∈ G.nbrs v ∧ e.1.2 ∈ G.nbrs v)
    {a b : ℕ} (ha : a < (G.nbrs v).length) (hb : b < (G.nbrs v).length)
    (hab : a ≠ b) :
    mget (create_clique G v pbv) a b
      = (((dget pbv ((G.nbrs v)[a], (G.nbrs v)[b])).getD 0 : ℕ) : ℚ) := by
  have hn : 0 < (G.nbrs v).length := by omega
  show mget (fillDiag _) a b = _
  rw [mget_fillDiag_off _ hab]
  by_cases hex : ∃ e ∈ pbv, e.1 = ((G.nbrs v)[a], (G.nbrs v)[b])
  · obtain ⟨e, hein, hek⟩ := hex
    have hea : nbMapFun (G.nbrs v) e.1.1 = a := by
      rw [show e.1.1 = (G.nbrs v)[a] from congrArg Prod.fst hek]
      exact nbMapFun_getElem hnd ha
    have heb : nbMapFun (G.nbrs v) e.1.2 = b := by
      rw [show e.1.2 = (G.nbrs v)[b] from congrArg Prod.snd hek]
      exact nbMapFun_getElem hnd hb
    rw [scatter_hit (nbMapFun (G.nbrs v)) pbv _ (zeros_square _)
      (List.Nodup.of_map _ hkeys) a b (by rw [zeros_length]; exact ha)
      (by rw [zeros_length]; exact hb) e hein hea heb
      (fun e' he' h1 h2 => by
        have hmem' := hkmem e' he'
        have hk1 : e'.1.1 = (G.nbrs v)[a] :=
          nbMapFun_eq_pos hnd hmem'.1 ha h1
        have hk2 : e'.1.2 = (G.nbrs v)[b] :=
          nbMapFun_eq_pos hnd hmem'.2 hb h2
        exact List.inj_on_of_nodup_map hkeys he' hein
          (by rw [hek, Prod.ext_iff]; exact ⟨hk1, hk2⟩))]
    rw [← hek, dget_of_mem_nodup pbv hkeys e hein]
    rfl
  · have hnone : dget pbv ((G.nbrs v)[a], (G.nbrs v)[b]) = none := by
      unfold dget
      rw [List.find?_eq_none.mpr]
      · rfl
      · intro e he hpe
        exact hex ⟨e, he, by simpa using hpe⟩
    rw [scatter_miss (nbMapFun (G.nbrs v)) pbv _ (zeros_square _) a b
      (by rw [zeros_length]; exact ha) (by rw [zeros_length]; exact hb)
      (fun e he hh => by
        have hmem' := hkmem e he
        exact hex ⟨e, he, Prod.ext_iff.mpr
          ⟨nbMapFun_eq_pos hnd hmem'.1 ha hh.1,
           nbMapFun_eq_pos hnd hmem'.2 hb hh.2⟩⟩),
      mget_zeros, hnone]
    rfl

theorem create_clique_symm (G : Graph) (v : ℕ) (pbv : Tab)
    (hnd : (G.nbrs v).Nodup)
    (hkeys : (pbv.map (·.1)).Nodup)
    (hkmem : ∀ e ∈ pbv, e.1.1 ∈ G.nbrs v ∧ e.1.2 ∈ G.nbrs v)
    (hsymtab : ∀ u w, u ∈ G.nbrs v → w ∈ G.nbrs v →
      dget pbv (u, w) = dget pbv (w, u)) :
    SymmM (create_clique G v pbv) := by
  intro a ha b hb
  rw [create_clique_length] at ha hb
  by_cases hab : a = b
  · rw [hab]
  · rw [create_clique_mget G v pbv hnd hkeys hkmem ha hb hab,
      create_clique_mget G v pbv hnd hkeys hkmem hb ha (fun hh => hab hh.symm),
      hsymtab _ _ (List.getElem_mem ha) (List.getElem_mem hb)]

theorem perms2_comps {l : List ℕ} {k : ℕ × ℕ} (h : k ∈ perms2 l) :
    k.1 ∈ l ∧ k.2 ∈ l := by
  obtain ⟨x, y⟩ := k
  obtain ⟨i, j, -, hx, hy⟩ := perms2_mem.mp h
  exact ⟨mem_of_get? hx, mem_of_get? hy⟩

theorem dbump_keys (t : Tab) (k : ℕ × ℕ) :
    (dbump t k).map (·.1) = t.map (·.1) := by
  unfold dbump
  rw [List.map_map]
  apply List.map_congr_left
  intro e _
  show (if e.1 = k then (e.1, e.2 + 2) else e).1 = e.1
  split <;> rfl

theorem dicBump_keys (d : Dic) (v : ℕ) (k : ℕ × ℕ) :
    (dicBump d v k).map (·.1) = d.map (·.1) := by
  unfold dicBump
  rw [List.map_map]
  apply List.map_congr_left
  intro e _
  show (if e.1 = v then (e.1, dbump e.2 k) else e).1 = e.1
  split <;> rfl

theorem addTriples_keys :
    ∀ (p : List ℕ) (d : Dic), (addTriples d p).map (·.1) = d.map (·.1)
  | [], _ => rfl
  | [_], _ => rfl
  | [_, _], _ => rfl
  | u :: v' :: w :: rest, d => by
    show (addTriples
      (if dicHas d v' then dicBump (dicBump d v' (u, w)) v' (w, u) else d)
      (v' :: w :: rest)).map (·.1) = _
    rw [addTriples_keys (v' :: w :: rest) _]
    by_cases h : dicHas d v'
    · rw [if_pos h, dicBump_keys, dicBump_keys]
    · rw [if_neg h]

theorem foldl_processPath_keys :
    ∀ (L : List (List ℕ)) (st : List (ℕ × ℕ) × Dic),
      ((L.foldl processPath st).2).map (·.1) = st.2.map (·.1)
  | [], _ => rfl
  | p :: L, st => by
    rw [List.foldl_cons]
    by_cases hseen : (p.head?.getD 0, p.getLast?.getD 0) ∈ st.1
    · rw [show processPath st p = st by
        unfold processPath
        rw [if_pos hseen]]
      exact foldl_processPath_keys L st
    · rw [show processPath st p
          = (List.insert (p.getLast?.getD 0, p.head?.getD 0) st.1,
             addTriples st.2 p) by
        unfold processPath
        rw [if_neg hseen]]
      rw [foldl_processPath_keys L _]
      exact addTriples_keys p st.2

theorem dicInit_keys (G : Graph) (arr : List ℕ) :
    (dicInit G arr).map (·.1) = arr := by
  unfold dicInit
  rw [List.map_map]
  show arr.map (fun v => v) = arr
  exact List.map_id arr

theorem pair_betweenness_keys (G : Graph) (arr : List ℕ) :
    (pair_betweenness G arr).map (·.1) = arr := by
  unfold pair_betweenness
  rw [foldl_processPath_keys, dicInit_keys]

theorem dlook_of_mem_nodup :
    ∀ (d : Dic), (d.map (·.1)).Nodup → ∀ {v : ℕ} {t : Tab}, (v, t) ∈ d →
      dlook d v = some t
  | [], _, _, _, he => absurd he (List.not_mem_nil _)
  | e0 :: d, hnd, v, t, he => by
    unfold dlook
    rw [List.find?_cons]
    by_cases h0 : e0.1 = v
    · rw [show (decide (e0.1 = v)) = true by simpa using h0]
      rcases List.mem_cons.mp he with hh | hin
      · rw [← hh]
        rfl
      · exfalso
        rw [List.map_cons, List.nodup_cons] at hnd
        exact hnd.1 (by
          rw [h0]
          exact List.mem_map.mpr ⟨(v, t), hin, rfl⟩)
    · rw [show (decide (e0.1 = v)) = false by simpa using h0]
      have hin : (v, t) ∈ d := by
        rcases List.mem_cons.mp he with hh | hh
        · exact absurd (congrArg Prod.fst hh.symm) h0
        · exact hh
      exact dlook_of_mem_nodup d
        (by rw [List.map_cons, List.nodup_cons] at hnd; exact hnd.2) hin

theorem dlook_addTriples_pres (P : Tab → Prop)
    (hP : ∀ t k, P t → P (dbump t k)) {v : ℕ} :
    ∀ (p : List ℕ) (d : Dic) (t : Tab),
      dlook d v = some t → P t →
      ∃ t', dlook (addTriples d p) v = some t' ∧ P t'
  | [], _, t, h, hp => ⟨t, h, hp⟩
  | [_], _, t, h, hp => ⟨t, h, hp⟩
  | [_, _], _, t, h, hp => ⟨t, h, hp⟩
  | u :: v' :: w :: rest, d, t, h, hp => by
    show ∃ t', dlook (addTriples
      (if dicHas d v' then dicBump (dicBump d v' (u, w)) v' (w, u) else d)
      (v' :: w :: rest)) v = some t' ∧ P t'
    by_cases hhas : dicHas d v'
    · rw [if_pos hhas]
      by_cases hv : v = v'
      · exact dlook_addTriples_pres P hP (v' :: w :: rest) _ _
          (by rw [dlook_dicBump, if_pos hv, dlook_dicBump, if_pos hv, h]; rfl)
          (hP _ _ (hP _ _ hp))
      · exact dlook_addTriples_pres P hP (v' :: w :: rest) _ _
          (by rw [dlook_dicBump, if_neg hv, dlook_dicBump, if_neg hv, h]) hp
    · rw [if_neg hhas]
      exact dlook_addTriples_pres P hP (v' :: w :: rest) _ _ h hp

theorem dlook_foldl_pres (P : Tab → Prop)
    (hP : ∀ t k, P t → P (dbump t k)) {v : ℕ} :
    ∀ (L : List (List ℕ)) (st : List (ℕ × ℕ) × Dic) (t : Tab),
      dlook st.2 v = some t → P t →
      ∃ t', dlook ((L.foldl processPath st).2) v = some t' ∧ P t'
  | [], _, t, h, hp => ⟨t, h, hp⟩
  | p :: L, st, t, h, hp => by
    rw [List.foldl_cons]
    by_cases hseen : (p.head?.getD 0, p.getLast?.getD 0) ∈ st.1
    · rw [show processPath st p = st by
        unfold processPath
        rw [if_pos hseen]]
      exact dlook_foldl_pres P hP L st t h hp
    · rw [show processPath st p
          = (List.insert (p.getLast?.getD 0, p.head?.getD 0) st.1,
             addTriples st.2 p) by
        unfold processPath
        rw [if_neg hseen]]
      obtain ⟨t', ht', hpt'⟩ := dlook_addTriples_pres P hP p st.2 t h hp
      exact dlook_foldl_pres P hP L
        (List.insert (p.getLast?.getD 0, p.head?.getD 0) st.1,
         addTriples st.2 p) t' ht' hpt'

theorem pair_betweenness_tabOK (G : Graph) (arr : List ℕ) {v : ℕ}
    (hv : v ∈ arr) :
    ∃ t, dlook (pair_betweenness G arr) v = some t ∧
      (t.map (·.1)).Nodup ∧
      ∀ e ∈ t, e.1.1 ∈ G.nbrs v ∧ e.1.2 ∈ G.nbrs v := by
  have hinit : dlook (dicInit G arr) v
      = some ((pyDedup (perms2 (G.nbrs v))).map fun k => (k, 0)) := by
    rw [dlook_dicInit, if_pos hv]
  have hinitOK : ((((pyDedup (perms2 (G.nbrs v))).map fun k => (k, 0)).map
        (·.1)).Nodup ∧
      ∀ e ∈ ((pyDedup (perms2 (G.nbrs v))).map fun k => (k, 0)),
        e.1.1 ∈ G.nbrs v ∧ e.1.2 ∈ G.nbrs v) := by
    constructor
    · rw [List.map_map]
      exact List.Nodup.map (fun a b h => by simpa using h) (pyDedup_nodup _)
    · intro e he
      obtain ⟨k, hk, rfl⟩ := List.mem_map.mp he
      exact perms2_comps (pyDedup_mem.mp hk)
  have hPd : ∀ (t : Tab) (k : ℕ × ℕ),
      ((t.map (·.1)).Nodup ∧ ∀ e ∈ t, e.1.1 ∈ G.nbrs v ∧ e.1.2 ∈ G.nbrs v) →
      (((dbump t k).map (·.1)).Nodup ∧
        ∀ e ∈ dbump t k, e.1.1 ∈ G.nbrs v ∧ e.1.2 ∈ G.nbrs v) := by
    intro t k ⟨h1, h2⟩
    refine ⟨by rw [dbump_keys]; exact h1, ?_⟩
    intro e he
    unfold dbump at he
    obtain ⟨e', he', rfl⟩ := List.mem_map.mp he
    have hkey : (if e'.1 = k then (e'.1, e'.2 + 2) else e').1 = e'.1 := by
      split <;> rfl
    rw [hkey]
    exact h2 e' he'
  exact dlook_foldl_pres _ hPd (allSP G) ([], dicInit G arr) _ hinit hinitOK

theorem pair_betweenness_tab_symm (G : Graph) (arr : List ℕ) {v : ℕ}
    (hv : v ∈ arr) {pbv : Tab}
    (hlook : dlook (pair_betweenness G arr) v = some pbv) :
    ∀ u w, u ∈ G.nbrs v → w ∈ G.nbrs v → dget pbv (u, w) = dget pbv (w, u) := by
  intro u w hu hw
  by_cases huw : u = w
  · rw [huw]
  · have h1 := pair_betweenness_entry G arr hv hu hw huw
    have h2 := pair_betweenness_entry G arr hv hw hu (Ne.symm huw)
    unfold dicEntry at h1 h2
    rw [hlook] at h1 h2
    have h1' : dget pbv (u, w) = some (2 * tripleUsage G u v w) := h1
    have h2' : dget pbv (w, u) = some (2 * tripleUsage G w v u) := h2
    rw [h1', h2', tripleUsage_comm]

theorem maxEb_pos {G : Graph} (hs : G.Simple) (hne : G.edges ≠ []) {mi : ℕ}
    {me : ℚ} (h : maxEnum (edge_betweenness G) = some (mi, me)) : 1 ≤ me := by
  obtain ⟨-, hmax, -⟩ := maxEnum_spec h
  obtain ⟨e, he⟩ : ∃ e, e ∈ G.edges := by
    cases hes : G.edges with
    | nil => exact absurd hes hne
    | cons e es => exact ⟨e, List.mem_cons_self e es⟩
  have heb : ebOf G e ∈ edge_betweenness G :=
    List.mem_map.mpr ⟨e, he, rfl⟩
  exact le_trans (ebOf_ge_one hs he) (hmax _ heb)

theorem betweenness_get {G : Graph} {i : ℕ} {b : ℚ}
    (hib : (betweenness G).get? i = some b) : b = vbOf G i ∧ i < G.n := by
  unfold betweenness at hib
  rw [List.get?_eq_getElem?, List.getElem?_map] at hib
  have hi : i < G.n := by
    by_contra hge
    rw [List.getElem?_eq_none (by rw [List.length_range]; omega)] at hib
    exact Option.noConfusion hib
  rw [List.getElem?_range hi, Option.map_some'] at hib
  exact ⟨(Option.some_inj.mp hib).symm, hi⟩

theorem candidate_two_nbrs {G : Graph} (hs : G.Simple) (hne : G.edges ≠ [])
    {mi : ℕ} {me : ℚ} (h : maxEnum (edge_betweenness G) = some (mi, me))
    {i : ℕ} {b : ℚ} (hib : (betweenness G).get? i = some b) (hbge : b ≥ me) :
    2 ≤ (G.nbrs i).length := by
  obtain ⟨hb, -⟩ := betweenness_get hib
  have h1 := maxEb_pos hs hne h
  exact nbrs_two_of_vb_pos hs (by rw [← hb]; linarith)

theorem candidate_collapse_ok {G : Graph} (hs : G.Simple) {arr : List ℕ}
    {v : ℕ} (hv : v ∈ arr) {pbv : Tab}
    (hlook : dlook (pair_betweenness G arr) v = some pbv)
    (hdeg : 2 ≤ (G.nbrs v).length) :
    ∃ C vm2, candRes G v pbv = some (C, vm2) ∧ C.length = 2 ∧ IsSquare C ∧
      SymmM C ∧ vm2.length = 2 ∧
      ∃ val, ((C.get? 0).getD []).get? 1 = some val := by
  obtain ⟨t, hlook', hkeys, hkmem⟩ := pair_betweenness_tabOK G arr hv
  have hteq : t = pbv := by
    rw [hlook] at hlook'
    exact (Option.some_inj.mp hlook').symm
  subst hteq
  have hsymtab := pair_betweenness_tab_symm G arr hv hlook
  have hcs := create_clique_symm G v t (nbrs_nodup hs v) hkeys hkmem hsymtab
  obtain ⟨C, vm2, hcol, hC2, hCsq, hCsym, hvm2, -⟩ := collapse_spec
    (G.nbrs v).length (create_clique G v t) ((G.nbrs v).map fun ve => [ve])
    (create_clique_square G v t) hcs
    (by rw [create_clique_length]; exact hdeg)
    (by rw [List.length_map, create_clique_length])
    (by rw [create_clique_length]; omega)
  refine ⟨C, vm2, hcol, hC2, hCsq, hCsym, hvm2, ?_⟩
  obtain ⟨r0, hr0, hr0len, -⟩ := row_facts hCsq (show 0 < C.length by omega)
  rw [show List.get? C 0 = C[0]? from List.get?_eq_getElem? C 0, hr0,
    Option.getD_some,
    show List.get? r0 1 = r0[1]? from List.get?_eq_getElem? r0 1,
    List.getElem?_eq_getElem (by rw [hr0len, hC2]; omega)]
  exact ⟨_, rfl⟩

theorem msbLoop_max (G : Graph) :
    ∀ (l : Dic) (vMax : ℚ) (best : Option (ℕ × List (List ℕ)))
      (res : ℚ × Option (ℕ × List (List ℕ))),
      msbLoop G l vMax best = some res →
      vMax ≤ res.1 ∧
      (∀ v pbv val, (v, pbv) ∈ l → candVal G v pbv = some val →
        val ≤ res.1) ∧
      res.2.isSome = true ∧
      ((res.1 = vMax ∧ res.2 = best) ∨
        ∃ v pbv r, (v, pbv) ∈ l ∧ candRes G v pbv = some r ∧
          candVal G v pbv = some res.1 ∧ res.2 = some (v, r.2))
  | [], vMax, best, res, h => by
    unfold msbLoop at h
    cases best with
    | none => exact Option.noConfusion h
    | some b =>
      have hres : (vMax, some b) = res := Option.some_inj.mp h
      subst hres
      exact ⟨le_refl _, fun v pbv val hmem _ => absurd hmem (List.not_mem_nil _),
        rfl, Or.inl ⟨rfl, rfl⟩⟩
  | (v, pbv) :: rest, vMax, best, res, h => by
    unfold msbLoop at h
    dsimp only [] at h
    cases hcol : collapse (G.nbrs v).length
        (create_clique G v pbv, (G.nbrs v).map fun ve => [ve]) with
    | none =>
      rw [hcol] at h
      exact Option.noConfusion h
    | some r =>
      obtain ⟨c2, vm2⟩ := r
      rw [hcol] at h
      dsimp only [] at h
      cases hval : ((c2.get? 0).getD []).get? 1 with
      | none =>
        rw [hval] at h
        exact Option.noConfusion h
      | some val =>
        rw [hval] at h
        dsimp only [] at h
        have hcr : candRes G v pbv = some (c2, vm2) := hcol
        have hcv : candVal G v pbv = some val := by
          unfold candVal
          rw [hcr]
          exact hval
        by_cases hgt : val > vMax
        · rw [if_pos hgt] at h
          obtain ⟨h1, h2, hsome, h3⟩ :=
            msbLoop_max G rest val (some (v, vm2)) res h
          refine ⟨by linarith, ?_, hsome, ?_⟩
          · intro v' pbv' val' hmem' hcv'
            rcases List.mem_cons.mp hmem' with hh | hh
            · injection hh with hv' hp'
              subst hv'
              subst hp'
              rw [hcv] at hcv'
              have : val = val' := Option.some_inj.mp hcv'
              linarith
            · exact h2 v' pbv' val' hh hcv'
          · rcases h3 with ⟨hr1, hr2⟩ | ⟨v', pbv', r', hm', hcr', hcv', hres2⟩
            · refine Or.inr ⟨v, pbv, (c2, vm2), List.mem_cons_self _ _, hcr,
                ?_, by rw [hr2]⟩
              rw [hr1]
              exact hcv
            · exact Or.inr ⟨v', pbv', r', List.mem_cons_of_mem _ hm', hcr',
                hcv', hres2⟩
        · rw [if_neg hgt] at h
          obtain ⟨h1, h2, hsome, h3⟩ := msbLoop_max G rest vMax best res h
          refine ⟨h1, ?_, hsome, ?_⟩
          · intro v' pbv' val' hmem' hcv'
            rcases List.mem_cons.mp hmem' with hh | hh
            · injection hh with hv' hp'
              subst hv'
              subst hp'
              rw [hcv] at hcv'
              have hvv : val = val' := Option.some_inj.mp hcv'
              have : val ≤ vMax := by linarith [not_lt.mp hgt]
              linarith
            · exact h2 v' pbv' val' hh hcv'
          · rcases h3 with hl | ⟨v', pbv', r', hm', rest'⟩
            · exact Or.inl hl
            · exact Or.inr ⟨v', pbv', r', List.mem_cons_of_mem _ hm', rest'⟩

/-- C4: in a simple graph with at least one edge, every vertex admitted to
the candidate set (vertex betweenness ≥ the maximum edge betweenness) has at
least two neighbours, so each candidate's clique matrix has dimension ≥ 2,
the collapse reaches a 2 × 2 matrix, and the final `clique[0, 1]` read is in
bounds. -/
theorem candidate_degree_safety (G : Graph) :
    (∀ mi maxEb, G.Simple → G.edges ≠ [] →
      maxEnum (edge_betweenness G) = some (mi, maxEb) →
      ∀ i b, (betweenness G).get? i = some b → b ≥ maxEb →
        2 ≤ (G.nbrs i).length) ∧
    (∀ mi maxEb, G.Simple → G.edges ≠ [] →
      maxEnum (edge_betweenness G) = some (mi, maxEb) →
      ∀ v pbv,
        (v, pbv) ∈ pair_betweenness G
          (((betweenness G).enum.filter fun p => p.2 ≥ maxEb).map (·.1)) →
        2 ≤ (create_clique G v pbv).length ∧
        ∃ C vm2 val, candRes G v pbv = some (C, vm2) ∧ C.length = 2 ∧
          ((C.get? 0).getD []).get? 1 = some val) := by
  refine ⟨fun mi maxEb hs hne hmax i b hib hbge =>
    candidate_two_nbrs hs hne hmax hib hbge, ?_⟩
  intro mi maxEb hs hne hmax v pbv hmem
  have hvarr : v ∈ ((betweenness G).enum.filter fun p => p.2 ≥ maxEb).map
      (·.1) := by
    rw [← pair_betweenness_keys G
      (((betweenness G).enum.filter fun p => p.2 ≥ maxEb).map (·.1))]
    exact List.mem_map.mpr ⟨(v, pbv), hmem, rfl⟩
  obtain ⟨p, hpf, hp1⟩ := List.mem_map.mp hvarr
  have hpmem : p ∈ (betweenness G).enum := List.mem_of_mem_filter hpf
  have hpge : p.2 ≥ maxEb := by simpa using List.of_mem_filter hpf
  obtain ⟨i, b⟩ := p
  have hget : (betweenness G).get? i = some b := mem_enum_get? hpmem
  have hdeg : 2 ≤ (G.nbrs v).length := by
    rw [← hp1]
    exact candidate_two_nbrs hs hne hmax hget (by simpa using hpge)
  have hvind : ((((betweenness G).enum.filter fun p => p.2 ≥ maxEb).map
      (·.1))).Nodup := by
    refine List.Nodup.sublist (List.Sublist.map _ (List.filter_sublist _)) ?_
    show ((betweenness G).enum.map (·.1)).Nodup
    have henum : (betweenness G).enum.map (·.1)
        = List.range (betweenness G).length := List.enum_map_fst _
    rw [henum]
    exact List.nodup_range _
  have hlook : dlook (pair_betweenness G
      (((betweenness G).enum.filter fun p => p.2 ≥ maxEb).map (·.1))) v
      = some pbv :=
    dlook_of_mem_nodup _ (by rw [pair_betweenness_keys]; exact hvind) hmem
  obtain ⟨C, vm2, hcol, hC2, hCsq, -, -, val, hval⟩ :=
    candidate_collapse_ok hs hvarr hlook hdeg
  exact ⟨by rw [create_clique_length]; exact hdeg,
    C, vm2, val, hcol, hC2, hval⟩

/-- C2: the optimal split finder follows the spec: each candidate's clique is
the neighbour-dimension square matrix with zero diagonal; the cell `(i, j)`
chosen at each step — `mat_min` of the current matrix — is a strictly-upper
in-bounds cell of minimal value among all off-diagonal cells, and the step
replaces the matrix by `specReduce` there (merge row and column `j` into
`i` by addition, delete row and column `j`, re-zero the diagonal) while
appending neighbour-group `j` onto neighbour-group `i` and deleting group
`j`; the loop stops as soon as the matrix is exactly 2 × 2, always reaching
that point with two tracked groups that together still hold every original
neighbour exactly once; and whenever `max_split_betweenness` returns, its
value is an upper bound on all the candidates' split betweennesses and is
achieved by the returned vertex and grouping (when no candidate beats the
initial 0, Python's `UnboundLocalError` is modelled as `none`, so a normal
return always carries an achiever). -/
theorem max_split_betweenness_spec (G : Graph) (dic : Dic) :
    (∀ v pbv, (create_clique G v pbv).length = (G.nbrs v).length ∧
      IsSquare (create_clique G v pbv) ∧ ZeroDiag (create_clique G v pbv)) ∧
    (∀ M : Mat, IsSquare M → SymmM M → 2 ≤ M.length →
      (mat_min M).1 < (mat_min M).2 ∧ (mat_min M).2 < M.length ∧
      (∀ a b, a < M.length → b < M.length → a ≠ b →
        mget M (mat_min M).1 (mat_min M).2 ≤ mget M a b) ∧
      (reduce_matrix M).1 = (mat_min M).1 ∧
      (reduce_matrix M).2.1 = (mat_min M).2 ∧
      (reduce_matrix M).2.2 = specReduce M (mat_min M).1 (mat_min M).2) ∧
    (∀ (fuel : ℕ) (M : Mat) (vm : List (List ℕ)),
      IsSquare M → SymmM M → 2 < M.length → vm.length = M.length →
      collapse (fuel + 1) (M, vm)
        = collapse fuel (specReduce M (mat_min M).1 (mat_min M).2,
            (vm.eraseIdx (mat_min M).2).set (mat_min M).1
              (((vm.get? (mat_min M).1).getD [])
                ++ ((vm.get? (mat_min M).2).getD [])))) ∧
    (∀ (fuel : ℕ) (M : Mat) (vm : List (List ℕ)), IsSquare M →
      M.length = 2 → collapse fuel (M, vm) = some (M, vm)) ∧
    (∀ (fuel : ℕ) (M : Mat) (vm : List (List ℕ)),
      IsSquare M → SymmM M → 2 ≤ M.length → vm.length = M.length →
      M.length ≤ fuel + 2 →
      ∃ C vm2, collapse fuel (M, vm) = some (C, vm2) ∧ C.length = 2 ∧
        IsSquare C ∧ SymmM C ∧ vm2.length = 2 ∧
        vm2.flatten.Perm vm.flatten) ∧
    (∀ res, max_split_betweenness G dic = some res →
      0 ≤ res.1 ∧
      (∀ v pbv val, (v, pbv) ∈ dic → candVal G v pbv = some val →
        val ≤ res.1) ∧
      ∃ v pbv r, (v, pbv) ∈ dic ∧ candRes G v pbv = some r ∧
        candVal G v pbv = some res.1 ∧ res.2 = some (v, r.2)) := by
  refine ⟨fun v pbv => ⟨create_clique_length G v pbv,
      create_clique_square G v pbv, create_clique_zdiag G v pbv⟩,
    fun M hsq hsym h2 => ?_,
    fun fuel M vm hsq hsym h3 hlen => collapse_step fuel vm hsq hsym h3 hlen,
    fun fuel M vm hsq h2 => ?_,
    fun fuel M vm h1 h2 h3 h4 h5 => collapse_spec fuel M vm h1 h2 h3 h4 h5,
    fun res hres => ?_⟩
  · obtain ⟨hij, hjn, hmin, -⟩ := mat_min_char hsq hsym h2
    obtain ⟨e1, e2, e3⟩ := reduce_matrix_eq_spec hsq hsym h2
    exact ⟨hij, hjn, hmin, e1, e2, e3⟩
  · unfold collapse
    rw [if_pos (by rw [msize_square hsq, h2])]
  · obtain ⟨h1, h2, hsome, h3⟩ := msbLoop_max G dic 0 none res hres
    refine ⟨h1, h2, ?_⟩
    rcases h3 with ⟨-, hr2⟩ | hach
    · rw [hr2] at hsome
      exact absurd hsome (by simp)
    · exact hach

theorem delete_edge_n (G : Graph) (e : ℕ × ℕ) : (delete_edge G e).2.n = G.n :=
  rfl

theorem delete_edge_valid {G : Graph} (e : ℕ × ℕ)
    (hval : ∀ f ∈ G.edges, f.1 < G.n ∧ f.2 < G.n ∧ f.1 ≠ f.2) :
    ∀ f ∈ (delete_edge G e).2.edges, f.1 < G.n ∧ f.2 < G.n ∧ f.1 ≠ f.2 := by
  intro f hf
  have hsub : (delete_edge G e).2.edges ⊆ G.edges := by
    show removeFirstEdge G.edges e ⊆ G.edges
    unfold removeFirstEdge
    exact (List.eraseP_sublist _).subset
  exact hval f (hsub hf)

theorem split_fold_props (n0 v : ℕ) :
    ∀ (g : List ℕ) (H : Graph), H.n = n0 + 1 →
      (∀ p ∈ g, p < n0) →
      (∀ f ∈ H.edges, f.1 < n0 + 1 ∧ f.2 < n0 + 1 ∧ f.1 ≠ f.2) →
      (g.foldl (fun H p =>
          { H with edges := removeFirstEdge (H.edges ++ [(n0, p)]) (v, p) })
        H).n = n0 + 1 ∧
      ∀ f ∈ (g.foldl (fun H p =>
          { H with edges := removeFirstEdge (H.edges ++ [(n0, p)]) (v, p) })
        H).edges, f.1 < n0 + 1 ∧ f.2 < n0 + 1 ∧ f.1 ≠ f.2
  | [], H, hn, _, hv => ⟨hn, hv⟩
  | p :: g, H, hn, hg, hv => by
    rw [List.foldl_cons]
    refine split_fold_props n0 v g _ hn
      (fun q hq => hg q (List.mem_cons_of_mem p hq)) ?_
    intro f hf
    have hf' : f ∈ H.edges ++ [(n0, p)] := by
      have hsub : removeFirstEdge (H.edges ++ [(n0, p)]) (v, p)
          ⊆ H.edges ++ [(n0, p)] := by
        unfold removeFirstEdge
        exact (List.eraseP_sublist _).subset
      exact hsub hf
    rcases List.mem_append.mp hf' with h1 | h1
    · exact hv f h1
    · rw [List.mem_singleton] at h1
      subst h1
      have hp : p < n0 := hg p (List.mem_cons_self p g)
      exact ⟨by omega, by omega, by omega⟩

theorem split_fold_n (n0 v : ℕ) :
    ∀ (g : List ℕ) (H : Graph),
      (g.foldl (fun H p =>
          { H with edges := removeFirstEdge (H.edges ++ [(n0, p)]) (v, p) })
        H).n = H.n
  | [], _ => rfl
  | p :: g, H => by
    rw [List.foldl_cons]
    exact split_fold_n n0 v g _

theorem split_vertex_n (G : Graph) (v : ℕ) (g : List ℕ) :
    (split_vertex G v g).2.n = G.n + 1 :=
  split_fold_n G.n v g _

theorem check_for_split_iff {H : Graph}
    (hval : ∀ f ∈ H.edges, f.1 < H.n ∧ f.2 < H.n ∧ f.1 ≠ f.2)
    {a b : ℕ} (ha : a < H.n) :
    (check_for_split H (a, b) = true ↔ ¬ Linked H a b) := by
  unfold check_for_split
  constructor
  · intro h hl
    have hr := (reachable_iff_linked hval ha).mpr hl
    rw [hr] at h
    simp at h
  · intro h
    cases hr : reachable H a b
    · rfl
    · exact absurd ((reachable_iff_linked hval ha).mp hr) h

theorem delete_edge_disconn {G : Graph} {e : ℕ × ℕ} (he : e ∈ G.edges)
    (hval : ∀ f ∈ G.edges, f.1 < G.n ∧ f.2 < G.n ∧ f.1 ≠ f.2) :
    ((delete_edge G e).1 = true ↔ ¬ Linked (delete_edge G e).2 e.1 e.2) := by
  have hv' := delete_edge_valid e hval
  exact check_for_split_iff hv' ((hval e he).1)

theorem split_vertex_disconn {G : Graph}
    (hval : ∀ f ∈ G.edges, f.1 < G.n ∧ f.2 < G.n ∧ f.1 ≠ f.2)
    {v : ℕ} (hv : v < G.n) {g : List ℕ} (hg : ∀ p ∈ g, p < G.n) :
    ((split_vertex G v g).1 = true ↔
      ¬ Linked (split_vertex G v g).2 v G.n) := by
  have hprops := split_fold_props G.n v g
    { n := G.n + 1, edges := G.edges,
      orig := G.orig ++ [(G.orig.get? v).getD 0] } rfl hg
    (fun f hf => by
      have h := hval f hf
      exact ⟨by omega, by omega, h.2.2⟩)
  have hn2 : (split_vertex G v g).2.n = G.n + 1 := split_vertex_n G v g
  have hv2 : ∀ f ∈ (split_vertex G v g).2.edges,
      f.1 < (split_vertex G v g).2.n ∧ f.2 < (split_vertex G v g).2.n ∧
        f.1 ≠ f.2 := by
    intro f hf
    rw [hn2]
    exact hprops.2 f hf
  exact check_for_split_iff hv2 (by rw [hn2]; omega)

theorem resv_delete_of_empty {G : Graph} {mi : ℕ} {maxEb : ℚ} {estar : ℕ × ℕ}
    (hmax : maxEnum (edge_betweenness G) = some (mi, maxEb))
    (hedge : G.edges.get? mi = some estar)
    (hempty : ((betweenness G).enum.filter fun p => p.2 ≥ maxEb).map (·.1)
      = []) :
    remove_edge_or_split_vertex G = some (delete_edge G estar) := by
  unfold remove_edge_or_split_vertex
  rw [hmax]
  simp only [Option.bind_eq_bind, Option.some_bind]
  rw [hedge]
  simp only [Option.some_bind]
  rw [hempty]
  rfl

theorem resv_delete_of_le {G : Graph} {mi : ℕ} {maxEb : ℚ} {estar : ℕ × ℕ}
    {maxSplit : ℚ} {best : Option (ℕ × List (List ℕ))}
    (hmax : maxEnum (edge_betweenness G) = some (mi, maxEb))
    (hedge : G.edges.get? mi = some estar)
    (hne : ((betweenness G).enum.filter fun p => p.2 ≥ maxEb).map (·.1) ≠ [])
    (hms : max_split_betweenness G (pair_betweenness G
      (((betweenness G).enum.filter fun p => p.2 ≥ maxEb).map (·.1)))
      = some (maxSplit, best))
    (hle : ¬ maxSplit > maxEb) :
    remove_edge_or_split_vertex G = some (delete_edge G estar) := by
  unfold remove_edge_or_split_vertex
  rw [hmax]
  simp only [Option.bind_eq_bind, Option.some_bind]
  rw [hedge]
  simp only [Option.some_bind]
  rw [show (((betweenness G).enum.filter fun p => p.2 ≥ maxEb).map
    (·.1)).isEmpty = false from List.isEmpty_eq_false.mpr hne]
  rw [if_neg (by simp)]
  rw [hms]
  simp only [Option.some_bind]
  rw [if_neg hle]
  rfl

theorem resv_split_of_gt {G : Graph} {mi : ℕ} {maxEb : ℚ} {estar : ℕ × ℕ}
    {maxSplit : ℚ} {best : Option (ℕ × List (List ℕ))} {vNum : ℕ}
    {spl : List (List ℕ)} {g0 : List ℕ}
    (hmax : maxEnum (edge_betweenness G) = some (mi, maxEb))
    (hedge : G.edges.get? mi = some estar)
    (hne : ((betweenness G).enum.filter fun p => p.2 ≥ maxEb).map (·.1) ≠ [])
    (hms : max_split_betweenness G (pair_betweenness G
      (((betweenness G).enum.filter fun p => p.2 ≥ maxEb).map (·.1)))
      = some (maxSplit, best))
    (hgt : maxSplit > maxEb) (hbest : best = some (vNum, spl))
    (hg0 : spl.get? 0 = some g0) :
    remove_edge_or_split_vertex G = some (split_vertex G vNum g0) := by
  unfold remove_edge_or_split_vertex
  rw [hmax]
  simp only [Option.bind_eq_bind, Option.some_bind]
  rw [hedge]
  simp only [Option.some_bind]
  rw [show (((betweenness G).enum.filter fun p => p.2 ≥ maxEb).map
    (·.1)).isEmpty = false from List.isEmpty_eq_false.mpr hne]
  rw [if_neg (by simp)]
  rw [hms]
  simp only [Option.some_bind]
  rw [if_pos hgt, hbest]
  dsimp only []
  rw [hg0]
  rfl

theorem vi_mem_iff (G : Graph) (maxEb : ℚ) (v : ℕ) :
    v ∈ ((betweenness G).enum.filter fun p => p.2 ≥ maxEb).map (·.1)
      ↔ ∃ b, (betweenness G).get? v = some b ∧ b ≥ maxEb := by
  constructor
  · intro h
    obtain ⟨p, hpf, hp1⟩ := List.mem_map.mp h
    obtain ⟨i, b⟩ := p
    have hget := mem_enum_get? (List.mem_of_mem_filter hpf)
    have hge : b ≥ maxEb := by simpa using List.of_mem_filter hpf
    have hp1' : i = v := hp1
    subst hp1'
    exact ⟨b, hget, hge⟩
  · rintro ⟨b, hget, hge⟩
    exact List.mem_map.mpr ⟨(v, b),
      List.mem_filter.mpr ⟨get?_mem_enum hget, by simpa using hge⟩, rfl⟩

theorem maxEnum_attained (G : Graph) {mi : ℕ} {maxEb : ℚ}
    (hmax : maxEnum (edge_betweenness G) = some (mi, maxEb)) :
    (∀ y ∈ edge_betweenness G, y ≤ maxEb) ∧
    ∃ estar, G.edges.get? mi = some estar ∧ ebOf G estar = maxEb := by
  obtain ⟨hget, hub, -⟩ := maxEnum_spec hmax
  refine ⟨hub, ?_⟩
  unfold edge_betweenness at hget
  rw [List.get?_eq_getElem?, List.getElem?_map] at hget
  cases he : G.edges[mi]? with
  | none =>
    rw [he] at hget
    exact Option.noConfusion hget
  | some e =>
    rw [he, Option.map_some'] at hget
    exact ⟨e, by rw [List.get?_eq_getElem?, he], Option.some_inj.mp hget⟩

/-- C1: one iteration of `remove_edge_or_split_vertex` follows the spec's
decision rule: `maxEb` (when the graph still has an edge) is the maximum
edge betweenness, attained by the chosen edge `e*`; the candidate set is
exactly the set of vertices whose vertex betweenness is ≥ `maxEb`; with no
candidates `e*` is deleted; otherwise the pair betweennesses of the
candidates decide: the optimal split is applied iff its split betweenness
strictly exceeds `maxEb`, else `e*` is deleted; and the returned Boolean
says whether the applied modification disconnected the graph. -/
theorem remove_edge_or_split_vertex_spec (G : Graph) :
    (G.edges ≠ [] → maxEnum (edge_betweenness G) ≠ none) ∧
    (∀ mi maxEb, maxEnum (edge_betweenness G) = some (mi, maxEb) →
      (∀ y ∈ edge_betweenness G, y ≤ maxEb) ∧
      ∃ estar, G.edges.get? mi = some estar ∧ ebOf G estar = maxEb) ∧
    (∀ maxEb v,
      v ∈ ((betweenness G).enum.filter fun p => p.2 ≥ maxEb).map (·.1) ↔
        ∃ b, (betweenness G).get? v = some b ∧ b ≥ maxEb) ∧
    (∀ mi maxEb estar,
      maxEnum (edge_betweenness G) = some (mi, maxEb) →
      G.edges.get? mi = some estar →
      ((((betweenness G).enum.filter fun p => p.2 ≥ maxEb).map (·.1)) = [] →
        remove_edge_or_split_vertex G = some (delete_edge G estar)) ∧
      ((((betweenness G).enum.filter fun p => p.2 ≥ maxEb).map (·.1)) ≠ [] →
        ∀ maxSplit best,
          max_split_betweenness G (pair_betweenness G
            (((betweenness G).enum.filter fun p => p.2 ≥ maxEb).map (·.1)))
            = some (maxSplit, best) →
          (¬ maxSplit > maxEb →
            remove_edge_or_split_vertex G = some (delete_edge G estar)) ∧
          (maxSplit > maxEb → ∀ vNum spl g0, best = some (vNum, spl) →
            spl.get? 0 = some g0 →
            remove_edge_or_split_vertex G
              = some (split_vertex G vNum g0)))) ∧
    (∀ e ∈ G.edges, (∀ f ∈ G.edges, f.1 < G.n ∧ f.2 < G.n ∧ f.1 ≠ f.2) →
      ((delete_edge G e).1 = true ↔ ¬ Linked (delete_edge G e).2 e.1 e.2)) ∧
    (∀ v g, v < G.n → (∀ f ∈ G.edges, f.1 < G.n ∧ f.2 < G.n ∧ f.1 ≠ f.2) →
      (∀ p ∈ g, p < G.n) →
      ((split_vertex G v g).1 = true ↔
        ¬ Linked (split_vertex G v g).2 v G.n)) := by
  refine ⟨?_, ?_, ?_, ?_, ?_, ?_⟩
  · intro hne
    apply maxEnum_ne_none
    intro hh
    unfold edge_betweenness at hh
    exact hne (List.map_eq_nil.mp hh)
  · exact fun mi maxEb hmax => maxEnum_attained G hmax
  · exact fun maxEb v => vi_mem_iff G maxEb v
  · intro mi maxEb estar hmax hedge
    refine ⟨fun hempty => resv_delete_of_empty hmax hedge hempty, ?_⟩
    intro hne maxSplit best hms
    exact ⟨fun hle => resv_delete_of_le hmax hedge hne hms hle,
      fun hgt vNum spl g0 hbest hg0 =>
        resv_split_of_gt hmax hedge hne hms hgt hbest hg0⟩
  · exact fun e he hval => delete_edge_disconn he hval
  · exact fun v g hv hval hg => split_vertex_disconn hval hv hg

theorem congaLoop_done : ∀ (fuel : ℕ) (st : CState),
    st.g.edges.isEmpty = true → congaLoop fuel st = some st
  | 0, st, h => by
    unfold congaLoop
    rw [if_pos h]
  | fuel + 1, st, h => by
    unfold congaLoop
    rw [if_pos h]

theorem congaLoop_og : ∀ (fuel : ℕ) (st st' : CState),
    congaLoop fuel st = some st' → st'.og = st.og
  | 0, st, st', h => by
    unfold congaLoop at h
    by_cases he : st.g.edges.isEmpty
    · rw [if_pos he] at h
      rw [← Option.some_inj.mp h]
    · rw [if_neg he] at h
      exact Option.noConfusion h
  | fuel + 1, st, st', h => by
    unfold congaLoop at h
    by_cases he : st.g.edges.isEmpty
    · rw [if_pos he] at h
      rw [← Option.some_inj.mp h]
    · rw [if_neg he] at h
      cases hr : remove_edge_or_split_vertex st.g with
      | none =>
        rw [hr] at h
        exact Option.noConfusion h
      | some p =>
        obtain ⟨split, g'⟩ := p
        rw [hr] at h
        dsimp only [] at h
        cases split with
        | true =>
          rw [if_pos rfl] at h
          have hog := congaLoop_og fuel _ st' h
          exact hog
        | false =>
          rw [if_neg (by simp)] at h
          have hog := congaLoop_og fuel _ st' h
          exact hog

theorem congaLoop_mod : ∀ (fuel : ℕ) (st st' : CState),
    congaLoop fuel st = some st' →
    st'.calcMod = st.calcMod ∧
      ((st.modDict.isSome ↔ st.calcMod = none) →
        (st'.modDict.isSome ↔ st'.calcMod = none))
  | 0, st, st', h => by
    unfold congaLoop at h
    by_cases he : st.g.edges.isEmpty
    · rw [if_pos he] at h
      rw [← Option.some_inj.mp h]
      exact ⟨rfl, fun hh => hh⟩
    · rw [if_neg he] at h
      exact Option.noConfusion h
  | fuel + 1, st, st', h => by
    unfold congaLoop at h
    by_cases he : st.g.edges.isEmpty
    · rw [if_pos he] at h
      rw [← Option.some_inj.mp h]
      exact ⟨rfl, fun hh => hh⟩
    · rw [if_neg he] at h
      cases hr : remove_edge_or_split_vertex st.g with
      | none =>
        rw [hr] at h
        exact Option.noConfusion h
      | some p =>
        obtain ⟨split, g'⟩ := p
        rw [hr] at h
        dsimp only [] at h
        cases split with
        | true =>
          rw [if_pos rfl] at h
          cases hcm : st.calcMod with
          | none =>
            rw [hcm] at h
            dsimp only [] at h
            have hmod := congaLoop_mod fuel _ st' h
            refine ⟨hmod.1, fun _ => ?_⟩
            apply hmod.2
            simp
          | some m =>
            rw [hcm] at h
            dsimp only [] at h
            have hmod := congaLoop_mod fuel _ st' h
            refine ⟨hmod.1, fun hh => ?_⟩
            exact hmod.2 hh
        | false =>
          rw [if_neg (by simp)] at h
          have hmod := congaLoop_mod fuel _ st' h
          exact hmod

/-- C8: `conga` never mutates the caller's graph: the run works on a copy,
and the graph object handed back to the evaluator is the unchanged input. -/
theorem conga_frame (OG : Graph) (cm : Option String) (oc : Option ℕ)
    (fuel : ℕ) (r : CongaResult) (h : conga OG cm oc fuel = some r) :
    r.og = OG := by
  unfold conga at h
  dsimp only [] at h
  split at h
  · exact Option.noConfusion h
  · rename_i st hl
    have hog := congaLoop_og fuel _ st hl
    rw [← Option.some_inj.mp h]
    exact hog

theorem conga_frame_witness :
    (conga ⟨2, [], [0, 1]⟩ (some "lazar") none 0
      = some (CongaResult.mk ⟨2, [], [0, 1]⟩ [(2, [[0, 1]])] none "lazar"
          none)) ∧
    (CongaResult.mk (⟨2, [], [0, 1]⟩ : Graph) [(2, [[0, 1]])] none "lazar"
        none).og = ⟨2, [], [0, 1]⟩ :=
  ⟨rfl, conga_frame ⟨2, [], [0, 1]⟩ (some "lazar") none 0 _ rfl⟩

/-- C7 (amended): the modularity table handed to the evaluator is populated
exactly when `calculate_modularities` is `None` (the default); passing a
measure string through the argument leaves the table unpopulated for lazy
external evaluation. This is the inverse of the claim's reading, under which
supplying the argument requests eager computation. -/
theorem conga_modularities (OG : Graph) (cm : Option String) (oc : Option ℕ)
    (fuel : ℕ) (r : CongaResult) (h : conga OG cm oc fuel = some r) :
    r.modularities.isSome ↔ cm = none := by
  unfold conga at h
  dsimp only [] at h
  split at h
  · exact Option.noConfusion h
  · rename_i st hl
    have hmod := congaLoop_mod fuel _ st hl
    have hkey : st.modDict.isSome ↔ st.calcMod = none := by
      apply hmod.2
      cases cm <;> simp
    have hcm : st.calcMod = cm := hmod.1
    rw [hcm] at hkey
    rw [← Option.some_inj.mp h]
    exact hkey

theorem conga_modularities_witness :
    (CongaResult.mk (⟨2, [], [0, 1]⟩ : Graph) [(2, [[0, 1]])] none "lazar"
        none).modularities.isSome ↔ (some "lazar" : Option String) = none :=
  conga_modularities ⟨2, [], [0, 1]⟩ (some "lazar") none 0 _ rfl

/-- C7 (counterexample to the claim as stated): the caller requests
modularities via `calculate_modularities = "lazar"`, yet the table handed to
the evaluator is `None`. -/
theorem conga_modularities_cex :
    (conga ⟨2, [], [0, 1]⟩ (some "lazar") none 0
      = some (CongaResult.mk ⟨2, [], [0, 1]⟩ [(2, [[0, 1]])] none "lazar"
          none)) ∧
    (CongaResult.mk (⟨2, [], [0, 1]⟩ : Graph) [(2, [[0, 1]])] none "lazar"
        none).modularities = none :=
  ⟨rfl, rfl⟩

/-- C6: on an edgeless input `conga` does terminate immediately (any fuel,
even 0) and returns exactly one snapshot keyed by the component count — but
the snapshot stored is `ig.VertexCover(OG)`, igraph's default cover with one
cluster holding every vertex, not the connected-components cover: on the
2-vertex edgeless graph the stored snapshot is `[[0, 1]]` while the
components cover computed by `get_cover` from `membership` is `[[0], [1]]`,
and the `comm` computed at line 34 is never passed to the `VertexCover` built
at line 46. -/
theorem conga_edgeless :
    (∀ (OG : Graph) (cm : Option String) (oc : Option ℕ) (fuel : ℕ),
      OG.edges = [] → ∃ r, conga OG cm oc fuel = some r ∧
        r.covers = [(nComponents { OG with orig := List.range OG.n },
          [List.range OG.n])]) ∧
    (conga ⟨2, [], [0, 1]⟩ none none 0
      = some (CongaResult.mk ⟨2, [], [0, 1]⟩ [(2, [[0, 1]])]
          (some [(2, modularity ⟨2, [], [0, 1]⟩ [0, 1])]) "lazar" none)) ∧
    membership (⟨2, [], [0, 1]⟩ : Graph) = [0, 1] ∧
    get_cover ⟨2, [], [0, 1]⟩ ⟨2, [], [0, 1]⟩ [0, 1] = [[0], [1]] ∧
    ([[0, 1]] : List (List ℕ)) ≠ [[0], [1]] := by
  refine ⟨?_, rfl, by decide, by decide, by decide⟩
  intro OG cm oc fuel h
  unfold conga
  dsimp only []
  rw [congaLoop_done fuel _ (by simp [h])]
  dsimp only []
  exact ⟨_, rfl, rfl⟩

end Conga
